import Mathlib

/-!
Verification of the luminal CUDA backend compiler.

This file gives a shallow embedding of the CUDA backend of the luminal
tensor-graph compiler (crates/luminal_cuda/src/{lib,prim}.rs) and settles a
collection of claims made by its natural-language specification.

The embedding covers:
* the copy-to/from-device boundary operators (`CudaCopyToDevice.process`,
  `CudaCopyFromDevice.process`);
* the kernel cache and loader (`compile_and_load_kernel`);
* the RPN-to-CUDA expression lowering (`expr_to_cuda_string`);
* the launch-size computations of the elementwise and reduction operators;
* the graph-rewriting passes `CudaPrimitiveCompiler.compile` and
  `CopyCompiler.compile`, over an explicit multigraph model.

Types external to the crate (the shape tracker, symbolic terms, and the
graph-utility helpers of the core luminal repository) are modelled from the
specification; each such definition carries a doc comment saying so.
-/

/-- Modelled from the spec: the `ShapeTracker` of the core graph IR is not part
of the CUDA crate.  Per the spec it exposes a list of logical dimension sizes
(`shape()`), the logical element count `n_elements` (their product), the
physical element count `n_physical_elements`, and `remove_dim`.  Dimensions are
concrete naturals (dynamic symbols resolved, as `to_usize` demands). -/
structure ShapeTracker where
  dims : List Nat
  physDims : List Nat
deriving DecidableEq, Repr

/-- Logical element count: product of the logical dimensions. -/
def ShapeTracker.nElements (s : ShapeTracker) : Nat := s.dims.prod

/-- Physical element count: product of the physical (pre-view) dimensions. -/
def ShapeTracker.nPhysicalElements (s : ShapeTracker) : Nat := s.physDims.prod

/-- Modelled from the spec: `remove_dim` deletes one logical dimension. -/
def ShapeTracker.removeDim (s : ShapeTracker) (d : Nat) : ShapeTracker :=
  { s with dims := s.dims.eraseIdx d }

/-- The empty tracker, `ShapeTracker::new(&[])`. -/
def ShapeTracker.empty : ShapeTracker := ⟨[], []⟩

/-! ## Boundary copy operators (prim.rs, `CudaCopyToDevice` / `CudaCopyFromDevice`)

A tensor payload is either a host `Vec<f32>` or a device buffer `CudaData<T>`.
The element types are abstract: `F` plays 32-bit float, `T` the device element
type, and the `CudaFloat` conversions are explicit function arguments. -/

/-- A tensor value: host data (`Vec<f32>`) or device data (`CudaData<T>`). -/
inductive Payload (T F : Type) where
  | host (v : List F)
  | device (v : List T)
deriving DecidableEq, Repr

/-- Whether the payload is already a device buffer (`is::<CudaData<T>>`). -/
def Payload.isDevice {T F : Type} : Payload T F → Bool
  | .device _ => true
  | .host _ => false

/-- Whether the payload is host data (`is::<Vec<f32>>`). -/
def Payload.isHost {T F : Type} : Payload T F → Bool
  | .host _ => true
  | .device _ => false

/-- CudaCopyToDevice::process.  If the first input is already on device, the
(last) input is popped and returned cloned; otherwise the host `Vec<f32>` is
converted elementwise with `CudaFloat::from_f32` into a fresh device buffer.
`none` models the panics (`inp[0]` on an empty input, or the failing downcast
to `Vec<f32>`). -/
def CudaCopyToDevice.process {T F : Type} (from_f32 : F → T)
    (inp : List (Payload T F)) : Option (List (Payload T F)) := do
  let p0 ← inp.head?
  if p0.isDevice then
    let q ← inp.getLast?
    pure [q]
  else
    match p0 with
    | .host v => pure [Payload.device (v.map from_f32)]
    | .device _ => none

/-- CudaCopyFromDevice::process.  If the first input is already host data, the
(last) input is popped and returned cloned; otherwise the device buffer is
synchronously copied back and converted elementwise with `CudaFloat::to_f32`. -/
def CudaCopyFromDevice.process {T F : Type} (to_f32 : T → F)
    (inp : List (Payload T F)) : Option (List (Payload T F)) := do
  let p0 ← inp.head?
  if p0.isHost then
    let q ← inp.getLast?
    pure [q]
  else
    match p0 with
    | .device v => pure [Payload.host (v.map to_f32)]
    | .host _ => none

/-! ## Kernel cache and loader (lib.rs, `compile_and_load_kernel`)

The CUDA driver is modelled as the list of loaded modules, keyed by module
name; `compile_ptx_with_opts` is abstracted as an injective tagging of the
source text and the hash function is a parameter (the claims do not depend on
the concrete `DefaultHasher`). -/

/-- A compiled PTX artifact, tagged with the source it was compiled from. -/
structure Ptx where
  source : String
deriving DecidableEq, Repr

/-- Abstract `compile_ptx_with_opts`: records the exact source compiled. -/
def compile_ptx_with_opts (code : String) : Ptx := ⟨code⟩

/-- The device state visible to the loader: loaded modules (module name paired
with its PTX) and a counter of how many compilations were performed. -/
structure CudaDeviceState where
  modules : List (String × Ptx)
  compileCount : Nat
deriving DecidableEq, Repr

/-- A function handle, as returned by `get_func(module, name)`. -/
structure CudaFunctionHandle where
  moduleName : String
  funcName : String
  ptx : Ptx
deriving DecidableEq, Repr

/-- device.has_func(module, name): both are the derived kernel name here. -/
def CudaDeviceState.hasFunc (d : CudaDeviceState) (name : String) : Bool :=
  (d.modules.lookup name).isSome

/-- device.load_ptx(ptx, module, entries): registers the module. -/
def CudaDeviceState.loadPtx (d : CudaDeviceState) (name : String) (p : Ptx) :
    CudaDeviceState :=
  { modules := d.modules ++ [(name, p)], compileCount := d.compileCount + 1 }

/-- device.get_func(module, name). -/
def CudaDeviceState.getFunc (d : CudaDeviceState) (name : String) :
    Option CudaFunctionHandle :=
  (d.modules.lookup name).map (fun p => ⟨name, name, p⟩)

/-- compile_and_load_kernel.  Hashes the unmodified source, renames every
occurrence of the literal substring "kernel" to the derived unique name,
compiles and loads only when the device does not already hold a function of
that name, and returns the function handle together with the updated device
state.  `none` models the final `get_func(..).unwrap()` panic. -/
def compile_and_load_kernel (hash : String → Nat) (code : String)
    (device : CudaDeviceState) : Option (CudaFunctionHandle × CudaDeviceState) :=
  let name := "kernel_" ++ toString (hash code)
  let code1 := code.replace "kernel" name
  let device1 :=
    if device.hasFunc name then device
    else device.loadPtx name (compile_ptx_with_opts code1)
  (device1.getFunc name).map (fun f => (f, device1))

/-! ## Expression lowering (lib.rs, `expr_to_cuda_string`) -/

/-- Modelled from the spec: the symbolic RPN terms of the core repository.
Per the spec an expression is an RPN sequence over integer literals, single
character variables, the binary arithmetic operators and the binary relations
max and min. -/
inductive Term where
  | Num (n : Int)
  | Var (c : Char)
  | Add
  | Sub
  | Mul
  | Div
  | Mod
  | Min
  | Max
deriving DecidableEq, Repr

/-- Modelled from the spec: the Debug rendering of an operator term is its
infix textual form. -/
def Term.debugStr : Term → String
  | .Add => "+"
  | .Sub => "-"
  | .Mul => "*"
  | .Div => "/"
  | .Mod => "%"
  | _ => ""

/-- One iteration of the `expr_to_cuda_string` loop: process `term` against the
stack of rendered sub-expressions (head = top of stack, i.e. the first pop).
`none` models the `pop().unwrap()` panic on stack underflow. -/
def exprStep (term : Term) (symbols : List String) : Option (List String) :=
  match term with
  | .Num n => some (toString n :: symbols)
  | .Var c =>
      if c = 'z' then some ("(int)idx" :: symbols)
      else some (String.singleton c :: symbols)
  | .Max =>
      match symbols with
      | p1 :: p2 :: rest =>
          some (("max((int)" ++ p1 ++ ", (int)" ++ p2 ++ ")") :: rest)
      | _ => none
  | .Min =>
      match symbols with
      | p1 :: p2 :: rest =>
          some (("min((int)" ++ p1 ++ ", (int)" ++ p2 ++ ")") :: rest)
      | _ => none
  | t =>
      match symbols with
      | p1 :: p2 :: rest =>
          some (("(" ++ p1 ++ t.debugStr ++ p2 ++ ")") :: rest)
      | _ => none

/-- expr_to_cuda_string: run the stack loop over the RPN term list and pop the
final result. -/
def expr_to_cuda_string (terms : List Term) : Option String := do
  let symbols ← terms.foldlM (fun st t => exprStep t st) ([] : List String)
  symbols.head?

/-! ## Elementwise operator launch sizes (prim.rs)

The binary elementwise operators allocate and launch over
`tensors[0].1.n_elements()`; the unary ones over
`tensors[0].1.n_physical_elements()`.  Buffers are abstract (`B`). -/

/-- The (allocation size, launch element count) pair computed by
CudaAdd::process: both are the logical element count of the first input's
shape; `none` models the `tensors[i]` panics. -/
def CudaAdd.processSizes {B : Type} (tensors : List (B × ShapeTracker)) :
    Option (Nat × Nat) := do
  let t0 ← tensors.get? 0
  let _t1 ← tensors.get? 1
  let inp_size := t0.2.nElements
  pure (inp_size, inp_size)

/-- The (allocation size, launch element count) pair computed by
CudaMul::process. -/
def CudaMul.processSizes {B : Type} (tensors : List (B × ShapeTracker)) :
    Option (Nat × Nat) := do
  let t0 ← tensors.get? 0
  let _t1 ← tensors.get? 1
  let inp_size := t0.2.nElements
  pure (inp_size, inp_size)

/-- The (allocation size, launch element count) pair computed by
CudaMod::process. -/
def CudaMod.processSizes {B : Type} (tensors : List (B × ShapeTracker)) :
    Option (Nat × Nat) := do
  let t0 ← tensors.get? 0
  let _t1 ← tensors.get? 1
  let inp_size := t0.2.nElements
  pure (inp_size, inp_size)

/-- The (allocation size, launch element count) pair computed by
CudaLessThan::process. -/
def CudaLessThan.processSizes {B : Type} (tensors : List (B × ShapeTracker)) :
    Option (Nat × Nat) := do
  let t0 ← tensors.get? 0
  let _t1 ← tensors.get? 1
  let inp_size := t0.2.nElements
  pure (inp_size, inp_size)

/-! ## Unary elementwise operators (prim.rs)

`CudaLog2::new` (and likewise Exp2/Sin/Sqrt/Recip) renders a kernel whose body
is `out[i] = f(inp[i])` for `i < numel`: the constructor takes no shape, so no
index or valid expression occurs in the source.  `process` launches it over
`n_physical_elements` of the input view and returns the freshly written output
buffer of exactly that length.  The device intrinsic is the abstract `f`. -/

/-- Semantics of the unary kernel launch: output position `i < numel` receives
`f inp[i]` (the buffer read is total with the `zero` of `alloc_zeros`). -/
def unaryKernelRun {T : Type} (zero : T) (f : T → T) (inp : List T)
    (numel : Nat) : List T :=
  (List.range numel).map (fun i => f (inp.getD i zero))

/-- CudaLog2::process: launch the log2 kernel over the physical element count
of the first input's shape tracker. -/
def CudaLog2.process {T : Type} (zero : T) (log2Fn : T → T)
    (buf : List T) (st : ShapeTracker) : List T :=
  unaryKernelRun zero log2Fn buf st.nPhysicalElements

/-- CudaExp2::process. -/
def CudaExp2.process {T : Type} (zero : T) (exp2Fn : T → T)
    (buf : List T) (st : ShapeTracker) : List T :=
  unaryKernelRun zero exp2Fn buf st.nPhysicalElements

/-- CudaSin::process. -/
def CudaSin.process {T : Type} (zero : T) (sinFn : T → T)
    (buf : List T) (st : ShapeTracker) : List T :=
  unaryKernelRun zero sinFn buf st.nPhysicalElements

/-- CudaSqrt::process. -/
def CudaSqrt.process {T : Type} (zero : T) (sqrtFn : T → T)
    (buf : List T) (st : ShapeTracker) : List T :=
  unaryKernelRun zero sqrtFn buf st.nPhysicalElements

/-- CudaRecip::process. -/
def CudaRecip.process {T : Type} (zero : T) (recipFn : T → T)
    (buf : List T) (st : ShapeTracker) : List T :=
  unaryKernelRun zero recipFn buf st.nPhysicalElements

/-! ## Reduction operator sizes (prim.rs, `CudaSumReduce` / `CudaMaxReduce`) -/

/-- The `(front_size, back_size, dim_size, output numel)` quadruple computed by
CudaSumReduce::process before the launch: `front_size` multiplies the logical
dims before `dim`, `back_size` those after, `dim_size` is the dim itself, and
the output buffer / launch size is the element count of the shape with `dim`
removed. -/
def CudaSumReduce.processSizes (dim : Nat) (st : ShapeTracker) :
    Nat × Nat × Nat × Nat :=
  let shape := st.removeDim dim
  let inp_size := shape.nElements
  let front_size := (st.dims.take dim).prod
  let back_size := (st.dims.drop (dim + 1)).prod
  let dim_size := st.dims.getD dim 0
  (front_size, back_size, dim_size, inp_size)

/-- The same quadruple computed by CudaMaxReduce::process (the code is
duplicated in the source). -/
def CudaMaxReduce.processSizes (dim : Nat) (st : ShapeTracker) :
    Nat × Nat × Nat × Nat :=
  let shape := st.removeDim dim
  let inp_size := shape.nElements
  let front_size := (st.dims.take dim).prod
  let back_size := (st.dims.drop (dim + 1)).prod
  let dim_size := st.dims.getD dim 0
  (front_size, back_size, dim_size, inp_size)

/-! ## The graph model

A shallow embedding of the petgraph `StableGraph` the compiler passes rewrite:
nodes are numbered payload-carrying vertices (the list order models node-index
iteration order), edges a list of weighted directed arcs (list order models
edge-index iteration order), plus the `no_delete` / `to_retrieve` bookkeeping
sets of the luminal graph. -/

/-- Node payloads: the abstract primitive operators of the IR, the CUDA
operators substituted for them, the host-side `Function` and `Print` nodes,
the boundary copies, and a catch-all for operators this pass leaves alone. -/
inductive OpKind where
  | function
  | print
  | log2
  | exp2
  | sin
  | sqrt
  | recip
  | constant (v : Nat)
  | add
  | mul
  | mod
  | lessThan
  | contiguous
  | sumReduce (dim : Nat)
  | maxReduce (dim : Nat)
  | cudaCopyTo
  | cudaCopyFrom
  | cudaLog2
  | cudaExp2
  | cudaSin
  | cudaSqrt
  | cudaRecip
  | cudaConstant (v : Nat)
  | cudaAdd (a b : ShapeTracker)
  | cudaMul (a b : ShapeTracker)
  | cudaMod (a b : ShapeTracker)
  | cudaLessThan (a b : ShapeTracker)
  | cudaContiguous (a : ShapeTracker)
  | cudaSumReduce (dim : Nat) (a : ShapeTracker)
  | cudaMaxReduce (dim : Nat) (a : ShapeTracker)
  | other
deriving DecidableEq, Repr

/-- Whether a payload is the device-copy operator `CudaCopyToDevice`. -/
def OpKind.isCopyTo : OpKind → Bool
  | .cudaCopyTo => true
  | _ => false

/-- Whether a payload is the host-copy operator `CudaCopyFromDevice`. -/
def OpKind.isCopyFrom : OpKind → Bool
  | .cudaCopyFrom => true
  | _ => false

/-- Whether a payload is either boundary copy operator. -/
def OpKind.isCopy (k : OpKind) : Bool := k.isCopyTo || k.isCopyFrom

/-- Edge weights: `Dependency::Data { input_order, output_order, shape }` or a
schedule edge (ignored by this layer). -/
inductive Dependency where
  | data (inputOrder outputOrder : Nat) (shape : ShapeTracker)
  | schedule
deriving DecidableEq, Repr

/-- Dependency::as_data. -/
def Dependency.asData : Dependency → Option (Nat × Nat × ShapeTracker)
  | .data i o s => some (i, o, s)
  | .schedule => none

/-- Dependency::is_schedule. -/
def Dependency.isSchedule : Dependency → Bool
  | .schedule => true
  | .data _ _ _ => false

/-- A directed edge of the graph. -/
structure Edge where
  src : Nat
  dst : Nat
  w : Dependency
deriving DecidableEq, Repr

/-- The luminal graph: payload-carrying nodes, weighted edges, and the
`no_delete` / `to_retrieve` node-id sets. -/
structure Graph where
  nextId : Nat
  nodes : List (Nat × OpKind)
  edges : List Edge
  noDelete : List Nat
  toRetrieve : List Nat
deriving DecidableEq, Repr

/-- Insert into a modelled hash set. -/
def setInsert (l : List Nat) (n : Nat) : List Nat :=
  if n ∈ l then l else l ++ [n]

/-- Remove from a modelled hash set. -/
def setRemove (l : List Nat) (n : Nat) : List Nat :=
  l.filter (fun m => m ≠ n)

/-- node_weight: the payload stored at a node id. -/
def Graph.payload (g : Graph) (n : Nat) : Option OpKind :=
  g.nodes.lookup n

/-- edges_directed(n, Outgoing). -/
def Graph.outgoing (g : Graph) (n : Nat) : List Edge :=
  g.edges.filter (fun e => e.src = n)

/-- edges_directed(n, Incoming). -/
def Graph.incoming (g : Graph) (n : Nat) : List Edge :=
  g.edges.filter (fun e => e.dst = n)

/-- add_op(..).finish(): allocate a fresh node id for the payload. -/
def Graph.addNode (g : Graph) (k : OpKind) : Nat × Graph :=
  (g.nextId,
    { g with nextId := g.nextId + 1, nodes := g.nodes ++ [(g.nextId, k)] })

/-- add_edge. -/
def Graph.addEdge (g : Graph) (e : Edge) : Graph :=
  { g with edges := g.edges ++ [e] }

/-- remove_edge: drops one occurrence of the edge. -/
def Graph.removeEdge (g : Graph) (e : Edge) : Graph :=
  { g with edges := g.edges.erase e }

/-- remove_node: drops the node and every incident edge; as in petgraph, the
bookkeeping sets are not touched. -/
def Graph.removeNode (g : Graph) (n : Nat) : Graph :=
  { g with
    nodes := g.nodes.filter (fun p => p.1 ≠ n),
    edges := g.edges.filter (fun e => e.src ≠ n ∧ e.dst ≠ n) }

/-- graph.node_weight(n) mutated in place to a new payload. -/
def Graph.setPayload (g : Graph) (n : Nat) (k : OpKind) : Graph :=
  { g with nodes := g.nodes.map (fun p => if p.1 = n then (p.1, k) else p) }

/-- Payload test helper: whether node `n` currently holds a copy operator. -/
def Graph.isCopyNode (g : Graph) (n : Nat) : Bool :=
  match g.payload n with
  | some k => k.isCopy
  | none => false

/-- Modelled from the spec: luminal's `move_outgoing_edge` helper lives in the
core repository, outside this crate.  Per the spec (copy-fusion step 3) it
rewires every outgoing edge of `frm` to originate from `to`. -/
def moveOutgoingEdge (a b : Nat) (g : Graph) : Graph :=
  let outs := g.outgoing a
  { g with
    edges := g.edges.filter (fun e => e.src ≠ a)
      ++ outs.map (fun e => { e with src := b }) }

/-- Modelled from the spec: luminal's `move_references` helper lives in the
core repository, outside this crate.  Per the spec it transfers the
retrieval / no-delete bookkeeping from one node to another (the id-remap
callback has no observable effect inside this model). -/
def moveReferences (noDelete toRetrieve : List Nat) (a b : Nat) :
    List Nat × List Nat :=
  (if a ∈ noDelete then setInsert (setRemove noDelete a) b else noDelete,
   if a ∈ toRetrieve then setInsert (setRemove toRetrieve a) b
   else toRetrieve)

/-! ## The primitive substitution pass (prim.rs, `CudaPrimitiveCompiler`) -/

/-- Stage A inner-loop body: interpose a `CudaCopyFromDevice` on one incoming
edge of the function node. -/
def CudaPrimitiveCompiler.stageACopyFromStep (functionNode : Nat) (h : Graph)
    (e : Edge) : Graph :=
  let (copyFromNode, h1) := h.addNode .cudaCopyFrom
  let h2 := h1.addEdge ⟨e.src, copyFromNode, .data 0 0 ShapeTracker.empty⟩
  let h3 := h2.addEdge ⟨copyFromNode, functionNode, e.w⟩
  h3.removeEdge e

/-- Stage A body for one `Function` node, before the input-copy loop: insert
a `CudaCopyToDevice` successor, rewire the function's outgoing edges through
it, and propagate retrieval to the copy node. -/
def CudaPrimitiveCompiler.stageAPre (g : Graph) (functionNode : Nat) : Graph :=
  let (copyNode, g1) := g.addNode .cudaCopyTo
  let g2 := g1.addEdge ⟨functionNode, copyNode, .data 0 0 ShapeTracker.empty⟩
  let outs := (g2.outgoing functionNode).filter (fun e => e.dst ≠ copyNode)
  let g3 : Graph :=
    { g2 with
      edges := g2.edges.filter
          (fun e => ¬(e.src = functionNode ∧ e.dst ≠ copyNode))
        ++ outs.map (fun e => ⟨copyNode, e.dst, e.w⟩) }
  if functionNode ∈ g3.toRetrieve then
    { g3 with toRetrieve := setInsert g3.toRetrieve copyNode }
  else g3

/-- Stage A body for one `Function` node: the rewiring above followed by a
`CudaCopyFromDevice` on every incoming edge. -/
def CudaPrimitiveCompiler.stageAStep (g : Graph) (functionNode : Nat) : Graph :=
  let g4 := CudaPrimitiveCompiler.stageAPre g functionNode
  (g4.incoming functionNode).foldl
    (CudaPrimitiveCompiler.stageACopyFromStep functionNode) g4

/-- Stage A: process every `Function` node that has at least one outgoing
edge (collected up front). -/
def CudaPrimitiveCompiler.stageA (g : Graph) : Graph :=
  let fns := ((g.nodes.filter
      (fun p => p.2 = OpKind.function ∧ (g.outgoing p.1).length ≠ 0)).map
      (fun p => p.1))
  fns.foldl CudaPrimitiveCompiler.stageAStep g

/-- Rust's `Iterator::max_by_key`: the last maximal element, `none` on empty. -/
def maxByKeyLast {α : Type} (key : α → Nat) : List α → Option α
  | [] => none
  | a :: rest =>
      match maxByKeyLast key rest with
      | none => some a
      | some b => some (if key b < key a then a else b)

/-- Stage B body for one non-function retrieval node paired with its largest
incoming shape: either elide an existing `CudaCopyToDevice` by remapping
retrieval to its source, or append a `CudaCopyFromDevice` and move the
bookkeeping onto it. -/
def CudaPrimitiveCompiler.stageBStep (g : Graph) (p : Nat × ShapeTracker) :
    Option Graph :=
  let (outputNode, outputShape) := p
  if g.payload outputNode = some OpKind.cudaCopyTo then
    match (g.incoming outputNode).head? with
    | none => none
    | some e =>
        some { g with
          noDelete := setInsert (setRemove g.noDelete outputNode) e.src,
          toRetrieve := setInsert (setRemove g.toRetrieve outputNode) e.src }
  else
    let (copyNode, g1) := g.addNode .cudaCopyFrom
    let g2 := g1.addEdge ⟨outputNode, copyNode, .data 0 0 outputShape⟩
    let (nd, tr) := moveReferences g2.noDelete g2.toRetrieve outputNode copyNode
    some { g2 with noDelete := nd, toRetrieve := tr }

/-- Stage B: for every non-function node marked for retrieval, pick the
incoming data edge with the largest physical shape (`none` models the unwrap
panic when there is none) and process it. -/
def CudaPrimitiveCompiler.stageB (g : Graph) : Option Graph := do
  let collected ←
    (g.toRetrieve.filter
        (fun n => ¬ g.payload n = some OpKind.function)).mapM
      (fun n => do
        let s ← maxByKeyLast ShapeTracker.nPhysicalElements
          (((g.incoming n).filterMap (fun e => e.w.asData)).map
            (fun t => t.2.2))
        pure (n, s))
  collected.foldlM CudaPrimitiveCompiler.stageBStep g

/-- Stage C: for every `Print` node, find its first non-schedule incoming edge
(collected up front; `none` models the unwrap panic when there is none) and
interpose a `CudaCopyFromDevice` on it. -/
def CudaPrimitiveCompiler.stageC (g : Graph) : Option Graph := do
  let pairs ←
    (g.nodes.filter (fun p => p.2 = OpKind.print)).mapM
      (fun p => do
        let e ← (g.incoming p.1).find? (fun e => ¬ e.w.isSchedule)
        pure (p.1, e))
  pairs.foldlM
    (fun h pe => do
      let (printNode, e) := pe
      let (_, _, shape) ← e.w.asData
      let (copyNode, h1) := h.addNode .cudaCopyFrom
      let h2 := h1.addEdge ⟨e.src, copyNode, .data 0 0 shape⟩
      let h3 := h2.addEdge ⟨copyNode, printNode, .data 0 0 shape⟩
      pure (h3.removeEdge e))
    g

/-- Stable sort of data-edge triples by `input_order` (`sorted_by_key`). -/
def insertByKey {α : Type} (key : α → Nat) (a : α) : List α → List α
  | [] => [a]
  | b :: rest =>
      if key a < key b then a :: b :: rest else b :: insertByKey key a rest

/-- sorted_by_key over a list. -/
def sortByKey {α : Type} (key : α → Nat) (l : List α) : List α :=
  l.foldl (fun acc a => insertByKey key a acc) []

/-- Stage D classifier: the replacement payload for an abstract primitive,
given the input shapes in `input_order`.  `none` = not a primitive (node left
untouched); `some none` models an out-of-bounds `shapes[i]` panic. -/
def CudaPrimitiveCompiler.classify (k : OpKind) (shapes : List ShapeTracker) :
    Option (Option OpKind) :=
  match k with
  | .log2 => some (some .cudaLog2)
  | .exp2 => some (some .cudaExp2)
  | .sin => some (some .cudaSin)
  | .constant v => some (some (.cudaConstant v))
  | .recip => some (some .cudaRecip)
  | .sqrt => some (some .cudaSqrt)
  | .add =>
      match shapes with
      | s0 :: s1 :: _ => some (some (.cudaAdd s0 s1))
      | _ => some none
  | .mul =>
      match shapes with
      | s0 :: s1 :: _ => some (some (.cudaMul s0 s1))
      | _ => some none
  | .mod =>
      match shapes with
      | s0 :: s1 :: _ => some (some (.cudaMod s0 s1))
      | _ => some none
  | .lessThan =>
      match shapes with
      | s0 :: s1 :: _ => some (some (.cudaLessThan s0 s1))
      | _ => some none
  | .contiguous =>
      match shapes with
      | s0 :: _ => some (some (.cudaContiguous s0))
      | _ => some none
  | .sumReduce d =>
      match shapes with
      | s0 :: _ => some (some (.cudaSumReduce d s0))
      | _ => some none
  | .maxReduce d =>
      match shapes with
      | s0 :: _ => some (some (.cudaMaxReduce d s0))
      | _ => some none
  | _ => none

/-- Stage D body for one node id: collect its input shapes in edge order and
swap the payload in place when the classifier matches. -/
def CudaPrimitiveCompiler.stageDStep (g : Graph) (id : Nat) : Option Graph :=
  let shapes :=
    ((sortByKey (fun t => t.1)
        ((g.incoming id).filterMap (fun e => e.w.asData))).map
      (fun t => t.2.2))
  match g.payload id with
  | none => some g
  | some k =>
      match CudaPrimitiveCompiler.classify k shapes with
      | none => some g
      | some none => none
      | some (some k1) => some (g.setPayload id k1)

/-- Stage D: swap every recognized primitive payload for its CUDA operator. -/
def CudaPrimitiveCompiler.stageD (g : Graph) : Option Graph :=
  (g.nodes.map (fun p => p.1)).foldlM CudaPrimitiveCompiler.stageDStep g

/-- CudaPrimitiveCompiler::compile: the four stages in order. -/
def CudaPrimitiveCompiler.compile (g : Graph) : Option Graph := do
  let g1 := CudaPrimitiveCompiler.stageA g
  let g2 ← CudaPrimitiveCompiler.stageB g1
  let g3 ← CudaPrimitiveCompiler.stageC g2
  CudaPrimitiveCompiler.stageD g3

/-! ## The copy-fusion pass (prim.rs, `CopyCompiler`) -/

/-- Whether the ordered node pair is an adjacent inverse copy pair:
`CopyToDevice → CopyFromDevice` or `CopyFromDevice → CopyToDevice`. -/
def Graph.fusiblePair (g : Graph) (a b : Nat) : Bool :=
  (g.payload a = some OpKind.cudaCopyTo
      ∧ g.payload b = some OpKind.cudaCopyFrom)
  ∨ (g.payload a = some OpKind.cudaCopyFrom
      ∧ g.payload b = some OpKind.cudaCopyTo)

/-- Itertools `unique_by` with an explicit seen-keys accumulator: keeps the
first occurrence for each key. -/
def uniqueByAux {α : Type} (key : α → Nat) (seen : List Nat) :
    List α → List α
  | [] => []
  | a :: rest =>
      if key a ∈ seen then uniqueByAux key seen rest
      else a :: uniqueByAux key (key a :: seen) rest

/-- Itertools `unique_by`. -/
def uniqueBy {α : Type} (key : α → Nat) (l : List α) : List α :=
  uniqueByAux key [] l

/-- The candidate pairs of the copy-fusion sweep: endpoints of every fusible
edge, deduplicated first by `first` and then by `second`. -/
def CopyCompiler.candidates (g : Graph) : List (Nat × Nat) :=
  uniqueBy (fun p => p.2)
    (uniqueBy (fun p => p.1)
      ((g.edges.map (fun e => (e.src, e.dst))).filter
        (fun p => g.fusiblePair p.1 p.2)))

/-- Fusing away one copy node `d`: rewire its outgoing edges to `source`,
transfer the retrieval / no-delete bookkeeping onto `source`, and delete it.
This is the common body of steps 3 and 4 of the copy-fusion pass. -/
def CopyCompiler.fuseOne (source d : Nat) (g : Graph) : Graph :=
  let g1 := moveOutgoingEdge d source g
  let (nd, tr) := moveReferences g1.noDelete g1.toRetrieve d source
  let g2 : Graph := { g1 with noDelete := nd, toRetrieve := tr }
  g2.removeNode d

/-- One fusion step for the candidate pair `(first, second)`: skip when
`first` has a non-copy consumer or is pinned by `no_delete`; otherwise rewire
`second` (and every other destination of `first`) to `first`'s source data
predecessor, transfer the bookkeeping, and delete the copy nodes.  `none`
models the `get_sources(first)[0]` panic. -/
def CopyCompiler.processPair (g : Graph) (p : Nat × Nat) : Option Graph :=
  let (first, second) := p
  if 0 < ((g.outgoing first).filter
      (fun e => ¬ g.isCopyNode e.dst)).length
      ∨ first ∈ g.noDelete then
    some g
  else do
    let se ← ((g.incoming first).filter
      (fun e => e.w.asData.isSome)).head?
    let source := se.src
    let g3 := CopyCompiler.fuseOne source second g
    let dests :=
      ((g3.outgoing first).filter (fun e => e.w.asData.isSome)).map
        (fun e => e.dst)
    let g4 := dests.foldl (fun h dest => CopyCompiler.fuseOne source dest h) g3
    pure (g4.removeNode first)

/-- CopyCompiler::compile: one sweep over the pre-collected candidate list. -/
def CopyCompiler.compile (g : Graph) : Option Graph :=
  (CopyCompiler.candidates g).foldlM CopyCompiler.processPair g

/-! ## Invariants and specification predicates -/

/-- Whether a payload is one of the abstract primitives that Stage D
substitutes. -/
def OpKind.isSubstitutable : OpKind → Bool
  | .log2 | .exp2 | .sin | .sqrt | .recip | .constant _ => true
  | .add | .mul | .mod | .lessThan | .contiguous => true
  | .sumReduce _ | .maxReduce _ => true
  | _ => false

/-- Every edge joins two existing nodes (no dangling endpoints). -/
def Graph.edgesValid (g : Graph) : Prop :=
  ∀ e ∈ g.edges, (g.payload e.src).isSome ∧ (g.payload e.dst).isSome

/-- Node ids are below the fresh-id counter. -/
def Graph.keysBounded (g : Graph) : Prop :=
  ∀ p ∈ g.nodes, p.1 < g.nextId

/-- Node ids are pairwise distinct. -/
def Graph.keysNodup (g : Graph) : Prop :=
  (g.nodes.map (fun p => p.1)).Nodup

/-- A well-formed graph. -/
def Graph.wf (g : Graph) : Prop :=
  g.keysBounded ∧ g.keysNodup ∧ g.edgesValid

/-- No node of the graph holds a boundary copy operator; this is the class of
graphs handed to the backend compiler (the abstract IR knows nothing of the
CUDA copy operators). -/
def Graph.copyFree (g : Graph) : Prop :=
  ∀ p ∈ g.nodes, p.2.isCopy = false

/-- Every copy node has exactly one incoming edge, and it is a data edge. -/
def Graph.copySingleInput (g : Graph) : Prop :=
  ∀ c, g.isCopyNode c = true →
    (g.incoming c).length = 1 ∧ ∀ e ∈ g.incoming c, e.w.asData.isSome

/-- Every copy-to-copy edge goes from a `CudaCopyToDevice` to a
`CudaCopyFromDevice`. -/
def Graph.copyEdgesOriented (g : Graph) : Prop :=
  ∀ e ∈ g.edges, g.isCopyNode e.src = true → g.isCopyNode e.dst = true →
    g.payload e.src = some OpKind.cudaCopyTo
      ∧ g.payload e.dst = some OpKind.cudaCopyFrom

/-- The structural invariant the primitive pass guarantees and the copy-fusion
sweep maintains. -/
def Graph.goodCopies (g : Graph) : Prop :=
  g.edgesValid ∧ g.copySingleInput ∧ g.copyEdgesOriented

/-- The exception clause of the fixed-point claim: the head of a fusible edge
is pinned, either by `no_delete` or by a non-copy consumer. -/
def Graph.pinned (g : Graph) (a : Nat) : Prop :=
  a ∈ g.noDelete
    ∨ ∃ e1 ∈ g.edges, e1.src = a ∧ g.isCopyNode e1.dst = false

/-- The fixed point of copy fusion: every remaining adjacent inverse copy
pair is pinned. -/
def Graph.noFusibleLeftovers (g : Graph) : Prop :=
  ∀ e ∈ g.edges, g.fusiblePair e.src e.dst = true → g.pinned e.src

/-- The invariant carried through the copy-fusion sweep, relative to the
still-unprocessed candidate pairs: the structural `goodCopies` facts, that
every pending first is a live `CudaCopyToDevice` (pairwise distinct) and
every pending second a `CudaCopyFromDevice` or already deleted, and that
every fusible edge is either still accounted for by a pending candidate with
the same first or already pinned. -/
def Graph.sweepInv (g : Graph) (rest : List (Nat × Nat)) : Prop :=
  g.edgesValid ∧ g.copySingleInput ∧ g.copyEdgesOriented
    ∧ (∀ q ∈ rest, g.payload q.1 = some OpKind.cudaCopyTo)
    ∧ (∀ q ∈ rest, g.payload q.2 = some OpKind.cudaCopyFrom
        ∨ g.payload q.2 = none)
    ∧ (rest.map Prod.fst).Nodup
    ∧ ∀ e ∈ g.edges, g.fusiblePair e.src e.dst = true →
        (∃ q ∈ rest, q.1 = e.src) ∨ g.pinned e.src

/-- Predicate: the payload at `id` (if any) is not an abstract primitive. -/
def Graph.nonSubAt (g : Graph) (id : Nat) : Prop :=
  ∀ k, g.payload id = some k → k.isSubstitutable = false

/-- The structural facts carried through every stage of the primitive pass:
bounded distinct node ids, valid edges, single-input copies and oriented
copy-to-copy edges. -/
def Graph.gcInv (g : Graph) : Prop :=
  g.keysBounded ∧ g.keysNodup ∧ g.edgesValid ∧ g.copySingleInput
    ∧ g.copyEdgesOriented

/-- The invariant carried through the Stage A fold, relative to the
still-unprocessed function nodes `rest`: the structural facts, that every
pending function is live with a `Function` payload, that every
`CudaCopyFromDevice` feeds only an already-processed function, that every
edge into a `CudaCopyToDevice` comes from a processed node, and that the
retrieval set holds only live non-`CudaCopyFromDevice` nodes. -/
def Graph.aInv (g : Graph) (rest : List Nat) : Prop :=
  g.gcInv
    ∧ (∀ x ∈ rest, g.payload x = some OpKind.function)
    ∧ (∀ e ∈ g.edges, g.payload e.src = some OpKind.cudaCopyFrom →
        g.payload e.dst = some OpKind.function ∧ e.dst ∉ rest)
    ∧ (∀ e ∈ g.edges, g.payload e.dst = some OpKind.cudaCopyTo →
        e.src ∉ rest)
    ∧ (∀ n ∈ g.toRetrieve, ∃ k, g.payload n = some k
        ∧ k ≠ OpKind.cudaCopyFrom)

/-- The invariant between Stage B and Stage C: the structural facts plus the
fact that `CudaCopyFromDevice` nodes feed only `Function` nodes. -/
def Graph.bcInv (g : Graph) : Prop :=
  g.gcInv
    ∧ ∀ e ∈ g.edges, g.payload e.src = some OpKind.cudaCopyFrom →
        g.payload e.dst = some OpKind.function

/-! # Theorems -/

/-! ## C3: boundary copy operators are identities on the matching side -/

/-- C3: `CudaCopyToDevice::process` on an input already on device and
`CudaCopyFromDevice::process` on an input already on the host return the
input value unchanged; only in the crossing case is a fresh buffer built, with
every element converted through 32-bit float (`from_f32` / `to_f32`). -/
theorem copy_ops_identity_on_matching_side (T F : Type) (from_f32 : F → T)
    (to_f32 : T → F) (v : List T) (w : List F) :
    CudaCopyToDevice.process from_f32 [Payload.device (F := F) v]
        = some [Payload.device v]
      ∧ CudaCopyFromDevice.process to_f32 [Payload.host (T := T) w]
        = some [Payload.host w]
      ∧ CudaCopyToDevice.process from_f32 [Payload.host (T := T) w]
        = some [Payload.device (w.map from_f32)]
      ∧ CudaCopyFromDevice.process to_f32 [Payload.device (F := F) v]
        = some [Payload.host (v.map to_f32)] := by
  refine ⟨rfl, rfl, rfl, rfl⟩

/-! ## C5: pop order of the expression lowering -/

/-- C5 counterexample: on the RPN expression `[1, 2, Sub]` (and `[1, 2, Max]`)
the second-popped sub-expression is `"1"`, yet the rendered result places the
first-popped `"2"` as the left operand / first argument — the claimed
renderings `"(1-2)"` and `"max((int)1, (int)2)"` are not produced. -/
theorem expr_pop_order_counterexample :
    expr_to_cuda_string [Term.Num 1, Term.Num 2, Term.Sub] = some "(2-1)"
      ∧ expr_to_cuda_string [Term.Num 1, Term.Num 2, Term.Sub]
        ≠ some "(1-2)"
      ∧ expr_to_cuda_string [Term.Num 1, Term.Num 2, Term.Max]
        = some "max((int)2, (int)1)"
      ∧ expr_to_cuda_string [Term.Num 1, Term.Num 2, Term.Max]
        ≠ some "max((int)1, (int)2)" := by
  refine ⟨rfl, by decide, rfl, by decide⟩

/-- C5 (amended): for every binary term the lowering pops two rendered
sub-expressions and emits the FIRST-popped one (the top of the stack, i.e. the
most recently pushed) as the left operand of the infix rendering, and as the
first argument of `max(...)` / `min(...)`. -/
theorem expr_binary_emits_first_pop_left (p1 p2 : String)
    (rest : List String) :
    exprStep Term.Add (p1 :: p2 :: rest)
        = some (("(" ++ p1 ++ "+" ++ p2 ++ ")") :: rest)
      ∧ exprStep Term.Sub (p1 :: p2 :: rest)
        = some (("(" ++ p1 ++ "-" ++ p2 ++ ")") :: rest)
      ∧ exprStep Term.Mul (p1 :: p2 :: rest)
        = some (("(" ++ p1 ++ "*" ++ p2 ++ ")") :: rest)
      ∧ exprStep Term.Div (p1 :: p2 :: rest)
        = some (("(" ++ p1 ++ "/" ++ p2 ++ ")") :: rest)
      ∧ exprStep Term.Mod (p1 :: p2 :: rest)
        = some (("(" ++ p1 ++ "%" ++ p2 ++ ")") :: rest)
      ∧ exprStep Term.Max (p1 :: p2 :: rest)
        = some (("max((int)" ++ p1 ++ ", (int)" ++ p2 ++ ")") :: rest)
      ∧ exprStep Term.Min (p1 :: p2 :: rest)
        = some (("min((int)" ++ p1 ++ ", (int)" ++ p2 ++ ")") :: rest) := by
  refine ⟨rfl, rfl, rfl, rfl, rfl, rfl, rfl⟩

/-! ## C4: kernel cache and loader -/

/-- Association-list lookup walks into the right list when the left misses. -/
theorem lookup_append_of_none {α β : Type} [BEq α] (a : α)
    (l1 l2 : List (α × β)) (h : l1.lookup a = none) :
    (l1 ++ l2).lookup a = l2.lookup a := by
  induction l1 with
  | nil => rfl
  | cons p rest ih =>
      cases hb : (a == p.1) with
      | true => simp [List.lookup, hb] at h
      | false =>
          simp only [List.lookup, List.cons_append, hb] at h ⊢
          exact ih h

/-- Lookup in a key-matching singleton. -/
theorem lookup_singleton_self {α β : Type} [BEq α] [LawfulBEq α] (a : α)
    (b : β) : ([(a, b)] : List (α × β)).lookup a = some b := by
  simp [List.lookup]

/-- Evaluation of `compile_and_load_kernel` on a cache hit. -/
theorem compile_and_load_kernel_hit (hash : String → Nat) (code : String)
    (d : CudaDeviceState) (p : Ptx)
    (h : d.modules.lookup ("kernel_" ++ toString (hash code)) = some p) :
    compile_and_load_kernel hash code d =
      some (⟨"kernel_" ++ toString (hash code),
        "kernel_" ++ toString (hash code), p⟩, d) := by
  simp [compile_and_load_kernel, CudaDeviceState.hasFunc,
    CudaDeviceState.getFunc, h]

/-- Evaluation of `compile_and_load_kernel` on a cache miss. -/
theorem compile_and_load_kernel_miss (hash : String → Nat) (code : String)
    (d : CudaDeviceState)
    (h : d.modules.lookup ("kernel_" ++ toString (hash code)) = none) :
    compile_and_load_kernel hash code d =
      some
        (⟨"kernel_" ++ toString (hash code),
          "kernel_" ++ toString (hash code),
          compile_ptx_with_opts
            (code.replace "kernel" ("kernel_" ++ toString (hash code)))⟩,
         d.loadPtx ("kernel_" ++ toString (hash code))
           (compile_ptx_with_opts
             (code.replace "kernel" ("kernel_" ++ toString (hash code))))) := by
  simp only [compile_and_load_kernel, CudaDeviceState.hasFunc,
    CudaDeviceState.getFunc, CudaDeviceState.loadPtx, h, Option.isSome_none,
    Bool.false_eq_true, if_false]
  rw [lookup_append_of_none _ _ _ h, lookup_singleton_self]
  rfl

/-- C4: `compile_and_load_kernel` hashes the unmodified source, replaces every
occurrence of the literal substring "kernel" with `kernel_<hash>`, compiles
and registers only on a cache miss (cache hit leaves the device untouched and
returns the stored handle), and a second call with the identical source
returns the cached handle on an unchanged device (no recompilation). -/
theorem compile_and_load_kernel_spec (hash : String → Nat) (code : String)
    (d : CudaDeviceState) :
    (d.hasFunc ("kernel_" ++ toString (hash code)) = true →
        compile_and_load_kernel hash code d =
          (d.getFunc ("kernel_" ++ toString (hash code))).map (fun f => (f, d)))
      ∧ (d.hasFunc ("kernel_" ++ toString (hash code)) = false →
        compile_and_load_kernel hash code d =
          some
            (⟨"kernel_" ++ toString (hash code),
              "kernel_" ++ toString (hash code),
              compile_ptx_with_opts
                (code.replace "kernel"
                  ("kernel_" ++ toString (hash code)))⟩,
             d.loadPtx ("kernel_" ++ toString (hash code))
               (compile_ptx_with_opts
                 (code.replace "kernel"
                   ("kernel_" ++ toString (hash code))))))
      ∧ (∀ f d1, compile_and_load_kernel hash code d = some (f, d1) →
        compile_and_load_kernel hash code d1 = some (f, d1)) := by
  refine ⟨?_, ?_, ?_⟩
  · intro hhit
    rcases hl : d.modules.lookup ("kernel_" ++ toString (hash code)) with _ | p
    · simp [CudaDeviceState.hasFunc, hl] at hhit
    · rw [compile_and_load_kernel_hit hash code d p hl]
      simp [CudaDeviceState.getFunc, hl]
  · intro hmiss
    rcases hl : d.modules.lookup ("kernel_" ++ toString (hash code)) with _ | p
    · exact compile_and_load_kernel_miss hash code d hl
    · simp [CudaDeviceState.hasFunc, hl] at hmiss
  · intro f d1 hrun
    rcases hl : d.modules.lookup ("kernel_" ++ toString (hash code)) with _ | p
    · rw [compile_and_load_kernel_miss hash code d hl] at hrun
      obtain ⟨rfl, rfl⟩ := Prod.mk.injEq .. ▸ Option.some.inj hrun
      refine compile_and_load_kernel_hit hash code _ _ ?_
      show (d.modules ++ [_]).lookup _ = _
      rw [lookup_append_of_none _ _ _ hl, lookup_singleton_self]
    · rw [compile_and_load_kernel_hit hash code d p hl] at hrun
      obtain ⟨rfl, rfl⟩ := Prod.mk.injEq .. ▸ Option.some.inj hrun
      exact compile_and_load_kernel_hit hash code d p hl

/-- C4 witness: a concrete miss-then-hit run. -/
theorem compile_and_load_kernel_spec_witness :
    CudaDeviceState.hasFunc ⟨[], 0⟩
        ("kernel_" ++ toString ((fun _ => (5 : Nat)) "kernel x")) = false
      ∧ compile_and_load_kernel (fun _ => (5 : Nat)) "kernel x" ⟨[], 0⟩ =
        some
          (⟨"kernel_5", "kernel_5",
            compile_ptx_with_opts ("kernel x".replace "kernel" "kernel_5")⟩,
           CudaDeviceState.loadPtx ⟨[], 0⟩ "kernel_5"
             (compile_ptx_with_opts
               ("kernel x".replace "kernel" "kernel_5"))) :=
  ⟨rfl,
    (compile_and_load_kernel_spec (fun _ => (5 : Nat)) "kernel x"
      ⟨[], 0⟩).2.1 rfl⟩



/-! ## C6: reduction size computations -/

/-- Decomposing a product of dimensions around index `dim`. -/
theorem prod_take_getD_drop (l : List Nat) (dim : Nat)
    (h : dim < l.length) :
    (l.take dim).prod * l.getD dim 0 * (l.drop (dim + 1)).prod = l.prod := by
  conv_rhs => rw [← List.take_append_drop dim l]
  rw [List.prod_append, List.drop_eq_getElem_cons h, List.prod_cons,
    List.getD_eq_getElem l 0 h, mul_assoc]

/-- Product after erasing index `dim`. -/
theorem prod_eraseIdx (l : List Nat) (dim : Nat) :
    (l.eraseIdx dim).prod = (l.take dim).prod * (l.drop (dim + 1)).prod := by
  rw [List.eraseIdx_eq_take_drop_succ, List.prod_append]

/-- C6: for the reduction operators, `front_size` is the product of the
logical dims before `dim`, `back_size` the product after, `dim_size` the dim
itself; `front * dim * back` is the logical element count of the input shape
and `front * back` is the element count of the output buffer (the shape with
`dim` removed) that the kernel is launched over.  `CudaMaxReduce` computes
the same quadruple. -/
theorem reduce_sizes_invariant (dim : Nat) (st : ShapeTracker)
    (h : dim < st.dims.length) :
    CudaSumReduce.processSizes dim st =
        ((st.dims.take dim).prod, (st.dims.drop (dim + 1)).prod,
          st.dims.getD dim 0, (st.removeDim dim).nElements)
      ∧ CudaMaxReduce.processSizes dim st = CudaSumReduce.processSizes dim st
      ∧ (st.dims.take dim).prod * st.dims.getD dim 0
          * (st.dims.drop (dim + 1)).prod = st.nElements
      ∧ (st.dims.take dim).prod * (st.dims.drop (dim + 1)).prod
          = (st.removeDim dim).nElements := by
  refine ⟨rfl, rfl, ?_, ?_⟩
  · exact prod_take_getD_drop st.dims dim h
  · exact (prod_eraseIdx st.dims dim).symm

/-- C6 witness: the `[2,3,4]` shape reduced over dim 1. -/
theorem reduce_sizes_invariant_witness :
    1 < (ShapeTracker.mk [2, 3, 4] [24]).dims.length
      ∧ CudaSumReduce.processSizes 1 (ShapeTracker.mk [2, 3, 4] [24])
        = (2, 4, 3, 8)
      ∧ 2 * 3 * 4 = (ShapeTracker.mk [2, 3, 4] [24]).nElements :=
  ⟨by decide,
    ((reduce_sizes_invariant 1 (ShapeTracker.mk [2, 3, 4] [24])
      (by decide)).1).trans (by decide),
    by decide⟩

/-! ## C9: binary elementwise launch sizes -/

/-- C9: the binary elementwise operators allocate the output and launch the
kernel over the logical element count of the FIRST input's shape tracker
only; replacing the second input leaves both sizes unchanged. -/
theorem binary_sizes_first_shape (B : Type) (t0 t1 : B × ShapeTracker)
    (rest : List (B × ShapeTracker)) :
    CudaAdd.processSizes (t0 :: t1 :: rest)
        = some (t0.2.nElements, t0.2.nElements)
      ∧ CudaMul.processSizes (t0 :: t1 :: rest)
        = some (t0.2.nElements, t0.2.nElements)
      ∧ CudaMod.processSizes (t0 :: t1 :: rest)
        = some (t0.2.nElements, t0.2.nElements)
      ∧ CudaLessThan.processSizes (t0 :: t1 :: rest)
        = some (t0.2.nElements, t0.2.nElements)
      ∧ (∀ t1' : B × ShapeTracker,
          CudaAdd.processSizes (t0 :: t1' :: rest)
              = CudaAdd.processSizes (t0 :: t1 :: rest)
            ∧ CudaMul.processSizes (t0 :: t1' :: rest)
              = CudaMul.processSizes (t0 :: t1 :: rest)
            ∧ CudaMod.processSizes (t0 :: t1' :: rest)
              = CudaMod.processSizes (t0 :: t1 :: rest)
            ∧ CudaLessThan.processSizes (t0 :: t1' :: rest)
              = CudaLessThan.processSizes (t0 :: t1 :: rest)) := by
  exact ⟨rfl, rfl, rfl, rfl, fun _ => ⟨rfl, rfl, rfl, rfl⟩⟩

/-! ## C10: unary elementwise operators ignore the view -/

/-- C10: the unary operators consult only `n_physical_elements` of the input
shape: the output has exactly that many elements, position `i` holds the
intrinsic applied to physical element `i`, and any view with the same
physical element count (contiguous or not, padded or not) gives the same
result — the index and valid expressions play no part.  All five unary
operators share this process. -/
theorem unary_ops_ignore_view (T : Type) (zero : T) (f : T → T)
    (buf : List T) (st : ShapeTracker) :
    (CudaLog2.process zero f buf st).length = st.nPhysicalElements
      ∧ (∀ i, i < st.nPhysicalElements →
          (CudaLog2.process zero f buf st).getD i zero
            = f (buf.getD i zero))
      ∧ (∀ st1 : ShapeTracker,
          st1.nPhysicalElements = st.nPhysicalElements →
          CudaLog2.process zero f buf st1 = CudaLog2.process zero f buf st)
      ∧ CudaExp2.process zero f buf st = CudaLog2.process zero f buf st
      ∧ CudaSin.process zero f buf st = CudaLog2.process zero f buf st
      ∧ CudaSqrt.process zero f buf st = CudaLog2.process zero f buf st
      ∧ CudaRecip.process zero f buf st = CudaLog2.process zero f buf st := by
  refine ⟨?_, ?_, ?_, rfl, rfl, rfl, rfl⟩
  · simp [CudaLog2.process, unaryKernelRun]
  · intro i hi
    have hlen : i < (CudaLog2.process zero f buf st).length := by
      simpa [CudaLog2.process, unaryKernelRun] using hi
    rw [List.getD_eq_getElem _ _ hlen]
    simp [CudaLog2.process, unaryKernelRun]
  · intro st1 h1
    simp [CudaLog2.process, unaryKernelRun, h1]

/-- C10 witness: a concrete two-element buffer under a padded-looking view. -/
theorem unary_ops_ignore_view_witness :
    0 < (ShapeTracker.mk [5] [2]).nPhysicalElements
      ∧ (CudaLog2.process 0 (fun x => x + 1) [7, 9]
          (ShapeTracker.mk [5] [2])).getD 0 0
        = (fun x => (x : Nat) + 1) ([7, 9].getD 0 0) :=
  ⟨by decide,
    (unary_ops_ignore_view Nat 0 (fun x => x + 1) [7, 9]
      (ShapeTracker.mk [5] [2])).2.1 0 (by decide)⟩

/-! ## C2: the primitive substitution pass is not idempotent -/

/-- C2 counterexample: on the two-node graph `Function → Log2`, a second run
of the primitive pass is not a no-op — Stage A fires again on the function
node (which still has an outgoing edge) and inserts a fourth node, another
`CudaCopyToDevice`. -/
theorem prim_compile_not_idempotent_counterexample :
    (CudaPrimitiveCompiler.compile
          ⟨2, [(0, .function), (1, .log2)],
            [⟨0, 1, .data 0 0 ⟨[2], [2]⟩⟩], [], []⟩).bind
        CudaPrimitiveCompiler.compile
      ≠ CudaPrimitiveCompiler.compile
          ⟨2, [(0, .function), (1, .log2)],
            [⟨0, 1, .data 0 0 ⟨[2], [2]⟩⟩], [], []⟩
    ∧ ((CudaPrimitiveCompiler.compile
          ⟨2, [(0, .function), (1, .log2)],
            [⟨0, 1, .data 0 0 ⟨[2], [2]⟩⟩], [], []⟩).map
        (fun g => g.nodes.length)) = some 3
    ∧ (((CudaPrimitiveCompiler.compile
          ⟨2, [(0, .function), (1, .log2)],
            [⟨0, 1, .data 0 0 ⟨[2], [2]⟩⟩], [], []⟩).bind
        CudaPrimitiveCompiler.compile).map
        (fun g => g.nodes.length)) = some 4 := by
  refine ⟨by decide, by decide, by decide⟩

/-- Lookup after a key-preserving value update, at another key. -/
theorem lookup_update_ne (l : List (Nat × OpKind)) (id : Nat) (k : OpKind)
    (n : Nat) (h : n ≠ id) :
    List.lookup n (l.map (fun p => if p.1 = id then (p.1, k) else p))
      = List.lookup n l := by
  induction l with
  | nil => rfl
  | cons p rest ih =>
      simp only [List.map_cons]
      by_cases hp : p.1 = id
      · rw [if_pos hp]
        have hb : (n == p.1) = false := by
          simp only [beq_eq_false_iff_ne, ne_eq]
          exact fun e => h (e.trans hp)
        simp only [List.lookup, hb]
        exact ih
      · rw [if_neg hp]
        simp only [List.lookup]
        cases hb : (n == p.1) with
        | true => simp only [hb]
        | false => simp only [hb]; exact ih

/-- Lookup after a key-preserving value update, at the updated key. -/
theorem lookup_update_self (l : List (Nat × OpKind)) (id : Nat) (k : OpKind)
    (h : (List.lookup id l).isSome) :
    List.lookup id (l.map (fun p => if p.1 = id then (p.1, k) else p))
      = some k := by
  induction l with
  | nil => simp [List.lookup] at h
  | cons p rest ih =>
      simp only [List.map_cons]
      by_cases hp : p.1 = id
      · rw [if_pos hp]
        have hb : (id == p.1) = true := by simp [hp]
        simp only [List.lookup, hb]
      · rw [if_neg hp]
        have hb : (id == p.1) = false := by
          simp only [beq_eq_false_iff_ne, ne_eq]
          exact fun e => hp e.symm
        simp only [List.lookup, hb] at h ⊢
        exact ih h

/-- Lookup is unchanged at other keys after a `setPayload`. -/
theorem setPayload_payload_ne (g : Graph) (id : Nat) (k : OpKind) (n : Nat)
    (h : n ≠ id) : (g.setPayload id k).payload n = g.payload n :=
  lookup_update_ne g.nodes id k n h

/-- Lookup returns the new payload after `setPayload` when the key exists. -/
theorem setPayload_payload_self (g : Graph) (id : Nat) (k : OpKind)
    (h : (g.payload id).isSome) : (g.setPayload id k).payload id = some k :=
  lookup_update_self g.nodes id k h

/-- `setPayload` touches nothing but the payload map. -/
theorem setPayload_skeleton (g : Graph) (id : Nat) (k : OpKind) :
    (g.setPayload id k).nodes.map (fun p => p.1) = g.nodes.map (fun p => p.1)
      ∧ (g.setPayload id k).edges = g.edges
      ∧ (g.setPayload id k).noDelete = g.noDelete
      ∧ (g.setPayload id k).toRetrieve = g.toRetrieve
      ∧ (g.setPayload id k).nextId = g.nextId := by
  refine ⟨?_, rfl, rfl, rfl, rfl⟩
  unfold Graph.setPayload
  simp only [List.map_map]
  apply List.map_congr_left
  intro p _
  by_cases hp : p.1 = id <;> simp [hp]

/-- The classifier rejects exactly the non-substitutable payloads. -/
theorem classify_eq_none_iff (k : OpKind) (shapes : List ShapeTracker) :
    CudaPrimitiveCompiler.classify k shapes = none
      ↔ k.isSubstitutable = false := by
  cases k <;>
    rcases shapes with _ | ⟨s0, _ | ⟨s1, rest⟩⟩ <;>
      simp [CudaPrimitiveCompiler.classify, OpKind.isSubstitutable]

/-- The classifier only produces non-substitutable payloads. -/
theorem classify_result_not_substitutable (k : OpKind)
    (shapes : List ShapeTracker) (k1 : OpKind)
    (h : CudaPrimitiveCompiler.classify k shapes = some (some k1)) :
    k1.isSubstitutable = false := by
  cases k <;>
    rcases shapes with _ | ⟨s0, _ | ⟨s1, rest⟩⟩ <;>
      simp_all [CudaPrimitiveCompiler.classify] <;>
      (subst h; simp [OpKind.isSubstitutable])


/-- A successful Stage D step preserves the graph skeleton, changes payloads
only at its own node, and leaves that node non-primitive. -/
theorem stageDStep_some (g h : Graph) (id : Nat)
    (hs : CudaPrimitiveCompiler.stageDStep g id = some h) :
    h.nodes.map (fun p => p.1) = g.nodes.map (fun p => p.1)
      ∧ h.edges = g.edges
      ∧ (∀ n, n ≠ id → h.payload n = g.payload n)
      ∧ h.nonSubAt id
      ∧ (∀ n, g.nonSubAt n → h.nonSubAt n) := by
  unfold CudaPrimitiveCompiler.stageDStep at hs
  rcases hp : g.payload id with _ | k
  · rw [hp] at hs
    obtain rfl : g = h := by simpa using hs
    refine ⟨rfl, rfl, fun n _ => rfl, ?_, fun n hn => hn⟩
    intro k hk
    rw [hp] at hk
    exact absurd hk (by simp)
  · rw [hp] at hs
    rcases hc : CudaPrimitiveCompiler.classify k
        ((sortByKey (fun t => t.1)
          ((g.incoming id).filterMap (fun e => e.w.asData))).map
          (fun t => t.2.2)) with _ | k2
    · simp only [hc] at hs
      obtain rfl : g = h := by simpa using hs
      have hns : k.isSubstitutable = false := (classify_eq_none_iff k _).mp hc
      refine ⟨rfl, rfl, fun n _ => rfl, ?_, fun n hn => hn⟩
      intro k3 hk3
      rw [hp] at hk3
      exact Option.some.inj hk3 ▸ hns
    · rcases k2 with _ | k1
      · simp only [hc] at hs
        exact absurd hs (by simp)
      · simp only [hc] at hs
        obtain rfl : g.setPayload id k1 = h := by simpa using hs
        have hsk := setPayload_skeleton g id k1
        refine ⟨hsk.1, hsk.2.1, fun n hn => setPayload_payload_ne g id k1 n hn,
          ?_, ?_⟩
        · intro k3 hk3
          have hself : (g.setPayload id k1).payload id = some k1 :=
            setPayload_payload_self g id k1 (by simp [hp])
          rw [hself] at hk3
          exact Option.some.inj hk3 ▸
            classify_result_not_substitutable k _ k1 hc
        · intro n hn k3 hk3
          by_cases hni : n = id
          · subst hni
            have hself : (g.setPayload n k1).payload n = some k1 :=
              setPayload_payload_self g n k1 (by simp [hp])
            rw [hself] at hk3
            exact Option.some.inj hk3 ▸
              classify_result_not_substitutable k _ k1 hc
          · rw [setPayload_payload_ne g id k1 n hni] at hk3
            exact hn k3 hk3

/-- A Stage D step at a non-primitive node is the identity. -/
theorem stageDStep_of_nonSub (g : Graph) (id : Nat) (h : g.nonSubAt id) :
    CudaPrimitiveCompiler.stageDStep g id = some g := by
  unfold CudaPrimitiveCompiler.stageDStep
  rcases hp : g.payload id with _ | k
  · rfl
  · have hns : k.isSubstitutable = false := h k hp
    have hc := (classify_eq_none_iff k
      ((sortByKey (fun t => t.1)
        ((g.incoming id).filterMap (fun e => e.w.asData))).map
        (fun t => t.2.2))).mpr hns
    simp only [hc]

/-- Folding Stage D over a list of node ids: skeleton preservation and
non-primitivity of every visited node. -/
theorem stageD_fold_some (l : List Nat) (g h : Graph)
    (hs : l.foldlM CudaPrimitiveCompiler.stageDStep g = some h) :
    h.nodes.map (fun p => p.1) = g.nodes.map (fun p => p.1)
      ∧ (∀ n, g.nonSubAt n → h.nonSubAt n)
      ∧ (∀ id ∈ l, h.nonSubAt id) := by
  induction l generalizing g with
  | nil =>
      obtain rfl : g = h := by simpa using hs
      exact ⟨rfl, fun n hn => hn,
        fun id hid => absurd hid (List.not_mem_nil id)⟩
  | cons a rest ih =>
      rw [List.foldlM_cons] at hs
      rcases ha : CudaPrimitiveCompiler.stageDStep g a with _ | g1
      · rw [ha] at hs
        simp at hs
      · rw [ha] at hs
        simp only [Option.bind_eq_bind, Option.some_bind] at hs
        obtain ⟨k1, k2, k3, k4, k5⟩ := stageDStep_some g g1 a ha
        obtain ⟨j1, j2, j3⟩ := ih g1 hs
        refine ⟨j1.trans k1, fun n hn => j2 n (k5 n hn), ?_⟩
        intro id hid
        rcases List.mem_cons.mp hid with rfl | hmem
        · exact j2 id k4
        · exact j3 id hmem

/-- Folding Stage D over nodes that are all non-primitive is the identity. -/
theorem stageD_fold_id (l : List Nat) (g : Graph)
    (h : ∀ id ∈ l, g.nonSubAt id) :
    l.foldlM CudaPrimitiveCompiler.stageDStep g = some g := by
  induction l with
  | nil => rfl
  | cons a rest ih =>
      rw [List.foldlM_cons, stageDStep_of_nonSub g a (h a (by simp))]
      simpa using ih (fun id hid => h id (List.mem_cons_of_mem a hid))

/-- C2 (amended): the op-substitution stage (Stage D) is idempotent — on a
graph it has already processed, a second run makes no replacement and returns
the graph unchanged.  (The full pass is not idempotent: Stages A-C fire again
on Function, retrieval and Print nodes, per the counterexample.) -/
theorem stageD_idempotent (g g1 : Graph)
    (h : CudaPrimitiveCompiler.stageD g = some g1) :
    CudaPrimitiveCompiler.stageD g1 = some g1 := by
  unfold CudaPrimitiveCompiler.stageD at h ⊢
  obtain ⟨hkeys, _, hall⟩ := stageD_fold_some _ g g1 h
  rw [hkeys]
  exact stageD_fold_id _ g1 hall

/-- C2 amended-claim witness: a concrete Log2 node, lowered then re-run. -/
theorem stageD_idempotent_witness :
    CudaPrimitiveCompiler.stageD ⟨1, [(0, .log2)], [], [], []⟩
        = some ⟨1, [(0, .cudaLog2)], [], [], []⟩
      ∧ CudaPrimitiveCompiler.stageD ⟨1, [(0, .cudaLog2)], [], [], []⟩
        = some ⟨1, [(0, .cudaLog2)], [], [], []⟩ :=
  ⟨by decide,
    stageD_idempotent ⟨1, [(0, .log2)], [], [], []⟩
      ⟨1, [(0, .cudaLog2)], [], [], []⟩ (by decide)⟩

/-! ## C8: Stage A and the retrieval set -/

/-- C8 counterexample: on a retrieved `Function` feeding another node, Stage A
inserts the copy node into the retrieval set but the function node stays in
it, so retrieval is added, not moved. -/
theorem stageA_retrieval_counterexample :
    (CudaPrimitiveCompiler.stageA
          ⟨2, [(0, .function), (1, .other)],
            [⟨0, 1, .data 0 0 ⟨[2], [2]⟩⟩], [0], [0]⟩).payload 2
        = some .cudaCopyTo
      ∧ 2 ∈ (CudaPrimitiveCompiler.stageA
          ⟨2, [(0, .function), (1, .other)],
            [⟨0, 1, .data 0 0 ⟨[2], [2]⟩⟩], [0], [0]⟩).toRetrieve
      ∧ 0 ∈ (CudaPrimitiveCompiler.stageA
          ⟨2, [(0, .function), (1, .other)],
            [⟨0, 1, .data 0 0 ⟨[2], [2]⟩⟩], [0], [0]⟩).toRetrieve := by
  refine ⟨by decide, by decide, by decide⟩

/-- The pair found by a lookup is a member of the list. -/
theorem lookup_mem {α β : Type} [BEq α] [LawfulBEq α] (l : List (α × β))
    (a : α) (b : β) (h : l.lookup a = some b) : (a, b) ∈ l := by
  induction l with
  | nil => simp [List.lookup] at h
  | cons p rest ih =>
      cases hb : (a == p.1) with
      | true =>
          simp only [List.lookup, hb] at h
          have : a = p.1 := eq_of_beq hb
          have : (a, b) = p := by
            rcases p with ⟨p1, p2⟩
            simp only [Option.some.injEq] at h
            simp [this, h]
          simp [this]
      | false =>
          simp only [List.lookup, hb] at h
          exact List.mem_cons_of_mem p (ih h)

/-- A key outside the key set looks up to nothing. -/
theorem lookup_eq_none_of_not_mem_keys {α β : Type} [BEq α] [LawfulBEq α]
    (l : List (α × β)) (a : α) (h : a ∉ l.map (fun p => p.1)) :
    l.lookup a = none := by
  induction l with
  | nil => rfl
  | cons p rest ih =>
      simp only [List.map_cons, List.mem_cons] at h
      push_neg at h
      have hb : (a == p.1) = false := by
        simp only [beq_eq_false_iff_ne, ne_eq]
        exact h.1
      simp only [List.lookup, hb]
      exact ih h.2

/-- Lookup stays on the left over an append when it hits. -/
theorem lookup_append_left_of_some {α β : Type} [BEq α] (l1 l2 : List (α × β))
    (a : α) (b : β) (h : l1.lookup a = some b) :
    (l1 ++ l2).lookup a = some b := by
  induction l1 with
  | nil => simp [List.lookup] at h
  | cons p rest ih =>
      cases hb : (a == p.1) with
      | true => simp_all [List.lookup, hb]
      | false =>
          simp only [List.lookup, hb] at h
          simp only [List.cons_append, List.lookup, hb]
          exact ih h

/-- Membership is preserved by `setInsert`. -/
theorem mem_setInsert_of_mem (l : List Nat) (n m : Nat) (h : m ∈ l) :
    m ∈ setInsert l n := by
  unfold setInsert
  by_cases hn : n ∈ l <;> simp [hn, h]

/-- The inserted element is a member of `setInsert`. -/
theorem mem_setInsert_self (l : List Nat) (n : Nat) : n ∈ setInsert l n := by
  unfold setInsert
  by_cases hn : n ∈ l <;> simp [hn]

/-- The copy-from inner step of Stage A only appends a node, reroutes one
edge, and leaves the bookkeeping sets, so their skeleton is explicit. -/
theorem stageACopyFromStep_skeleton (f : Nat) (h : Graph) (e : Edge) :
    (CudaPrimitiveCompiler.stageACopyFromStep f h e).toRetrieve = h.toRetrieve
      ∧ (CudaPrimitiveCompiler.stageACopyFromStep f h e).noDelete = h.noDelete
      ∧ (CudaPrimitiveCompiler.stageACopyFromStep f h e).nextId = h.nextId + 1
      ∧ (CudaPrimitiveCompiler.stageACopyFromStep f h e).nodes
        = h.nodes ++ [(h.nextId, .cudaCopyFrom)] :=
  ⟨rfl, rfl, rfl, rfl⟩

/-- Payloads persist through the copy-from inner step. -/
theorem stageACopyFromStep_payload_mono (f : Nat) (h : Graph) (e : Edge)
    (m : Nat) (k : OpKind) (hm : h.payload m = some k) :
    (CudaPrimitiveCompiler.stageACopyFromStep f h e).payload m = some k := by
  show ((h.nodes ++ [(h.nextId, OpKind.cudaCopyFrom)]).lookup m) = some k
  exact lookup_append_left_of_some h.nodes _ m k hm

/-- Edges other than the rerouted one persist through the inner step. -/
theorem stageACopyFromStep_edge_keep (f : Nat) (h : Graph) (e ed : Edge)
    (hed : ed ∈ h.edges) (hne : ed ≠ e) :
    ed ∈ (CudaPrimitiveCompiler.stageACopyFromStep f h e).edges := by
  show ed ∈ ((h.edges ++ _) ++ _).erase e
  rw [List.mem_erase_of_ne hne]
  exact List.mem_append_left _ (List.mem_append_left _ hed)

/-- Key boundedness persists through the inner step. -/
theorem stageACopyFromStep_keysBounded (f : Nat) (h : Graph) (e : Edge)
    (hb : h.keysBounded) :
    (CudaPrimitiveCompiler.stageACopyFromStep f h e).keysBounded := by
  intro p hp
  show p.1 < h.nextId + 1
  rcases List.mem_append.mp hp with hl | hr
  · exact Nat.lt_succ_of_lt (hb p hl)
  · simp only [List.mem_singleton] at hr
    simp [hr]

/-- Folding the copy-from inner step: sets unchanged, next id monotone,
payloads persistent, boundedness kept, non-colliding edges kept. -/
theorem stageACopyFrom_fold_props (f : Nat) (l : List Edge) (h : Graph) :
    (l.foldl (CudaPrimitiveCompiler.stageACopyFromStep f) h).toRetrieve
        = h.toRetrieve
      ∧ (l.foldl (CudaPrimitiveCompiler.stageACopyFromStep f) h).noDelete
        = h.noDelete
      ∧ h.nextId
        ≤ (l.foldl (CudaPrimitiveCompiler.stageACopyFromStep f) h).nextId
      ∧ (∀ m k, h.payload m = some k →
          (l.foldl (CudaPrimitiveCompiler.stageACopyFromStep f) h).payload m
            = some k)
      ∧ (h.keysBounded →
          (l.foldl (CudaPrimitiveCompiler.stageACopyFromStep f) h).keysBounded)
      ∧ (∀ ed ∈ h.edges, (∀ e ∈ l, ed ≠ e) →
          ed ∈ (l.foldl (CudaPrimitiveCompiler.stageACopyFromStep f) h).edges)
    := by
  induction l generalizing h with
  | nil => exact ⟨rfl, rfl, le_refl _, fun m k hk => hk, fun hb => hb,
      fun ed hed _ => hed⟩
  | cons e rest ih =>
      simp only [List.foldl_cons]
      obtain ⟨i1, i2, i3, i4, i5, i6⟩ :=
        ih (CudaPrimitiveCompiler.stageACopyFromStep f h e)
      obtain ⟨s1, s2, s3, _⟩ := stageACopyFromStep_skeleton f h e
      refine ⟨i1.trans s1, i2.trans s2, ?_, ?_, ?_, ?_⟩
      · calc h.nextId
            ≤ h.nextId + 1 := Nat.le_succ _
          _ = (CudaPrimitiveCompiler.stageACopyFromStep f h e).nextId :=
            s3.symm
          _ ≤ _ := i3
      · intro m k hk
        exact i4 m k (stageACopyFromStep_payload_mono f h e m k hk)
      · intro hb
        exact i5 (stageACopyFromStep_keysBounded f h e hb)
      · intro ed hed hne
        exact i6 ed
          (stageACopyFromStep_edge_keep f h e ed hed (hne e (by simp)))
          (fun e1 he1 => hne e1 (List.mem_cons_of_mem e he1))


/-- Incoming edges really point at the node. -/
theorem incoming_dst (g : Graph) (n : Nat) (e : Edge) (h : e ∈ g.incoming n) :
    e.dst = n := by
  have := List.mem_filter.mp h
  exact of_decide_eq_true this.2

/-- Outgoing edges really start at the node. -/
theorem outgoing_src (g : Graph) (n : Nat) (e : Edge) (h : e ∈ g.outgoing n) :
    e.src = n := by
  have := List.mem_filter.mp h
  exact of_decide_eq_true this.2

/-- Components of the pre-stage of a Stage A step. -/
theorem stageAPre_parts (g : Graph) (n : Nat) :
    (CudaPrimitiveCompiler.stageAPre g n).toRetrieve
        = (if n ∈ g.toRetrieve then setInsert g.toRetrieve g.nextId
            else g.toRetrieve)
      ∧ (CudaPrimitiveCompiler.stageAPre g n).noDelete = g.noDelete
      ∧ (CudaPrimitiveCompiler.stageAPre g n).nextId = g.nextId + 1
      ∧ (CudaPrimitiveCompiler.stageAPre g n).nodes
        = g.nodes ++ [(g.nextId, .cudaCopyTo)] := by
  by_cases hm : n ∈ g.toRetrieve <;>
    refine ⟨?_, ?_, ?_, ?_⟩ <;>
      simp [CudaPrimitiveCompiler.stageAPre, Graph.addNode, Graph.addEdge, hm]

/-- Payloads persist through the pre-stage. -/
theorem stageAPre_payload_mono (g : Graph) (n m : Nat) (k : OpKind)
    (hm : g.payload m = some k) :
    (CudaPrimitiveCompiler.stageAPre g n).payload m = some k := by
  show ((CudaPrimitiveCompiler.stageAPre g n).nodes.lookup m) = some k
  rw [(stageAPre_parts g n).2.2.2]
  exact lookup_append_left_of_some g.nodes _ m k hm

/-- Key boundedness persists through the pre-stage. -/
theorem stageAPre_keysBounded (g : Graph) (n : Nat) (hb : g.keysBounded) :
    (CudaPrimitiveCompiler.stageAPre g n).keysBounded := by
  intro p hp
  rw [(stageAPre_parts g n).2.2.2] at hp
  rw [(stageAPre_parts g n).2.2.1]
  rcases List.mem_append.mp hp with hl | hr
  · exact Nat.lt_succ_of_lt (hb p hl)
  · simp only [List.mem_singleton] at hr
    simp [hr]

/-- Edges whose source is not the processed function survive the pre-stage. -/
theorem stageAPre_edge_keep (g : Graph) (n : Nat) (ed : Edge)
    (hed : ed ∈ g.edges) (hsrc : ed.src ≠ n) :
    ed ∈ (CudaPrimitiveCompiler.stageAPre g n).edges := by
  have hmem : ed ∈ (g.edges
      ++ [Edge.mk n g.nextId (.data 0 0 ShapeTracker.empty)]).filter
        (fun e => ¬(e.src = n ∧ e.dst ≠ g.nextId)) := by
    rw [List.mem_filter]
    refine ⟨List.mem_append_left _ hed, ?_⟩
    simp [hsrc]
  by_cases hm : n ∈ g.toRetrieve <;>
    · show ed ∈ _
      simp only [CudaPrimitiveCompiler.stageAPre, Graph.addNode,
        Graph.addEdge, hm, if_true, if_false]
      exact List.mem_append_left _ hmem

/-- The fresh function-to-copy edge is present after the pre-stage. -/
theorem stageAPre_copy_edge (g : Graph) (n : Nat) :
    Edge.mk n g.nextId (.data 0 0 ShapeTracker.empty)
      ∈ (CudaPrimitiveCompiler.stageAPre g n).edges := by
  have hmem : Edge.mk n g.nextId (.data 0 0 ShapeTracker.empty)
      ∈ (g.edges
        ++ [Edge.mk n g.nextId (.data 0 0 ShapeTracker.empty)]).filter
          (fun e => ¬(e.src = n ∧ e.dst ≠ g.nextId)) := by
    rw [List.mem_filter]
    refine ⟨List.mem_append_right _ (by simp), ?_⟩
    simp
  by_cases hm : n ∈ g.toRetrieve <;>
    · show _ ∈ _
      simp only [CudaPrimitiveCompiler.stageAPre, Graph.addNode,
        Graph.addEdge, hm, if_true, if_false]
      exact List.mem_append_left _ hmem

/-- The fresh copy node carries the `CudaCopyToDevice` payload. -/
theorem stageAPre_copy_payload (g : Graph) (n : Nat) (hb : g.keysBounded) :
    (CudaPrimitiveCompiler.stageAPre g n).payload g.nextId
      = some .cudaCopyTo := by
  show ((CudaPrimitiveCompiler.stageAPre g n).nodes.lookup g.nextId) = _
  rw [(stageAPre_parts g n).2.2.2]
  have hnone : g.nodes.lookup g.nextId = none := by
    refine lookup_eq_none_of_not_mem_keys g.nodes g.nextId ?_
    intro hmem
    rcases List.mem_map.mp hmem with ⟨p, hp, hpe⟩
    exact absurd (hpe ▸ hb p hp) (lt_irrefl _)
  rw [lookup_append_of_none _ _ _ hnone, lookup_singleton_self]

/-- The retrieval set after a full Stage A step. -/
theorem stageAStep_toRetrieve (g : Graph) (n : Nat) :
    (CudaPrimitiveCompiler.stageAStep g n).toRetrieve
      = if n ∈ g.toRetrieve then setInsert g.toRetrieve g.nextId
        else g.toRetrieve := by
  show (List.foldl (CudaPrimitiveCompiler.stageACopyFromStep n)
      (CudaPrimitiveCompiler.stageAPre g n)
      ((CudaPrimitiveCompiler.stageAPre g n).incoming n)).toRetrieve = _
  rw [(stageACopyFrom_fold_props n _ _).1]
  exact (stageAPre_parts g n).1

/-- The no-delete set after a full Stage A step. -/
theorem stageAStep_noDelete (g : Graph) (n : Nat) :
    (CudaPrimitiveCompiler.stageAStep g n).noDelete = g.noDelete := by
  show (List.foldl (CudaPrimitiveCompiler.stageACopyFromStep n)
      (CudaPrimitiveCompiler.stageAPre g n)
      ((CudaPrimitiveCompiler.stageAPre g n).incoming n)).noDelete = _
  rw [(stageACopyFrom_fold_props n _ _).2.1]
  exact (stageAPre_parts g n).2.1

/-- The fresh-id counter strictly grows over a Stage A step. -/
theorem stageAStep_nextId_lt (g : Graph) (n : Nat) :
    g.nextId < (CudaPrimitiveCompiler.stageAStep g n).nextId := by
  show g.nextId < (List.foldl (CudaPrimitiveCompiler.stageACopyFromStep n)
      (CudaPrimitiveCompiler.stageAPre g n)
      ((CudaPrimitiveCompiler.stageAPre g n).incoming n)).nextId
  refine Nat.lt_of_lt_of_le ?_ ((stageACopyFrom_fold_props n _ _).2.2.1)
  rw [(stageAPre_parts g n).2.2.1]
  exact Nat.lt_succ_self _

/-- Payloads persist through a Stage A step. -/
theorem stageAStep_payload_mono (g : Graph) (n m : Nat) (k : OpKind)
    (hm : g.payload m = some k) :
    (CudaPrimitiveCompiler.stageAStep g n).payload m = some k :=
  (stageACopyFrom_fold_props n _ _).2.2.2.1 m k
    (stageAPre_payload_mono g n m k hm)

/-- Key boundedness persists through a Stage A step. -/
theorem stageAStep_keysBounded (g : Graph) (n : Nat) (hb : g.keysBounded) :
    (CudaPrimitiveCompiler.stageAStep g n).keysBounded :=
  (stageACopyFrom_fold_props n _ _).2.2.2.2.1 (stageAPre_keysBounded g n hb)

/-- Edges that avoid the processed function survive a Stage A step. -/
theorem stageAStep_edge_keep (g : Graph) (n : Nat) (ed : Edge)
    (hed : ed ∈ g.edges) (hsrc : ed.src ≠ n) (hdst : ed.dst ≠ n) :
    ed ∈ (CudaPrimitiveCompiler.stageAStep g n).edges := by
  refine (stageACopyFrom_fold_props n _ _).2.2.2.2.2 ed
    (stageAPre_edge_keep g n ed hed hsrc) ?_
  intro e he
  have := incoming_dst _ n e he
  intro hEq
  exact hdst (by rw [hEq, this])

/-- The fresh function-to-copy edge survives the whole Stage A step when the
function node is a live key. -/
theorem stageAStep_copy_edge (g : Graph) (n : Nat) (hb : g.keysBounded)
    (hn : (g.payload n).isSome) :
    Edge.mk n g.nextId (.data 0 0 ShapeTracker.empty)
      ∈ (CudaPrimitiveCompiler.stageAStep g n).edges := by
  have hlt : n < g.nextId := by
    rcases Option.isSome_iff_exists.mp hn with ⟨k, hk⟩
    have := lookup_mem g.nodes n k hk
    exact hb (n, k) this
  refine (stageACopyFrom_fold_props n _ _).2.2.2.2.2 _
    (stageAPre_copy_edge g n) ?_
  intro e he
  have hd := incoming_dst _ n e he
  intro hEq
  have hcontr : n = g.nextId := by rw [← hd, ← hEq]
  exact absurd (hcontr ▸ hlt) (lt_irrefl _)

/-- The fresh copy node keeps its payload over the whole step. -/
theorem stageAStep_copy_payload (g : Graph) (n : Nat) (hb : g.keysBounded) :
    (CudaPrimitiveCompiler.stageAStep g n).payload g.nextId
      = some .cudaCopyTo :=
  (stageACopyFrom_fold_props n _ _).2.2.2.1 _ _
    (stageAPre_copy_payload g n hb)

/-- Retrieval membership is monotone over a Stage A step. -/
theorem stageAStep_retr_mono (g : Graph) (n m : Nat)
    (hm : m ∈ g.toRetrieve) :
    m ∈ (CudaPrimitiveCompiler.stageAStep g n).toRetrieve := by
  rw [stageAStep_toRetrieve]
  by_cases h : n ∈ g.toRetrieve <;> simp only [h, if_true, if_false]
  · exact mem_setInsert_of_mem _ _ _ hm
  · exact hm

/-- Retrieval membership is monotone over the Stage A fold. -/
theorem stageA_fold_retr_mono (l : List Nat) (g : Graph) (m : Nat)
    (hm : m ∈ g.toRetrieve) :
    m ∈ (l.foldl CudaPrimitiveCompiler.stageAStep g).toRetrieve := by
  induction l generalizing g with
  | nil => exact hm
  | cons a rest ih =>
      exact ih (CudaPrimitiveCompiler.stageAStep g a)
        (stageAStep_retr_mono g a m hm)

/-- Payloads persist through the Stage A fold. -/
theorem stageA_fold_payload_mono (l : List Nat) (g : Graph) (m : Nat)
    (k : OpKind) (hm : g.payload m = some k) :
    (l.foldl CudaPrimitiveCompiler.stageAStep g).payload m = some k := by
  induction l generalizing g with
  | nil => exact hm
  | cons a rest ih =>
      exact ih (CudaPrimitiveCompiler.stageAStep g a)
        (stageAStep_payload_mono g a m k hm)

/-- Key boundedness persists through the Stage A fold. -/
theorem stageA_fold_keysBounded (l : List Nat) (g : Graph)
    (hb : g.keysBounded) :
    (l.foldl CudaPrimitiveCompiler.stageAStep g).keysBounded := by
  induction l generalizing g with
  | nil => exact hb
  | cons a rest ih =>
      exact ih (CudaPrimitiveCompiler.stageAStep g a)
        (stageAStep_keysBounded g a hb)

/-- The fresh-id counter is monotone over the Stage A fold. -/
theorem stageA_fold_nextId_mono (l : List Nat) (g : Graph) :
    g.nextId ≤ (l.foldl CudaPrimitiveCompiler.stageAStep g).nextId := by
  induction l generalizing g with
  | nil => exact le_refl _
  | cons a rest ih =>
      exact le_trans (le_of_lt (stageAStep_nextId_lt g a))
        (ih (CudaPrimitiveCompiler.stageAStep g a))

/-- Edges that avoid every processed function survive the Stage A fold. -/
theorem stageA_fold_edge_keep (l : List Nat) (g : Graph) (ed : Edge)
    (hed : ed ∈ g.edges) (havoid : ∀ n ∈ l, ed.src ≠ n ∧ ed.dst ≠ n) :
    ed ∈ (l.foldl CudaPrimitiveCompiler.stageAStep g).edges := by
  induction l generalizing g with
  | nil => exact hed
  | cons a rest ih =>
      refine ih (CudaPrimitiveCompiler.stageAStep g a)
        (stageAStep_edge_keep g a ed hed (havoid a (by simp)).1
          (havoid a (by simp)).2) ?_
      intro n hn
      exact havoid n (List.mem_cons_of_mem a hn)

/-- C8 (amended): Stage A adds retrieval to the fresh copy node of every
retrieved function with outgoing edges, and the function node itself stays in
the retrieval set — retrieval is added to the copy, not moved. -/
theorem stageA_adds_retrieval_to_copy (g : Graph) (f : Nat)
    (hb : g.keysBounded) (hnd : g.keysNodup)
    (hf : g.payload f = some .function)
    (hout : (g.outgoing f).length ≠ 0)
    (hr : f ∈ g.toRetrieve) :
    f ∈ (CudaPrimitiveCompiler.stageA g).toRetrieve
      ∧ ∃ c, (CudaPrimitiveCompiler.stageA g).payload c = some .cudaCopyTo
        ∧ Edge.mk f c (.data 0 0 ShapeTracker.empty)
            ∈ (CudaPrimitiveCompiler.stageA g).edges
        ∧ c ∈ (CudaPrimitiveCompiler.stageA g).toRetrieve := by
  unfold CudaPrimitiveCompiler.stageA
  set fns := ((g.nodes.filter
      (fun p => p.2 = OpKind.function ∧ (g.outgoing p.1).length ≠ 0)).map
      (fun p => p.1)) with hfns
  have hfmem : f ∈ fns := by
    rw [hfns]
    refine List.mem_map.mpr ⟨(f, OpKind.function), ?_, rfl⟩
    rw [List.mem_filter]
    exact ⟨lookup_mem g.nodes f OpKind.function hf,
      decide_eq_true (by exact ⟨rfl, hout⟩)⟩
  have hfnsnodup : fns.Nodup := by
    rw [hfns]
    exact hnd.sublist (List.Sublist.map _ (List.filter_sublist g.nodes))
  have hfnskeys : ∀ n ∈ fns, n < g.nextId := by
    intro n hn
    rw [hfns] at hn
    rcases List.mem_map.mp hn with ⟨p, hp, hpe⟩
    exact hpe ▸ hb p (List.mem_of_mem_filter hp)
  rcases List.append_of_mem hfmem with ⟨l1, l2, hsplit⟩
  have hfnotl2 : f ∉ l2 := by
    have := hsplit ▸ hfnsnodup
    have h2 := (List.nodup_append.mp this).2.1
    exact (List.nodup_cons.mp h2).1
  rw [hsplit, List.foldl_append, List.foldl_cons]
  set g1 := l1.foldl CudaPrimitiveCompiler.stageAStep g with hg1
  have hg1b : g1.keysBounded := stageA_fold_keysBounded l1 g hb
  have hg1f : g1.payload f = some .function :=
    stageA_fold_payload_mono l1 g f _ hf
  have hg1r : f ∈ g1.toRetrieve := stageA_fold_retr_mono l1 g f hr
  have hg1n : g.nextId ≤ g1.nextId := stageA_fold_nextId_mono l1 g
  set c := g1.nextId with hc
  set g2 := CudaPrimitiveCompiler.stageAStep g1 f with hg2
  have hcp : g2.payload c = some .cudaCopyTo :=
    stageAStep_copy_payload g1 f hg1b
  have hce : Edge.mk f c (.data 0 0 ShapeTracker.empty) ∈ g2.edges :=
    stageAStep_copy_edge g1 f hg1b (by simp [hg1f])
  have hcr : c ∈ g2.toRetrieve := by
    rw [hg2, stageAStep_toRetrieve, if_pos hg1r]
    exact mem_setInsert_self _ _
  have hfr2 : f ∈ g2.toRetrieve := stageAStep_retr_mono g1 f f hg1r
  refine ⟨stageA_fold_retr_mono l2 g2 f hfr2, c,
    stageA_fold_payload_mono l2 g2 c _ hcp, ?_,
    stageA_fold_retr_mono l2 g2 c hcr⟩
  refine stageA_fold_edge_keep l2 g2 _ hce ?_
  intro n hn
  constructor
  · show f ≠ n
    intro hEq
    exact hfnotl2 (hEq ▸ hn)
  · show c ≠ n
    intro hEq
    have hlt : n < g.nextId := hfnskeys n (by
      rw [hsplit]
      exact List.mem_append_right _ (List.mem_cons_of_mem f hn))
    have : c < g.nextId := hEq ▸ hlt
    exact absurd (Nat.lt_of_le_of_lt hg1n this) (lt_irrefl _)

/-- C8 amended-claim witness: the concrete retrieved function. -/
theorem stageA_adds_retrieval_to_copy_witness :
    (0 : Nat) ∈ (CudaPrimitiveCompiler.stageA
        ⟨2, [(0, .function), (1, .other)],
          [⟨0, 1, .data 0 0 ⟨[2], [2]⟩⟩], [0], [0]⟩).toRetrieve
      ∧ ∃ c, (CudaPrimitiveCompiler.stageA
            ⟨2, [(0, .function), (1, .other)],
              [⟨0, 1, .data 0 0 ⟨[2], [2]⟩⟩], [0], [0]⟩).payload c
          = some .cudaCopyTo
        ∧ Edge.mk 0 c (.data 0 0 ShapeTracker.empty)
            ∈ (CudaPrimitiveCompiler.stageA
              ⟨2, [(0, .function), (1, .other)],
                [⟨0, 1, .data 0 0 ⟨[2], [2]⟩⟩], [0], [0]⟩).edges
        ∧ c ∈ (CudaPrimitiveCompiler.stageA
            ⟨2, [(0, .function), (1, .other)],
              [⟨0, 1, .data 0 0 ⟨[2], [2]⟩⟩], [0], [0]⟩).toRetrieve :=
  stageA_adds_retrieval_to_copy
    ⟨2, [(0, .function), (1, .other)],
      [⟨0, 1, .data 0 0 ⟨[2], [2]⟩⟩], [0], [0]⟩ 0
    (by unfold Graph.keysBounded; decide)
    (by unfold Graph.keysNodup; decide) (by decide) (by decide) (by decide)

/-! ## C1: copy fusion reaches its fixed point in a single sweep

The proof goes in three parts: structural surgery lemmas about `fuseOne`,
the invariant `sweepInv` carried over the candidate fold of
`CopyCompiler.compile`, and the `goodCopies` facts established by
`CudaPrimitiveCompiler.compile` on copy-free inputs. -/

/-- Unfolding of the fusible-pair test. -/
theorem fusiblePair_iff (g : Graph) (a b : Nat) :
    g.fusiblePair a b = true ↔
      (g.payload a = some OpKind.cudaCopyTo
          ∧ g.payload b = some OpKind.cudaCopyFrom)
        ∨ (g.payload a = some OpKind.cudaCopyFrom
          ∧ g.payload b = some OpKind.cudaCopyTo) := by
  simp [Graph.fusiblePair]

/-- Unfolding of the copy-node test. -/
theorem isCopyNode_iff (g : Graph) (n : Nat) :
    g.isCopyNode n = true ↔
      g.payload n = some OpKind.cudaCopyTo
        ∨ g.payload n = some OpKind.cudaCopyFrom := by
  unfold Graph.isCopyNode
  rcases g.payload n with _ | k
  · simp
  · cases k <;>
      simp [OpKind.isCopy, OpKind.isCopyTo, OpKind.isCopyFrom]

/-- A copy-node test transfers along payload equality. -/
theorem isCopyNode_congr (g h : Graph) (n m : Nat)
    (he : h.payload m = g.payload n) : h.isCopyNode m = g.isCopyNode n := by
  unfold Graph.isCopyNode
  rw [he]

/-- `moveOutgoingEdge` touches only the edge list. -/
theorem moveOutgoingEdge_parts (a b : Nat) (g : Graph) :
    (moveOutgoingEdge a b g).nodes = g.nodes
      ∧ (moveOutgoingEdge a b g).noDelete = g.noDelete
      ∧ (moveOutgoingEdge a b g).toRetrieve = g.toRetrieve
      ∧ (moveOutgoingEdge a b g).nextId = g.nextId :=
  ⟨rfl, rfl, rfl, rfl⟩

/-- Edge membership after `moveOutgoingEdge`. -/
theorem mem_moveOutgoingEdge_edges (a b : Nat) (g : Graph) (e1 : Edge) :
    e1 ∈ (moveOutgoingEdge a b g).edges ↔
      (e1 ∈ g.edges ∧ e1.src ≠ a)
        ∨ ∃ e0, e0 ∈ g.edges ∧ e0.src = a ∧ e1 = ⟨b, e0.dst, e0.w⟩ := by
  unfold moveOutgoingEdge Graph.outgoing
  simp only [List.mem_append, List.mem_filter, List.mem_map,
    decide_eq_true_eq]
  constructor
  · rintro (⟨h1, h2⟩ | ⟨e0, ⟨h0, h0s⟩, hE⟩)
    · exact Or.inl ⟨h1, h2⟩
    · exact Or.inr ⟨e0, h0, h0s, by rw [← hE]⟩
  · rintro (⟨h1, h2⟩ | ⟨e0, h0, h0s, hE⟩)
    · exact Or.inl ⟨h1, h2⟩
    · exact Or.inr ⟨e0, ⟨h0, h0s⟩, by rw [hE]⟩

/-- `removeNode` leaves the sets and the counter alone. -/
theorem removeNode_parts (g : Graph) (n : Nat) :
    (g.removeNode n).noDelete = g.noDelete
      ∧ (g.removeNode n).toRetrieve = g.toRetrieve
      ∧ (g.removeNode n).nextId = g.nextId :=
  ⟨rfl, rfl, rfl⟩

/-- Edge membership after `removeNode`. -/
theorem mem_removeNode_edges (g : Graph) (n : Nat) (e1 : Edge) :
    e1 ∈ (g.removeNode n).edges ↔
      e1 ∈ g.edges ∧ e1.src ≠ n ∧ e1.dst ≠ n := by
  unfold Graph.removeNode
  simp [List.mem_filter, decide_eq_true_eq]

/-- Lookup in a list filtered at another key. -/
theorem lookup_filter_ne_key (l : List (Nat × OpKind)) (n m : Nat)
    (h : m ≠ n) :
    (l.filter (fun p => p.1 ≠ n)).lookup m = l.lookup m := by
  induction l with
  | nil => rfl
  | cons p rest ih =>
      by_cases hp : p.1 = n
      · have hb : (m == p.1) = false := by
          simp only [beq_eq_false_iff_ne, ne_eq]
          exact fun e => h (e.trans hp)
        have hf : List.filter (fun q => decide (q.1 ≠ n)) (p :: rest)
            = List.filter (fun q => decide (q.1 ≠ n)) rest := by
          simp [List.filter_cons, hp]
        show (List.filter (fun q => decide (q.1 ≠ n)) (p :: rest)).lookup m = _
        rw [hf]
        show _ = List.lookup m (p :: rest)
        simp only [List.lookup, hb]
        exact ih
      · have hf : List.filter (fun q => decide (q.1 ≠ n)) (p :: rest)
            = p :: List.filter (fun q => decide (q.1 ≠ n)) rest := by
          simp [List.filter_cons, hp]
        show (List.filter (fun q => decide (q.1 ≠ n)) (p :: rest)).lookup m = _
        rw [hf]
        show List.lookup m (p :: _) = List.lookup m (p :: rest)
        simp only [List.lookup]
        cases hb : (m == p.1) with
        | true => rfl
        | false => exact ih

/-- Payload after `removeNode`, at another node. -/
theorem removeNode_payload_ne (g : Graph) (n m : Nat) (h : m ≠ n) :
    (g.removeNode n).payload m = g.payload m :=
  lookup_filter_ne_key g.nodes n m h

/-- Payload after `removeNode`, at the removed node. -/
theorem removeNode_payload_self (g : Graph) (n : Nat) :
    (g.removeNode n).payload n = none := by
  refine lookup_eq_none_of_not_mem_keys _ n ?_
  intro hmem
  rcases List.mem_map.mp hmem with ⟨p, hp, hpe⟩
  have hne : p.1 ≠ n := of_decide_eq_true (List.mem_filter.mp hp).2
  exact hne hpe

/-- `fuseOne` as an explicit composition. -/
theorem fuseOne_eq (s d : Nat) (g : Graph) :
    CopyCompiler.fuseOne s d g =
      ({ moveOutgoingEdge d s g with
          noDelete := (moveReferences g.noDelete g.toRetrieve d s).1,
          toRetrieve := (moveReferences g.noDelete g.toRetrieve d s).2 }
        : Graph).removeNode d := rfl

/-- Payload after `fuseOne`, away from the deleted node. -/
theorem fuseOne_payload_ne (s d : Nat) (g : Graph) (m : Nat) (h : m ≠ d) :
    (CopyCompiler.fuseOne s d g).payload m = g.payload m := by
  rw [fuseOne_eq]
  exact lookup_filter_ne_key _ d m h

/-- Payload after `fuseOne`, at the deleted node. -/
theorem fuseOne_payload_self (s d : Nat) (g : Graph) :
    (CopyCompiler.fuseOne s d g).payload d = none := by
  rw [fuseOne_eq]
  exact removeNode_payload_self _ d

/-- Edge membership after `fuseOne`. -/
theorem mem_fuseOne_edges (s d : Nat) (g : Graph) (e1 : Edge) :
    e1 ∈ (CopyCompiler.fuseOne s d g).edges ↔
      (((e1 ∈ g.edges ∧ e1.src ≠ d)
          ∨ ∃ e0, e0 ∈ g.edges ∧ e0.src = d ∧ e1 = ⟨s, e0.dst, e0.w⟩)
        ∧ e1.src ≠ d ∧ e1.dst ≠ d) := by
  rw [fuseOne_eq, mem_removeNode_edges]
  constructor
  · rintro ⟨hm, h1, h2⟩
    exact ⟨(mem_moveOutgoingEdge_edges d s g e1).mp hm, h1, h2⟩
  · rintro ⟨hm, h1, h2⟩
    exact ⟨(mem_moveOutgoingEdge_edges d s g e1).mpr hm, h1, h2⟩

/-- No-delete membership survives `fuseOne` away from the deleted node. -/
theorem fuseOne_noDelete_keep (s d : Nat) (g : Graph) (x : Nat)
    (hx : x ∈ g.noDelete) (hne : x ≠ d) :
    x ∈ (CopyCompiler.fuseOne s d g).noDelete := by
  rw [fuseOne_eq]
  show x ∈ (moveReferences g.noDelete g.toRetrieve d s).1
  unfold moveReferences
  by_cases hd : d ∈ g.noDelete
  · simp only [hd, if_true]
    refine mem_setInsert_of_mem _ _ _ ?_
    unfold setRemove
    rw [List.mem_filter]
    exact ⟨hx, decide_eq_true hne⟩
  · simp only [hd, if_false]
    exact hx

/-- Incoming degree is unchanged by `fuseOne` at a node that the deleted node
never fed. -/
theorem fuseOne_incoming_length (s d : Nat) (g : Graph) (c : Nat)
    (hcd : c ≠ d)
    (hnone : ∀ e ∈ g.edges, ¬(e.src = d ∧ e.dst = c)) :
    ((CopyCompiler.fuseOne s d g).incoming c).length
      = (g.incoming c).length := by
  unfold Graph.incoming
  rw [← List.countP_eq_length_filter, ← List.countP_eq_length_filter,
    fuseOne_eq]
  show List.countP _ (List.filter _ ((moveOutgoingEdge d s g).edges)) = _
  rw [List.countP_filter]
  unfold moveOutgoingEdge Graph.outgoing
  rw [List.countP_append, List.countP_filter, List.countP_map,
    List.countP_filter]
  have hA : List.countP
      (fun a => decide (a.dst = c) && decide (a.src ≠ d ∧ a.dst ≠ d)
        && decide (a.src ≠ d)) g.edges
      = List.countP (fun e => decide (e.dst = c)) g.edges := by
    refine List.countP_congr ?_
    intro e he
    simp only [Bool.and_eq_true, decide_eq_true_eq, ne_eq]
    constructor
    · rintro ⟨⟨h1, _⟩, _⟩
      exact h1
    · intro h1
      have hs1 : ¬ e.src = d := fun hsrc => hnone e he ⟨hsrc, h1⟩
      have hd1 : ¬ e.dst = d := fun hdst => hcd (h1 ▸ hdst)
      exact ⟨⟨h1, hs1, hd1⟩, hs1⟩
  have hB : List.countP
      (fun a =>
        ((fun a => decide (a.dst = c) && decide (a.src ≠ d ∧ a.dst ≠ d))
            ∘ fun e => Edge.mk s e.dst e.w) a
          && decide (a.src = d)) g.edges = 0 := by
    rw [List.countP_eq_zero]
    intro e he
    simp only [Function.comp, Bool.and_eq_true, decide_eq_true_eq, ne_eq]
    rintro ⟨⟨h1, _⟩, h2⟩
    exact hnone e he ⟨h2, h1⟩
  rw [hA, hB]
  simp


/-- Incoming membership unfolded. -/
theorem mem_incoming_iff (g : Graph) (c : Nat) (e : Edge) :
    e ∈ g.incoming c ↔ e ∈ g.edges ∧ e.dst = c := by
  unfold Graph.incoming
  simp [List.mem_filter]

/-- Outgoing membership unfolded. -/
theorem mem_outgoing_iff (g : Graph) (c : Nat) (e : Edge) :
    e ∈ g.outgoing c ↔ e ∈ g.edges ∧ e.src = c := by
  unfold Graph.outgoing
  simp [List.mem_filter]

/-- Fusing away a dead-or-copy-from node preserves the structural invariant,
and every surviving edge is an original one or points at a non-copy. -/
theorem fuseOne_good (s d : Nat) (g : Graph) (hg : g.goodCopies)
    (hs_some : (g.payload s).isSome)
    (hd : g.payload d = some OpKind.cudaCopyFrom ∨ g.payload d = none) :
    (CopyCompiler.fuseOne s d g).goodCopies
      ∧ (∀ e1 ∈ (CopyCompiler.fuseOne s d g).edges,
          e1 ∈ g.edges
            ∨ (CopyCompiler.fuseOne s d g).isCopyNode e1.dst = false) := by
  obtain ⟨hval, hsingle, horient⟩ := hg
  have hout_d : ∀ e0 ∈ g.edges, e0.src = d →
      g.isCopyNode e0.dst = false ∧ e0.dst ≠ d := by
    intro e0 h0 hsrc
    rcases hd with hdc | hdn
    · have hdcopy : g.isCopyNode e0.src = true := by
        rw [isCopyNode_iff, hsrc]
        exact Or.inr hdc
      have hnc : g.isCopyNode e0.dst = false := by
        cases hc : g.isCopyNode e0.dst with
        | false => rfl
        | true =>
            have := (horient e0 h0 hdcopy hc).1
            rw [hsrc, hdc] at this
            exact absurd (Option.some.inj this) (by simp)
      refine ⟨hnc, ?_⟩
      intro hEq
      rw [hEq] at hnc
      have : g.isCopyNode d = true := by
        rw [isCopyNode_iff]
        exact Or.inr hdc
      rw [this] at hnc
      exact absurd hnc (by simp)
    · have := (hval e0 h0).1
      rw [hsrc, hdn] at this
      exact absurd this (by simp)
  have hnone_copy : ∀ c, g.isCopyNode c = true →
      ∀ e ∈ g.edges, ¬(e.src = d ∧ e.dst = c) := by
    rintro c hc e he ⟨hsrc, hdst⟩
    have := (hout_d e he hsrc).1
    rw [hdst, hc] at this
    exact absurd this (by simp)
  refine ⟨⟨?_, ?_, ?_⟩, ?_⟩
  · -- edgesValid
    intro e1 h1
    rw [mem_fuseOne_edges] at h1
    obtain ⟨hm, hs1, hd1⟩ := h1
    rcases hm with ⟨hold, _⟩ | ⟨e0, h0, h0s, hE⟩
    · rw [fuseOne_payload_ne s d g e1.src hs1,
        fuseOne_payload_ne s d g e1.dst hd1]
      exact hval e1 hold
    · rw [fuseOne_payload_ne s d g e1.src hs1,
        fuseOne_payload_ne s d g e1.dst hd1, hE]
      exact ⟨hs_some, (hval e0 h0).2⟩
  · -- copySingleInput
    intro c hc
    have hcd : c ≠ d := by
      intro hEq
      rw [hEq] at hc
      unfold Graph.isCopyNode at hc
      rw [fuseOne_payload_self] at hc
      exact absurd hc (by simp)
    have hpc : (CopyCompiler.fuseOne s d g).payload c = g.payload c :=
      fuseOne_payload_ne s d g c hcd
    have hgc : g.isCopyNode c = true := by
      rw [← isCopyNode_congr g (CopyCompiler.fuseOne s d g) c c hpc]
      exact hc
    refine ⟨?_, ?_⟩
    · rw [fuseOne_incoming_length s d g c hcd (hnone_copy c hgc)]
      exact (hsingle c hgc).1
    · intro e he
      rw [mem_incoming_iff] at he
      obtain ⟨he1, hedst⟩ := he
      rw [mem_fuseOne_edges] at he1
      obtain ⟨hm, hs1, hd1⟩ := he1
      rcases hm with ⟨hold, _⟩ | ⟨e0, h0, h0s, hE⟩
      · exact (hsingle c hgc).2 e (by rw [mem_incoming_iff]; exact ⟨hold, hedst⟩)
      · exfalso
        refine hnone_copy c hgc e0 h0 ⟨h0s, ?_⟩
        rw [← hedst, hE]
  · -- copyEdgesOriented
    intro e1 h1 hsc hdc
    rw [mem_fuseOne_edges] at h1
    obtain ⟨hm, hs1, hd1⟩ := h1
    have hps : (CopyCompiler.fuseOne s d g).payload e1.src
        = g.payload e1.src := fuseOne_payload_ne s d g e1.src hs1
    have hpd : (CopyCompiler.fuseOne s d g).payload e1.dst
        = g.payload e1.dst := fuseOne_payload_ne s d g e1.dst hd1
    rcases hm with ⟨hold, _⟩ | ⟨e0, h0, h0s, hE⟩
    · have h2 := horient e1 hold
        (by rw [← isCopyNode_congr g _ e1.src e1.src hps]; exact hsc)
        (by rw [← isCopyNode_congr g _ e1.dst e1.dst hpd]; exact hdc)
      rw [hps, hpd]
      exact h2
    · exfalso
      have hf : g.isCopyNode e1.dst = false := by
        have := (hout_d e0 h0 h0s).1
        rw [hE]
        exact this
      rw [isCopyNode_congr g _ e1.dst e1.dst hpd, hf] at hdc
      exact absurd hdc (by simp)
  · -- surviving edges are old or point at non-copies
    intro e1 h1
    rw [mem_fuseOne_edges] at h1
    obtain ⟨hm, hs1, hd1⟩ := h1
    rcases hm with ⟨hold, _⟩ | ⟨e0, h0, h0s, hE⟩
    · exact Or.inl hold
    · refine Or.inr ?_
      have hpd : (CopyCompiler.fuseOne s d g).payload e1.dst
          = g.payload e1.dst := fuseOne_payload_ne s d g e1.dst hd1
      rw [isCopyNode_congr g _ e1.dst e1.dst hpd, hE]
      exact (hout_d e0 h0 h0s).1

/-- Folding `fuseOne` over a list of dead-or-copy-from nodes: the invariant
is preserved, payloads evolve only by deletion, untouched edges persist, and
all new edges point at non-copies. -/
theorem fuse_fold_good (ds : List Nat) (s : Nat) (g0 : Graph)
    (hg : g0.goodCopies)
    (hs_some : (g0.payload s).isSome)
    (hs_nin : s ∉ ds)
    (hds : ∀ d ∈ ds, g0.payload d = some OpKind.cudaCopyFrom
      ∨ g0.payload d = none) :
    (ds.foldl (fun h dest => CopyCompiler.fuseOne s dest h) g0).goodCopies
      ∧ (∀ x, x ∉ ds →
          (ds.foldl (fun h dest => CopyCompiler.fuseOne s dest h) g0).payload x
            = g0.payload x)
      ∧ (∀ x,
          (ds.foldl (fun h dest => CopyCompiler.fuseOne s dest h) g0).payload x
              = g0.payload x
            ∨ (ds.foldl (fun h dest => CopyCompiler.fuseOne s dest h)
                g0).payload x = none)
      ∧ (∀ ed ∈ g0.edges, ed.src ∉ ds → ed.dst ∉ ds →
          ed ∈ (ds.foldl (fun h dest => CopyCompiler.fuseOne s dest h)
            g0).edges)
      ∧ (∀ e1 ∈ (ds.foldl (fun h dest => CopyCompiler.fuseOne s dest h)
            g0).edges,
          e1 ∈ g0.edges
            ∨ (ds.foldl (fun h dest => CopyCompiler.fuseOne s dest h)
                g0).isCopyNode e1.dst = false)
      ∧ (∀ x ∈ g0.noDelete, x ∉ ds →
          x ∈ (ds.foldl (fun h dest => CopyCompiler.fuseOne s dest h)
            g0).noDelete)
      ∧ (∀ d ∈ ds,
          (ds.foldl (fun h dest => CopyCompiler.fuseOne s dest h)
            g0).payload d = none) := by
  induction ds generalizing g0 with
  | nil =>
      exact ⟨hg, fun x _ => rfl, fun x => Or.inl rfl, fun ed hed _ _ => hed,
        fun e1 he1 => Or.inl he1, fun x hx _ => hx,
        fun d hd => absurd hd (List.not_mem_nil d)⟩
  | cons d rest ih =>
      simp only [List.foldl_cons]
      have hdmem : g0.payload d = some OpKind.cudaCopyFrom
          ∨ g0.payload d = none := hds d (by simp)
      have hfg := fuseOne_good s d g0 hg hs_some hdmem
      have hsd : s ≠ d := by
        intro hEq
        exact hs_nin (hEq ▸ List.mem_cons_self d rest)
      have hs1 : ((CopyCompiler.fuseOne s d g0).payload s).isSome := by
        rw [fuseOne_payload_ne s d g0 s hsd]
        exact hs_some
      have hnin1 : s ∉ rest := fun h => hs_nin (List.mem_cons_of_mem d h)
      have hds1 : ∀ d2 ∈ rest,
          (CopyCompiler.fuseOne s d g0).payload d2
              = some OpKind.cudaCopyFrom
            ∨ (CopyCompiler.fuseOne s d g0).payload d2 = none := by
        intro d2 h2
        by_cases hEq : d2 = d
        · rw [hEq, fuseOne_payload_self]
          exact Or.inr rfl
        · rw [fuseOne_payload_ne s d g0 d2 hEq]
          exact hds d2 (List.mem_cons_of_mem d h2)
      obtain ⟨j1, j2, j3, j4, j5, j6, j7⟩ :=
        ih (CopyCompiler.fuseOne s d g0) hfg.1 hs1 hnin1 hds1
      have hcopyfalse : ∀ x,
          (CopyCompiler.fuseOne s d g0).isCopyNode x = false →
          (rest.foldl (fun h dest => CopyCompiler.fuseOne s dest h)
            (CopyCompiler.fuseOne s d g0)).isCopyNode x = false := by
        intro x hx
        rcases j3 x with hsame | hnone
        · rw [isCopyNode_congr (CopyCompiler.fuseOne s d g0) _ x x hsame]
          exact hx
        · unfold Graph.isCopyNode
          rw [hnone]
      refine ⟨j1, ?_, ?_, ?_, ?_, ?_, ?_⟩
      · intro x hx
        have hxd : x ≠ d := fun h => hx (h ▸ List.mem_cons_self d rest)
        have hxr : x ∉ rest := fun h => hx (List.mem_cons_of_mem d h)
        rw [j2 x hxr, fuseOne_payload_ne s d g0 x hxd]
      · intro x
        by_cases hxd : x = d
        · rcases j3 x with hsame | hnone
          · rw [hsame, hxd, fuseOne_payload_self]
            exact Or.inr rfl
          · exact Or.inr hnone
        · rcases j3 x with hsame | hnone
          · rw [hsame, fuseOne_payload_ne s d g0 x hxd]
            exact Or.inl rfl
          · exact Or.inr hnone
      · intro ed hed hsrc hdst
        have hsd1 : ed.src ≠ d := fun h => hsrc (h ▸ List.mem_cons_self d rest)
        have hdd1 : ed.dst ≠ d := fun h => hdst (h ▸ List.mem_cons_self d rest)
        refine j4 ed ?_ (fun h => hsrc (List.mem_cons_of_mem d h))
          (fun h => hdst (List.mem_cons_of_mem d h))
        rw [mem_fuseOne_edges]
        exact ⟨Or.inl ⟨hed, hsd1⟩, hsd1, hdd1⟩
      · intro e1 he1
        rcases j5 e1 he1 with hin1 | hnc
        · rcases hfg.2 e1 hin1 with hin0 | hnc0
          · exact Or.inl hin0
          · exact Or.inr (hcopyfalse e1.dst hnc0)
        · exact Or.inr hnc
      · intro x hx hxnin
        have hxd : x ≠ d := fun h => hxnin (h ▸ List.mem_cons_self d rest)
        exact j6 x (fuseOne_noDelete_keep s d g0 x hx hxd)
          (fun h => hxnin (List.mem_cons_of_mem d h))
      · intro d2 hd2
        rcases List.mem_cons.mp hd2 with rfl | hmem
        · rcases j3 d2 with hsame | hnone
          · rw [hsame, fuseOne_payload_self]
          · exact hnone
        · exact j7 d2 hmem

/-- The head of a list is a member. -/
theorem head?_mem {α : Type} (l : List α) (a : α) (h : l.head? = some a) :
    a ∈ l := by
  cases l with
  | nil => simp at h
  | cons b rest =>
      simp only [List.head?] at h
      obtain rfl : b = a := Option.some.inj h
      exact List.mem_cons_self b rest

/-- Incoming degree is unchanged by `removeNode` at a node the removed node
never fed. -/
theorem removeNode_incoming_length (g : Graph) (n c : Nat) (hcn : c ≠ n)
    (hnone : ∀ e ∈ g.edges, ¬(e.src = n ∧ e.dst = c)) :
    ((g.removeNode n).incoming c).length = (g.incoming c).length := by
  unfold Graph.incoming Graph.removeNode
  rw [← List.countP_eq_length_filter, ← List.countP_eq_length_filter,
    List.countP_filter]
  refine List.countP_congr ?_
  intro e he
  simp only [Bool.and_eq_true, decide_eq_true_eq, ne_eq]
  constructor
  · rintro ⟨h1, _⟩
    exact h1
  · intro h1
    have hs1 : ¬ e.src = n := fun hsrc => hnone e he ⟨hsrc, h1⟩
    have hd1 : ¬ e.dst = n := fun hdst => hcn (h1 ▸ hdst)
    exact ⟨h1, hs1, hd1⟩

/-- In an orientation-respecting graph, any fusible edge runs from a
`CudaCopyToDevice` to a `CudaCopyFromDevice`. -/
theorem fusible_edge_oriented (g : Graph) (horient : g.copyEdgesOriented)
    (e : Edge) (he : e ∈ g.edges)
    (hfus : g.fusiblePair e.src e.dst = true) :
    g.payload e.src = some OpKind.cudaCopyTo
      ∧ g.payload e.dst = some OpKind.cudaCopyFrom := by
  rcases (fusiblePair_iff g e.src e.dst).mp hfus with ⟨h1, h2⟩ | ⟨h1, h2⟩
  · exact ⟨h1, h2⟩
  · have := horient e he (by rw [isCopyNode_iff]; exact Or.inr h1)
      (by rw [isCopyNode_iff]; exact Or.inl h2)
    rw [h1] at this
    exact absurd (Option.some.inj this.1) (by simp)

/-- `processPair` on a skipped candidate. -/
theorem processPair_eq_skip (g : Graph) (first second : Nat)
    (hskip : 0 < ((g.outgoing first).filter
        (fun e => ¬ g.isCopyNode e.dst)).length
      ∨ first ∈ g.noDelete) :
    CopyCompiler.processPair g (first, second) = some g := by
  simp only [CopyCompiler.processPair]
  rw [if_pos hskip]

/-- `processPair` on a processed candidate, written out. -/
theorem processPair_eq_of_head (g : Graph) (first second : Nat) (se : Edge)
    (hskip : ¬(0 < ((g.outgoing first).filter
        (fun e => ¬ g.isCopyNode e.dst)).length
      ∨ first ∈ g.noDelete))
    (hse : ((g.incoming first).filter
      (fun e => e.w.asData.isSome)).head? = some se) :
    CopyCompiler.processPair g (first, second) =
      some ((((((CopyCompiler.fuseOne se.src second g).outgoing
          first).filter (fun e => e.w.asData.isSome)).map
            (fun e => e.dst)).foldl
          (fun h dest => CopyCompiler.fuseOne se.src dest h)
          (CopyCompiler.fuseOne se.src second g)).removeNode first) := by
  simp only [CopyCompiler.processPair]
  rw [if_neg hskip, hse]
  rfl

/-- `processPair` diverges when the first node has no data predecessor. -/
theorem processPair_eq_none (g : Graph) (first second : Nat)
    (hskip : ¬(0 < ((g.outgoing first).filter
        (fun e => ¬ g.isCopyNode e.dst)).length
      ∨ first ∈ g.noDelete))
    (hse : ((g.incoming first).filter
      (fun e => e.w.asData.isSome)).head? = none) :
    CopyCompiler.processPair g (first, second) = none := by
  simp only [CopyCompiler.processPair]
  rw [if_neg hskip, hse]
  rfl

/-- One step of the copy-fusion sweep preserves the sweep invariant. -/
theorem processPair_inv (g h : Graph) (first second : Nat)
    (rest : List (Nat × Nat))
    (hinv : g.sweepInv ((first, second) :: rest))
    (hp : CopyCompiler.processPair g (first, second) = some h) :
    h.sweepInv rest := by
  obtain ⟨hval, hsingle, horient, hfirsts, hseconds, hnodup, hacct⟩ := hinv
  have hfirstCT : g.payload first = some OpKind.cudaCopyTo :=
    hfirsts (first, second) (List.mem_cons_self _ _)
  have hsecond := hseconds (first, second) (List.mem_cons_self _ _)
  have hfirstCopy : g.isCopyNode first = true := by
    rw [isCopyNode_iff, hfirstCT]
    exact Or.inl rfl
  have hrestnodup : (rest.map Prod.fst).Nodup := by
    rw [List.map_cons] at hnodup
    exact hnodup.of_cons
  have hfirst_notin : first ∉ rest.map Prod.fst := by
    rw [List.map_cons] at hnodup
    exact (List.nodup_cons.mp hnodup).1
  by_cases hskip : 0 < ((g.outgoing first).filter
      (fun e => ¬ g.isCopyNode e.dst)).length ∨ first ∈ g.noDelete
  · -- skipped candidate: the graph is unchanged and first is pinned
    rw [processPair_eq_skip g first second hskip] at hp
    obtain rfl : g = h := Option.some.inj hp
    have hpinned : g.pinned first := by
      rcases hskip with hlen | hmem
      · obtain ⟨x, hx⟩ := List.exists_mem_of_length_pos hlen
        have hx1 := List.mem_filter.mp hx
        have hx2 := (mem_outgoing_iff g first x).mp hx1.1
        refine Or.inr ⟨x, hx2.1, hx2.2, ?_⟩
        have hnc := of_decide_eq_true hx1.2
        cases hh : g.isCopyNode x.dst with
        | false => rfl
        | true => exact absurd hh hnc
      · exact Or.inl hmem
    refine ⟨hval, hsingle, horient,
      fun q hq => hfirsts q (List.mem_cons_of_mem _ hq),
      fun q hq => hseconds q (List.mem_cons_of_mem _ hq),
      hrestnodup, ?_⟩
    intro e he hfus
    rcases hacct e he hfus with ⟨q, hq, hq1⟩ | hpin
    · rcases List.mem_cons.mp hq with rfl | hqr
      · exact Or.inr (hq1 ▸ hpinned)
      · exact Or.inl ⟨q, hqr, hq1⟩
    · exact Or.inr hpin
  · -- processed candidate
    rcases hse : ((g.incoming first).filter
        (fun e => e.w.asData.isSome)).head? with _ | se
    · rw [processPair_eq_none g first second hskip hse] at hp
      exact absurd hp (by simp)
    rw [processPair_eq_of_head g first second se hskip hse] at hp
    have hsem := head?_mem _ se hse
    have hsef := List.mem_filter.mp hsem
    have hsei := (mem_incoming_iff g first se).mp hsef.1
    set s := se.src with hs_def
    have hs_some : (g.payload s).isSome := (hval se hsei.1).1
    have hs_nc : g.isCopyNode s = false := by
      cases hh : g.isCopyNode s with
      | false => rfl
      | true =>
          have hor := horient se hsei.1 hh (by rw [hsei.2]; exact hfirstCopy)
          have := hor.2
          rw [hsei.2, hfirstCT] at this
          exact absurd (Option.some.inj this) (by simp)
    set g3 := CopyCompiler.fuseOne s second g with hg3_def
    have hG3 := fuseOne_good s second g ⟨hval, hsingle, horient⟩ hs_some
      hsecond
    -- the unprocessed outgoing dsts of first are all CopyFrom nodes in g
    have hallcopy : ∀ e ∈ g.outgoing first, g.isCopyNode e.dst = true := by
      have hlen0 : ((g.outgoing first).filter
          (fun e => ¬ g.isCopyNode e.dst)).length = 0 :=
        Nat.eq_zero_of_not_pos (fun hlt => hskip (Or.inl hlt))
      have hnil := List.length_eq_zero.mp hlen0
      intro e he
      by_contra hc
      have : e ∈ ((g.outgoing first).filter
          (fun e => ¬ g.isCopyNode e.dst)) := by
        rw [List.mem_filter]
        refine ⟨he, decide_eq_true ?_⟩
        intro hEq
        exact hc hEq
      rw [hnil] at this
      exact absurd this (List.not_mem_nil e)
    set dests := (((g3.outgoing first).filter
      (fun e => e.w.asData.isSome)).map (fun e => e.dst)) with hdests_def
    have hdests_g : ∀ d ∈ dests, g.payload d = some OpKind.cudaCopyFrom := by
      intro d hd
      rw [hdests_def] at hd
      rcases List.mem_map.mp hd with ⟨e2, he2, he2d⟩
      have he2f := List.mem_filter.mp he2
      have he2o := (mem_outgoing_iff g3 first e2).mp he2f.1
      have he2g : e2 ∈ g.edges := by
        rcases (mem_fuseOne_edges s second g e2).mp he2o.1 with
          ⟨hm, _, _⟩
        rcases hm with ⟨hold, _⟩ | ⟨e0, h0, h0s, hE⟩
        · exact hold
        · exfalso
          have hfs : e2.src = s := by rw [hE]
          rw [he2o.2] at hfs
          rw [← hfs] at hs_nc
          rw [hfirstCopy] at hs_nc
          exact absurd hs_nc (by simp)
      have he2gout : e2 ∈ g.outgoing first :=
        (mem_outgoing_iff g first e2).mpr ⟨he2g, he2o.2⟩
      have hcopy := hallcopy e2 he2gout
      have hor := horient e2 he2g (by rw [he2o.2]; exact hfirstCopy) hcopy
      rw [← he2d]
      exact hor.2
    have hCT_ne : ∀ x, g.payload x = some OpKind.cudaCopyTo →
        x ≠ second ∧ x ∉ dests := by
      intro x hx
      constructor
      · intro hEq
        rcases hsecond with hCF | hnone
        · rw [hEq, hCF] at hx
          exact absurd (Option.some.inj hx) (by simp)
        · rw [hEq, hnone] at hx
          exact absurd hx (by simp)
      · intro hmem
        have := hdests_g x hmem
        rw [hx] at this
        exact absurd (Option.some.inj this) (by simp)
    have hs_nin : s ∉ dests := by
      intro hmem
      have hd := hdests_g s hmem
      have : g.isCopyNode s = true := by
        rw [isCopyNode_iff]
        exact Or.inr hd
      rw [hs_nc] at this
      exact absurd this (by simp)
    have hs_ne2 : s ≠ second := by
      intro hEq
      rcases hsecond with hCF | hnone
      · have : g.isCopyNode s = true := by
          rw [isCopyNode_iff, hEq]
          exact Or.inr hCF
        rw [hs_nc] at this
        exact absurd this (by simp)
      · rw [hEq, hnone] at hs_some
        exact absurd hs_some (by simp)
    have hdests_g3 : ∀ d ∈ dests,
        g3.payload d = some OpKind.cudaCopyFrom ∨ g3.payload d = none := by
      intro d hd
      by_cases hds : d = second
      · rw [hds, hg3_def, fuseOne_payload_self]
        exact Or.inr rfl
      · rw [hg3_def, fuseOne_payload_ne s second g d hds]
        exact Or.inl (hdests_g d hd)
    have hs_some3 : (g3.payload s).isSome := by
      rw [hg3_def, fuseOne_payload_ne s second g s hs_ne2]
      exact hs_some
    obtain ⟨k1, k2, k3, k4, k5, k6, k7⟩ :=
      fuse_fold_good dests s g3 hG3.1 hs_some3 hs_nin hdests_g3
    set m1 := dests.foldl (fun h dest => CopyCompiler.fuseOne s dest h) g3
      with hm1_def
    obtain rfl : m1.removeNode first = h := Option.some.inj hp
    have hpayX : ∀ x, x ≠ second → x ∉ dests →
        m1.payload x = g.payload x := by
      intro x h2 hd
      rw [k2 x hd, hg3_def, fuseOne_payload_ne s second g x h2]
    refine ⟨?_, ?_, ?_, ?_, ?_, hrestnodup, ?_⟩
    · -- edgesValid
      intro e1 he1
      obtain ⟨hm, hs1, hd1⟩ := (mem_removeNode_edges m1 first e1).mp he1
      rw [removeNode_payload_ne m1 first e1.src hs1,
        removeNode_payload_ne m1 first e1.dst hd1]
      exact k1.1 e1 hm
    · -- copySingleInput
      intro c hc
      have hcfirst : c ≠ first := by
        intro hEq
        rw [hEq] at hc
        unfold Graph.isCopyNode at hc
        rw [removeNode_payload_self] at hc
        exact absurd hc (by simp)
      have hpc := removeNode_payload_ne m1 first c hcfirst
      have hcm1 : m1.isCopyNode c = true := by
        rw [← isCopyNode_congr m1 (m1.removeNode first) c c hpc]
        exact hc
      have hnofirst : ∀ e ∈ m1.edges, ¬(e.src = first ∧ e.dst = c) := by
        rintro e he ⟨hesrc, hedst⟩
        rcases k5 e he with heg3 | hnce
        · by_cases hdata : e.w.asData.isSome
          · have hef : e ∈ ((g3.outgoing first).filter
                (fun e => e.w.asData.isSome)) := by
              rw [List.mem_filter]
              exact ⟨(mem_outgoing_iff g3 first e).mpr ⟨heg3, hesrc⟩, hdata⟩
            have hcd : c ∈ dests := by
              rw [hdests_def]
              exact List.mem_map.mpr ⟨e, hef, hedst⟩
            have hnone := k7 c hcd
            unfold Graph.isCopyNode at hcm1
            rw [hnone] at hcm1
            exact absurd hcm1 (by simp)
          · have hcim : e ∈ m1.incoming c :=
              (mem_incoming_iff m1 c e).mpr ⟨he, hedst⟩
            exact hdata ((k1.2.1 c hcm1).2 e hcim)
        · rw [hedst, hcm1] at hnce
          exact absurd hnce (by simp)
      refine ⟨?_, ?_⟩
      · rw [removeNode_incoming_length m1 first c hcfirst hnofirst]
        exact (k1.2.1 c hcm1).1
      · intro e he
        obtain ⟨he1, hed⟩ := (mem_incoming_iff _ c e).mp he
        obtain ⟨hm, _, _⟩ := (mem_removeNode_edges m1 first e).mp he1
        exact (k1.2.1 c hcm1).2 e ((mem_incoming_iff m1 c e).mpr ⟨hm, hed⟩)
    · -- copyEdgesOriented
      intro e1 he1 hsc hdc
      obtain ⟨hm, hs1, hd1⟩ := (mem_removeNode_edges m1 first e1).mp he1
      have hps := removeNode_payload_ne m1 first e1.src hs1
      have hpd := removeNode_payload_ne m1 first e1.dst hd1
      rw [isCopyNode_congr m1 (m1.removeNode first) e1.src e1.src hps] at hsc
      rw [isCopyNode_congr m1 (m1.removeNode first) e1.dst e1.dst hpd] at hdc
      have := k1.2.2 e1 hm hsc hdc
      rw [hps, hpd]
      exact this
    · -- pending firsts stay CopyTo
      intro q hq
      have hqCT := hfirsts q (List.mem_cons_of_mem _ hq)
      have hq_ne_first : q.1 ≠ first := by
        intro hEq
        exact hfirst_notin (hEq ▸ List.mem_map_of_mem Prod.fst hq)
      have hq2 := hCT_ne q.1 hqCT
      rw [removeNode_payload_ne m1 first q.1 hq_ne_first,
        hpayX q.1 hq2.1 hq2.2]
      exact hqCT
    · -- pending seconds stay CopyFrom or dead
      intro q hq
      by_cases hqf : q.2 = first
      · right
        rw [hqf]
        exact removeNode_payload_self m1 first
      · rw [removeNode_payload_ne m1 first q.2 hqf]
        rcases k3 q.2 with hsame | hnone1
        · rw [hsame]
          by_cases hqs : q.2 = second
          · right
            rw [hqs, hg3_def]
            exact fuseOne_payload_self s second g
          · rw [hg3_def, fuseOne_payload_ne s second g q.2 hqs]
            exact hseconds q (List.mem_cons_of_mem _ hq)
        · exact Or.inr hnone1
    · -- accounting
      intro e1 he1 hfus
      obtain ⟨hm, hs1, hd1⟩ := (mem_removeNode_edges m1 first e1).mp he1
      have hps := removeNode_payload_ne m1 first e1.src hs1
      have hpd := removeNode_payload_ne m1 first e1.dst hd1
      have hfus_m1 : m1.fusiblePair e1.src e1.dst = true := by
        rw [fusiblePair_iff] at hfus ⊢
        rw [hps, hpd] at hfus
        exact hfus
      have hdst_copy : m1.isCopyNode e1.dst = true := by
        rw [isCopyNode_iff]
        rcases (fusiblePair_iff m1 e1.src e1.dst).mp hfus_m1 with
          ⟨_, h2⟩ | ⟨_, h2⟩
        · exact Or.inr h2
        · exact Or.inl h2
      have he1g3 : e1 ∈ g3.edges := by
        rcases k5 e1 hm with hh | hnc
        · exact hh
        · rw [hdst_copy] at hnc
          exact absurd hnc (by simp)
      have he1g : e1 ∈ g.edges := by
        rcases hG3.2 e1 he1g3 with hh | hnc
        · exact hh
        · exfalso
          have hf : m1.isCopyNode e1.dst = false := by
            rcases k3 e1.dst with hsame | hnone
            · rw [isCopyNode_congr g3 m1 e1.dst e1.dst hsame]
              exact hnc
            · unfold Graph.isCopyNode
              rw [hnone]
          rw [hdst_copy] at hf
          exact absurd hf (by simp)
      obtain ⟨_, hsrc_ne2, hdst_ne2⟩ :=
        (mem_fuseOne_edges s second g e1).mp he1g3
      have hchain_src : (m1.removeNode first).payload e1.src
          = g.payload e1.src := by
        rw [hps]
        have hv := (k1.1 e1 hm).1
        rcases k3 e1.src with hsame | hnone
        · rw [hsame, hg3_def, fuseOne_payload_ne s second g e1.src hsrc_ne2]
        · rw [hnone] at hv
          exact absurd hv (by simp)
      have hchain_dst : (m1.removeNode first).payload e1.dst
          = g.payload e1.dst := by
        rw [hpd]
        have hv := (k1.1 e1 hm).2
        rcases k3 e1.dst with hsame | hnone
        · rw [hsame, hg3_def, fuseOne_payload_ne s second g e1.dst hdst_ne2]
        · rw [hnone] at hv
          exact absurd hv (by simp)
      have hfus_g : g.fusiblePair e1.src e1.dst = true := by
        rw [fusiblePair_iff] at hfus ⊢
        rw [hchain_src, hchain_dst] at hfus
        exact hfus
      rcases hacct e1 he1g hfus_g with ⟨q, hq, hq1⟩ | hpin
      · rcases List.mem_cons.mp hq with rfl | hqr
        · exact absurd hq1.symm hs1
        · exact Or.inl ⟨q, hqr, hq1⟩
      · have hsrcCT : g.payload e1.src = some OpKind.cudaCopyTo :=
          (fusible_edge_oriented g horient e1 he1g hfus_g).1
        have hsrc_ne := hCT_ne e1.src hsrcCT
        refine Or.inr ?_
        rcases hpin with hnd | ⟨e2, he2, he2s, he2nc⟩
        · left
          show e1.src ∈ m1.noDelete
          exact k6 e1.src
            (hg3_def ▸ fuseOne_noDelete_keep s second g e1.src hnd
              hsrc_ne.1) hsrc_ne.2
        · right
          have he2v := hval e2 he2
          have hdst2_ne2 : e2.dst ≠ second := by
            intro hEq
            rcases hsecond with hCF | hnone
            · have : g.isCopyNode e2.dst = true := by
                rw [isCopyNode_iff, hEq]
                exact Or.inr hCF
              rw [he2nc] at this
              exact absurd this (by simp)
            · have := he2v.2
              rw [hEq, hnone] at this
              exact absurd this (by simp)
          have hdst2_nin : e2.dst ∉ dests := by
            intro hmem
            have : g.isCopyNode e2.dst = true := by
              rw [isCopyNode_iff]
              exact Or.inr (hdests_g e2.dst hmem)
            rw [he2nc] at this
            exact absurd this (by simp)
          have hdst2_ne_first : e2.dst ≠ first := by
            intro hEq
            have : g.isCopyNode e2.dst = true := by
              rw [isCopyNode_iff, hEq, hfirstCT]
              exact Or.inl rfl
            rw [he2nc] at this
            exact absurd this (by simp)
          have he2g3 : e2 ∈ g3.edges := by
            rw [hg3_def, mem_fuseOne_edges]
            refine ⟨Or.inl ⟨he2, ?_⟩, ?_, hdst2_ne2⟩
            · rw [he2s]
              exact hsrc_ne.1
            · rw [he2s]
              exact hsrc_ne.1
          have he2m1 : e2 ∈ m1.edges := by
            refine k4 e2 he2g3 ?_ hdst2_nin
            rw [he2s]
            exact hsrc_ne.2
          have he2h : e2 ∈ (m1.removeNode first).edges := by
            rw [mem_removeNode_edges]
            refine ⟨he2m1, ?_, hdst2_ne_first⟩
            rw [he2s]
            exact hs1
          refine ⟨e2, he2h, he2s, ?_⟩
          have hpd2 : (m1.removeNode first).payload e2.dst
              = g.payload e2.dst := by
            rw [removeNode_payload_ne m1 first e2.dst hdst2_ne_first,
              hpayX e2.dst hdst2_ne2 hdst2_nin]
          rw [isCopyNode_congr g (m1.removeNode first) e2.dst e2.dst hpd2]
          exact he2nc

/-- Erasing an element the filter drops anyway does not change the filter. -/
theorem filter_erase_of_not {α : Type} [DecidableEq α] (p : α → Bool) (e : α)
    (l : List α) (hp : p e = false) : (l.erase e).filter p = l.filter p := by
  induction l with
  | nil => rfl
  | cons a t ih =>
      rw [List.erase_cons]
      by_cases ha : a = e
      · rw [if_pos (by simp [ha]), List.filter_cons, ha, hp]
        simp
      · rw [if_neg (by simp [ha]), List.filter_cons, List.filter_cons]
        cases hpa : p a <;> simp [ih]

/-- Splitting a count along a boolean test. -/
theorem countP_split {α : Type} (p q : α → Bool) (l : List α) :
    l.countP p
      = (l.filter q).countP p + (l.filter (fun a => ¬ q a)).countP p := by
  induction l with
  | nil => rfl
  | cons a t ih =>
      rw [List.filter_cons, List.filter_cons]
      cases hq : q a <;> cases hp : p a <;>
        simp [List.countP_cons, hp, hq, ih] <;> omega

/-- With distinct keys, a stored binding is what lookup returns. -/
theorem lookup_of_mem_of_nodup (l : List (Nat × OpKind)) (n : Nat)
    (k : OpKind) (hnd : (l.map Prod.fst).Nodup) (hm : (n, k) ∈ l) :
    l.lookup n = some k := by
  induction l with
  | nil => cases hm
  | cons p t ih =>
      rw [List.map_cons, List.nodup_cons] at hnd
      rcases List.mem_cons.mp hm with rfl | hmt
      · simp [List.lookup]
      · have hne : ¬ (n == p.1) = true := by
          intro hb
          have hEq : n = p.1 := by exact_mod_cast of_decide_eq_true hb
          exact hnd.1 (hEq ▸ List.mem_map_of_mem Prod.fst hmt)
        cases hb : (n == p.1) with
        | true => exact absurd hb hne
        | false =>
            simp only [List.lookup, hb]
            exact ih hnd.2 hmt

/-- Lookup in a non-matching singleton. -/
theorem lookup_singleton_ne {α β : Type} [BEq α] [LawfulBEq α] (a b : α)
    (k : β) (h : a ≠ b) : ([(b, k)] : List (α × β)).lookup a = none := by
  have hb : (a == b) = false := beq_eq_false_iff_ne.mpr h
  simp only [List.lookup, hb]

/-- Every produced element of an Option-valued `mapM` comes from a source
element. -/
theorem mapM_mem_option {α β : Type} (f : α → Option β) (l : List α)
    (out : List β) (h : l.mapM f = some out) :
    ∀ b ∈ out, ∃ a ∈ l, f a = some b := by
  induction l generalizing out with
  | nil =>
      simp only [List.mapM_nil, pure, Option.some.injEq] at h
      subst h
      intro b hb
      cases hb
  | cons a t ih =>
      rw [List.mapM_cons] at h
      cases hfa : f a with
      | none => rw [hfa] at h; simp at h
      | some b0 =>
          rw [hfa] at h
          cases hmt : t.mapM f with
          | none => rw [hmt] at h; simp at h
          | some bs =>
              rw [hmt] at h
              simp only [Option.bind_eq_bind, Option.some_bind, pure,
                Option.some.injEq] at h
              subst h
              intro b hb
              rcases List.mem_cons.mp hb with rfl | hbs
              · exact ⟨a, List.mem_cons_self _ _, hfa⟩
              · obtain ⟨a1, ha1, hfa1⟩ := ih bs hmt b hbs
                exact ⟨a1, List.mem_cons_of_mem _ ha1, hfa1⟩

/-- Payloads persist through `addNode`. -/
theorem addNode_payload_mono (g : Graph) (k : OpKind) (x : Nat) (kk : OpKind)
    (h : g.payload x = some kk) : (g.addNode k).2.payload x = some kk :=
  lookup_append_left_of_some g.nodes _ x kk h

/-- `addNode` does not change the payload of any other id. -/
theorem addNode_payload_ne (g : Graph) (k : OpKind) (x : Nat)
    (hx : x ≠ g.nextId) : (g.addNode k).2.payload x = g.payload x := by
  show (g.nodes ++ [(g.nextId, k)]).lookup x = g.nodes.lookup x
  cases hl : g.nodes.lookup x with
  | some kk => exact lookup_append_left_of_some g.nodes _ x kk hl
  | none => rw [lookup_append_of_none _ _ _ hl, lookup_singleton_ne x _ k hx]

/-- `addNode` stores the payload at the fresh id. -/
theorem addNode_payload_new (g : Graph) (k : OpKind) (hb : g.keysBounded) :
    (g.addNode k).2.payload g.nextId = some k := by
  show (g.nodes ++ [(g.nextId, k)]).lookup g.nextId = some k
  have hnone : g.nodes.lookup g.nextId = none := by
    refine lookup_eq_none_of_not_mem_keys g.nodes g.nextId ?_
    intro hmem
    rcases List.mem_map.mp hmem with ⟨p, hp, hpe⟩
    exact absurd (hpe ▸ hb p hp) (lt_irrefl _)
  rw [lookup_append_of_none _ _ _ hnone, lookup_singleton_self]

/-- `addNode` keeps the keys bounded. -/
theorem addNode_keysBounded (g : Graph) (k : OpKind) (hb : g.keysBounded) :
    (g.addNode k).2.keysBounded := by
  intro p hp
  show p.1 < g.nextId + 1
  rcases List.mem_append.mp hp with hl | hr
  · exact Nat.lt_succ_of_lt (hb p hl)
  · simp only [List.mem_singleton] at hr
    simp [hr]

/-- `addNode` keeps the keys distinct. -/
theorem addNode_keysNodup (g : Graph) (k : OpKind) (hb : g.keysBounded)
    (hnd : g.keysNodup) : (g.addNode k).2.keysNodup := by
  show ((g.nodes ++ [(g.nextId, k)]).map Prod.fst).Nodup
  rw [List.map_append]
  refine List.Nodup.append hnd (by simp) ?_
  intro x hx hx2
  simp only [List.map_cons, List.map_nil, List.mem_singleton] at hx2
  rcases List.mem_map.mp hx with ⟨p, hp, hpe⟩
  subst hx2
  exact absurd (hpe ▸ hb p hp) (lt_irrefl _)

/-- A live id is below the fresh-id counter. -/
theorem payload_lt_nextId (g : Graph) (x : Nat) (hb : g.keysBounded)
    (hx : (g.payload x).isSome) : x < g.nextId := by
  rcases Option.isSome_iff_exists.mp hx with ⟨k, hk⟩
  exact hb (x, k) (lookup_mem g.nodes x k hk)

/-- Membership after a set insertion comes from the set or is the new
element. -/
theorem mem_setInsert_cases (l : List Nat) (n x : Nat)
    (h : x ∈ setInsert l n) : x ∈ l ∨ x = n := by
  unfold setInsert at h
  by_cases hm : n ∈ l
  · rw [if_pos hm] at h
    exact Or.inl h
  · rw [if_neg hm] at h
    rcases List.mem_append.mp h with hl | hr
    · exact Or.inl hl
    · simp only [List.mem_singleton] at hr
      exact Or.inr hr

/-- Membership in a set removal. -/
theorem mem_setRemove (l : List Nat) (n x : Nat) (h : x ∈ setRemove l n) :
    x ∈ l := List.mem_of_mem_filter h

/-- The exact edge list after the pre-stage of a Stage A step. -/
theorem stageAPre_edges (g : Graph) (n : Nat) (hb : g.keysBounded)
    (hval : g.edgesValid) :
    (CudaPrimitiveCompiler.stageAPre g n).edges
      = (g.edges.filter (fun e => ¬ e.src = n)
          ++ [Edge.mk n g.nextId (.data 0 0 ShapeTracker.empty)])
        ++ (g.edges.filter (fun e => e.src = n)).map
          (fun e => Edge.mk g.nextId e.dst e.w) := by
  have hdst : ∀ e ∈ g.edges, ¬ e.dst = g.nextId := by
    intro e he hEq
    have h2 := (hval e he).2
    have := payload_lt_nextId g e.dst hb h2
    rw [hEq] at this
    exact absurd this (lt_irrefl _)
  by_cases hm : n ∈ g.toRetrieve <;>
    · simp only [CudaPrimitiveCompiler.stageAPre, Graph.addNode,
        Graph.addEdge, Graph.outgoing, hm, if_true, if_false]
      rw [List.filter_append, List.filter_append]
      congr 1
      · congr 1
        · refine List.filter_congr ?_
          intro e he
          have := hdst e he
          by_cases hs : e.src = n <;> simp [hs, this]
        · simp
      · rw [List.filter_append]
        have h1 : (g.edges.filter (fun e => decide (e.src = n))).filter
            (fun e => decide ¬ e.dst = g.nextId)
              = g.edges.filter (fun e => decide (e.src = n)) := by
          refine List.filter_eq_self.mpr ?_
          intro e he
          exact decide_eq_true (hdst e (List.mem_of_mem_filter he))
        have h2 : (([Edge.mk n g.nextId (.data 0 0 ShapeTracker.empty)]
            : List Edge).filter (fun e => decide (e.src = n))).filter
              (fun e => decide ¬ e.dst = g.nextId) = [] := by
          by_cases hs : n = n <;> simp
        rw [h1, h2, List.append_nil]

/-- Payloads of other ids are untouched by the pre-stage. -/
theorem stageAPre_payload_ne (g : Graph) (n x : Nat) (hx : x ≠ g.nextId) :
    (CudaPrimitiveCompiler.stageAPre g n).payload x = g.payload x := by
  unfold Graph.payload
  rw [(stageAPre_parts g n).2.2.2]
  cases hl : g.nodes.lookup x with
  | some kk => exact lookup_append_left_of_some g.nodes _ x kk hl
  | none => rw [lookup_append_of_none _ _ _ hl, lookup_singleton_ne x _ _ hx]

/-- Edge-membership cases after the pre-stage. -/
theorem stageAPre_mem_edges (g : Graph) (n : Nat) (hb : g.keysBounded)
    (hval : g.edgesValid) (ed : Edge)
    (hed : ed ∈ (CudaPrimitiveCompiler.stageAPre g n).edges) :
    (ed ∈ g.edges ∧ ¬ ed.src = n)
      ∨ ed = Edge.mk n g.nextId (.data 0 0 ShapeTracker.empty)
      ∨ ∃ e0 ∈ g.edges, e0.src = n ∧ ed = Edge.mk g.nextId e0.dst e0.w := by
  rw [stageAPre_edges g n hb hval] at hed
  rcases List.mem_append.mp hed with hl | hr
  · rcases List.mem_append.mp hl with hll | hlr
    · have := List.mem_filter.mp hll
      exact Or.inl ⟨this.1, of_decide_eq_true this.2⟩
    · simp only [List.mem_singleton] at hlr
      exact Or.inr (Or.inl hlr)
  · rcases List.mem_map.mp hr with ⟨e0, he0, he0e⟩
    have := List.mem_filter.mp he0
    exact Or.inr (Or.inr ⟨e0, this.1, of_decide_eq_true this.2, he0e.symm⟩)

/-- The incoming edge count of every pre-existing node is unchanged by the
pre-stage. -/
theorem stageAPre_incoming_len (g : Graph) (n d : Nat) (hb : g.keysBounded)
    (hval : g.edgesValid) (hd : d ≠ g.nextId) :
    ((CudaPrimitiveCompiler.stageAPre g n).incoming d).length
      = (g.incoming d).length := by
  unfold Graph.incoming
  rw [stageAPre_edges g n hb hval, List.filter_append, List.filter_append,
    List.length_append, List.length_append]
  have h0 : (([Edge.mk n g.nextId (.data 0 0 ShapeTracker.empty)]
      : List Edge).filter (fun e => e.dst = d)).length = 0 := by
    have : g.nextId ≠ d := fun hEq => hd hEq.symm
    simp [this]
  have h2 : (((g.edges.filter (fun e => e.src = n)).map
      (fun e => Edge.mk g.nextId e.dst e.w)).filter
        (fun e => e.dst = d)).length
      = ((g.edges.filter (fun e => e.src = n)).filter
        (fun e => e.dst = d)).length := by
    rw [List.filter_map, List.length_map]
    exact congrArg List.length (List.filter_congr (fun e he => rfl))
  rw [h0, h2]
  rw [← List.countP_eq_length_filter, ← List.countP_eq_length_filter,
    ← List.countP_eq_length_filter]
  have hsplit := countP_split (fun e => e.dst = d) (fun e => e.src = n)
    g.edges
  have hcg : g.edges.filter (fun e => ¬ decide (e.src = n) = true)
      = g.edges.filter (fun e => ¬ e.src = n) := by
    refine List.filter_congr ?_
    intro e he
    by_cases hs : e.src = n <;> simp [hs]
  rw [hcg] at hsplit
  omega

/-- The fresh copy node of the pre-stage has exactly the one incoming edge
from the function node. -/
theorem stageAPre_incoming_new (g : Graph) (n : Nat) (hb : g.keysBounded)
    (hval : g.edgesValid) :
    (CudaPrimitiveCompiler.stageAPre g n).incoming g.nextId
      = [Edge.mk n g.nextId (.data 0 0 ShapeTracker.empty)] := by
  have hdst : ∀ e ∈ g.edges, ¬ e.dst = g.nextId := by
    intro e he hEq
    have := payload_lt_nextId g e.dst hb (hval e he).2
    rw [hEq] at this
    exact absurd this (lt_irrefl _)
  unfold Graph.incoming
  rw [stageAPre_edges g n hb hval, List.filter_append, List.filter_append]
  have hA : (g.edges.filter (fun e => ¬ e.src = n)).filter
      (fun e => e.dst = g.nextId) = [] := by
    rw [List.filter_eq_nil]
    intro e he
    simp [hdst e (List.mem_of_mem_filter he)]
  have hB : ((g.edges.filter (fun e => e.src = n)).map
      (fun e => Edge.mk g.nextId e.dst e.w)).filter
        (fun e => e.dst = g.nextId) = [] := by
    rw [List.filter_eq_nil]
    intro e he
    rcases List.mem_map.mp he with ⟨e0, he0, he0e⟩
    have := hdst e0 (List.mem_of_mem_filter he0)
    rw [← he0e]
    simp [this]
  rw [hA, hB]
  simp

/-- The exact edge list after the inner copy-from step. -/
theorem stageACopyFromStep_edges (f : Nat) (h : Graph) (e : Edge) :
    (CudaPrimitiveCompiler.stageACopyFromStep f h e).edges
      = ((h.edges
          ++ [Edge.mk e.src h.nextId (.data 0 0 ShapeTracker.empty)])
          ++ [Edge.mk h.nextId f e.w]).erase e := rfl

/-- Payloads of other ids are untouched by the inner copy-from step. -/
theorem stageACopyFromStep_payload_ne (f : Nat) (h : Graph) (e : Edge)
    (x : Nat) (hx : x ≠ h.nextId) :
    (CudaPrimitiveCompiler.stageACopyFromStep f h e).payload x
      = h.payload x := by
  unfold Graph.payload
  rw [(stageACopyFromStep_skeleton f h e).2.2.2]
  cases hl : h.nodes.lookup x with
  | some kk => exact lookup_append_left_of_some h.nodes _ x kk hl
  | none => rw [lookup_append_of_none _ _ _ hl, lookup_singleton_ne x _ _ hx]

/-- The fresh node of the inner copy-from step holds `CudaCopyFromDevice`. -/
theorem stageACopyFromStep_new_payload (f : Nat) (h : Graph) (e : Edge)
    (hb : h.keysBounded) :
    (CudaPrimitiveCompiler.stageACopyFromStep f h e).payload h.nextId
      = some .cudaCopyFrom := by
  unfold Graph.payload
  rw [(stageACopyFromStep_skeleton f h e).2.2.2]
  have hnone : h.nodes.lookup h.nextId = none := by
    refine lookup_eq_none_of_not_mem_keys h.nodes h.nextId ?_
    intro hmem
    rcases List.mem_map.mp hmem with ⟨p, hp, hpe⟩
    exact absurd (hpe ▸ hb p hp) (lt_irrefl _)
  rw [lookup_append_of_none _ _ _ hnone, lookup_singleton_self]

/-- Edge-membership cases after the inner copy-from step. -/
theorem stageACopyFromStep_mem_edges (f : Nat) (h : Graph) (e ed : Edge)
    (hed : ed ∈ (CudaPrimitiveCompiler.stageACopyFromStep f h e).edges) :
    ed ∈ h.edges
      ∨ ed = Edge.mk e.src h.nextId (.data 0 0 ShapeTracker.empty)
      ∨ ed = Edge.mk h.nextId f e.w := by
  rw [stageACopyFromStep_edges] at hed
  have hm := List.mem_of_mem_erase hed
  rcases List.mem_append.mp hm with h1 | h2
  · rcases List.mem_append.mp h1 with h11 | h12
    · exact Or.inl h11
    · simp only [List.mem_singleton] at h12
      exact Or.inr (Or.inl h12)
  · simp only [List.mem_singleton] at h2
    exact Or.inr (Or.inr h2)

/-- The incoming edges of a node other than the function node and the fresh
copy are unchanged by the inner copy-from step. -/
theorem stageACopyFromStep_incoming_eq (f : Nat) (h : Graph) (e : Edge)
    (d : Nat) (hd1 : d ≠ h.nextId) (hd2 : d ≠ f) (hde : e.dst = f) :
    (CudaPrimitiveCompiler.stageACopyFromStep f h e).incoming d
      = h.incoming d := by
  unfold Graph.incoming
  rw [stageACopyFromStep_edges]
  rw [filter_erase_of_not _ e _ (by rw [hde]; simp [Ne.symm hd2])]
  rw [List.filter_append, List.filter_append]
  have h1 : ([Edge.mk e.src h.nextId (.data 0 0 ShapeTracker.empty)]
      : List Edge).filter (fun ed => ed.dst = d) = [] := by
    simp [Ne.symm hd1]
  have h2 : ([Edge.mk h.nextId f e.w] : List Edge).filter
      (fun ed => ed.dst = d) = [] := by
    simp [Ne.symm hd2]
  rw [h1, h2]
  simp

/-- The fresh copy node of the inner step has exactly one incoming edge. -/
theorem stageACopyFromStep_incoming_new (f : Nat) (h : Graph) (e : Edge)
    (hb : h.keysBounded) (hval : h.edgesValid) (hf : f ≠ h.nextId)
    (hde : e.dst = f) :
    (CudaPrimitiveCompiler.stageACopyFromStep f h e).incoming h.nextId
      = [Edge.mk e.src h.nextId (.data 0 0 ShapeTracker.empty)] := by
  unfold Graph.incoming
  rw [stageACopyFromStep_edges]
  rw [filter_erase_of_not _ e _ (by rw [hde]; simp [hf])]
  rw [List.filter_append, List.filter_append]
  have hA : h.edges.filter (fun ed => ed.dst = h.nextId) = [] := by
    rw [List.filter_eq_nil]
    intro ed hedm hEq
    have hEq2 := of_decide_eq_true hEq
    have := payload_lt_nextId h ed.dst hb (hval ed hedm).2
    rw [hEq2] at this
    exact absurd this (lt_irrefl _)
  have h2 : ([Edge.mk h.nextId f e.w] : List Edge).filter
      (fun ed => ed.dst = h.nextId) = [] := by
    simp [hf]
  rw [hA, h2]
  simp

/-- The inner copy-from step preserves the Stage A invariant. -/
theorem stageACopyFromStep_inv (f : Nat) (rest : List Nat) (h : Graph)
    (e : Edge) (hinv : h.aInv rest)
    (hf : h.payload f = some OpKind.function) (hfr : f ∉ rest)
    (hesrc : ∃ k, h.payload e.src = some k ∧ k ≠ OpKind.cudaCopyFrom)
    (hde : e.dst = f) :
    (CudaPrimitiveCompiler.stageACopyFromStep f h e).aInv rest := by
  unfold Graph.aInv Graph.gcInv at hinv ⊢
  obtain ⟨⟨hb, hnd, hval, hsingle, horient⟩, hrest, hcf, hct, hretr⟩ := hinv
  have hfc : f ≠ h.nextId := by
    intro hEq
    have := payload_lt_nextId h f hb (by rw [hf]; rfl)
    rw [hEq] at this
    exact absurd this (lt_irrefl _)
  have hpres : ∀ x, (h.payload x).isSome →
      (CudaPrimitiveCompiler.stageACopyFromStep f h e).payload x
        = h.payload x := by
    intro x hx
    refine stageACopyFromStep_payload_ne f h e x ?_
    intro hEq
    have := payload_lt_nextId h x hb hx
    rw [hEq] at this
    exact absurd this (lt_irrefl _)
  obtain ⟨ks, hks, hksne⟩ := hesrc
  have hsrcS : (h.payload e.src).isSome := by rw [hks]; rfl
  have P2 := stageACopyFromStep_new_payload f h e hb
  refine ⟨⟨stageACopyFromStep_keysBounded f h e hb, ?_, ?_, ?_, ?_⟩,
    ?_, ?_, ?_, ?_⟩
  · -- keysNodup
    unfold Graph.keysNodup
    rw [(stageACopyFromStep_skeleton f h e).2.2.2]
    exact addNode_keysNodup h .cudaCopyFrom hb hnd
  · -- edgesValid
    intro ed hed
    rcases stageACopyFromStep_mem_edges f h e ed hed with hm | hm | hm
    · have hv := hval ed hm
      rw [hpres ed.src hv.1, hpres ed.dst hv.2]
      exact hv
    · subst hm
      constructor
      · show ((CudaPrimitiveCompiler.stageACopyFromStep f h e).payload
          e.src).isSome
        rw [hpres e.src hsrcS]
        exact hsrcS
      · show ((CudaPrimitiveCompiler.stageACopyFromStep f h e).payload
          h.nextId).isSome
        rw [P2]
        rfl
    · subst hm
      constructor
      · show ((CudaPrimitiveCompiler.stageACopyFromStep f h e).payload
          h.nextId).isSome
        rw [P2]
        rfl
      · show ((CudaPrimitiveCompiler.stageACopyFromStep f h e).payload
          f).isSome
        rw [hpres f (by rw [hf]; rfl), hf]
        rfl
  · -- copySingleInput
    intro d hd
    by_cases hdc : d = h.nextId
    · subst hdc
      rw [stageACopyFromStep_incoming_new f h e hb hval hfc hde]
      refine ⟨rfl, ?_⟩
      intro e1 he1
      simp only [List.mem_singleton] at he1
      subst he1
      rfl
    · have hpd := stageACopyFromStep_payload_ne f h e d hdc
      have hdh : h.isCopyNode d = true := by
        rw [← isCopyNode_congr h (CudaPrimitiveCompiler.stageACopyFromStep
          f h e) d d hpd]
        exact hd
      have hdf : d ≠ f := by
        intro hEq
        rw [isCopyNode_iff, hEq, hf] at hdh
        rcases hdh with hh | hh <;> exact absurd (Option.some.inj hh)
          (by simp)
      rw [stageACopyFromStep_incoming_eq f h e d hdc hdf hde]
      exact hsingle d hdh
  · -- copyEdgesOriented
    intro ed hed hsc hdc
    rcases stageACopyFromStep_mem_edges f h e ed hed with hm | hm | hm
    · have hv := hval ed hm
      have hps := hpres ed.src hv.1
      have hpd := hpres ed.dst hv.2
      rw [isCopyNode_congr h _ ed.src ed.src hps] at hsc
      rw [isCopyNode_congr h _ ed.dst ed.dst hpd] at hdc
      rw [hps, hpd]
      exact horient ed hm hsc hdc
    · subst hm
      have hps : (CudaPrimitiveCompiler.stageACopyFromStep f h e).payload
          e.src = some ks := by
        rw [hpres e.src hsrcS]
        exact hks
      constructor
      · show (CudaPrimitiveCompiler.stageACopyFromStep f h e).payload e.src
          = some OpKind.cudaCopyTo
        have hsc2 : (CudaPrimitiveCompiler.stageACopyFromStep f h
            e).isCopyNode e.src = true := hsc
        rw [isCopyNode_iff] at hsc2
        rcases hsc2 with hh | hh
        · exact hh
        · rw [hps] at hh
          exact absurd (Option.some.inj hh) hksne
      · exact P2
    · subst hm
      exfalso
      have hpf : (CudaPrimitiveCompiler.stageACopyFromStep f h e).payload f
          = some OpKind.function := by
        rw [hpres f (by rw [hf]; rfl)]
        exact hf
      have hdc2 : (CudaPrimitiveCompiler.stageACopyFromStep f h
          e).isCopyNode f = true := hdc
      rw [isCopyNode_iff, hpf] at hdc2
      rcases hdc2 with hh | hh <;> exact absurd (Option.some.inj hh)
        (by simp)
  · -- pending functions stay live
    intro x hx
    rw [hpres x (by rw [hrest x hx]; rfl)]
    exact hrest x hx
  · -- CopyFrom nodes feed only processed functions
    intro ed hed hsrcCF
    rcases stageACopyFromStep_mem_edges f h e ed hed with hm | hm | hm
    · have hv := hval ed hm
      rw [hpres ed.src hv.1] at hsrcCF
      obtain ⟨hh1, hh2⟩ := hcf ed hm hsrcCF
      rw [hpres ed.dst hv.2]
      exact ⟨hh1, hh2⟩
    · exfalso
      have : (CudaPrimitiveCompiler.stageACopyFromStep f h e).payload
          ed.src = some ks := by
        rw [hm]
        show (CudaPrimitiveCompiler.stageACopyFromStep f h e).payload e.src
          = some ks
        rw [hpres e.src hsrcS]
        exact hks
      rw [this] at hsrcCF
      exact hksne (Option.some.inj hsrcCF)
    · subst hm
      constructor
      · show (CudaPrimitiveCompiler.stageACopyFromStep f h e).payload f
          = some OpKind.function
        rw [hpres f (by rw [hf]; rfl)]
        exact hf
      · exact hfr
  · -- edges into CopyTo come from processed nodes
    intro ed hed hdstCT
    rcases stageACopyFromStep_mem_edges f h e ed hed with hm | hm | hm
    · have hv := hval ed hm
      rw [hpres ed.dst hv.2] at hdstCT
      exact hct ed hm hdstCT
    · exfalso
      have : (CudaPrimitiveCompiler.stageACopyFromStep f h e).payload
          ed.dst = some OpKind.cudaCopyFrom := by
        rw [hm]
        exact P2
      rw [this] at hdstCT
      exact absurd (Option.some.inj hdstCT) (by simp)
    · exfalso
      have : (CudaPrimitiveCompiler.stageACopyFromStep f h e).payload
          ed.dst = some OpKind.function := by
        rw [hm]
        show (CudaPrimitiveCompiler.stageACopyFromStep f h e).payload f
          = some OpKind.function
        rw [hpres f (by rw [hf]; rfl)]
        exact hf
      rw [this] at hdstCT
      exact absurd (Option.some.inj hdstCT) (by simp)
  · -- retrieval set facts
    intro x hx
    rw [(stageACopyFromStep_skeleton f h e).1] at hx
    obtain ⟨k, hk, hkne⟩ := hretr x hx
    exact ⟨k, by rw [hpres x (by rw [hk]; rfl)]; exact hk, hkne⟩

/-- The inner copy-from fold preserves the Stage A invariant. -/
theorem stageACopyFrom_fold_inv (f : Nat) (rest : List Nat) (L : List Edge)
    (h : Graph) (hinv : h.aInv rest)
    (hf : h.payload f = some OpKind.function) (hfr : f ∉ rest)
    (hL : ∀ e ∈ L, (∃ k, h.payload e.src = some k
      ∧ k ≠ OpKind.cudaCopyFrom) ∧ e.dst = f) :
    (L.foldl (CudaPrimitiveCompiler.stageACopyFromStep f) h).aInv rest := by
  induction L generalizing h with
  | nil => exact hinv
  | cons e t ih =>
      simp only [List.foldl_cons]
      have he := hL e (List.mem_cons_self _ _)
      have hinv1 := stageACopyFromStep_inv f rest h e hinv hf hfr he.1 he.2
      have hb : h.keysBounded := by
        unfold Graph.aInv Graph.gcInv at hinv
        exact hinv.1.1
      have hpres : ∀ x, (h.payload x).isSome →
          (CudaPrimitiveCompiler.stageACopyFromStep f h e).payload x
            = h.payload x := by
        intro x hx
        refine stageACopyFromStep_payload_ne f h e x ?_
        intro hEq
        have := payload_lt_nextId h x hb hx
        rw [hEq] at this
        exact absurd this (lt_irrefl _)
      refine ih (CudaPrimitiveCompiler.stageACopyFromStep f h e) hinv1 ?_ ?_
      · rw [hpres f (by rw [hf]; rfl)]
        exact hf
      · intro e2 he2
        obtain ⟨⟨k2, hk2, hk2ne⟩, hd2⟩ := hL e2 (List.mem_cons_of_mem _ he2)
        exact ⟨⟨k2, by rw [hpres e2.src (by rw [hk2]; rfl)]; exact hk2,
          hk2ne⟩, hd2⟩

/-- A full Stage A step preserves the invariant, discharging the processed
function node. -/
theorem stageAStep_aInv (g : Graph) (f : Nat) (rest : List Nat)
    (hinv : g.aInv (f :: rest)) (hfr : f ∉ rest) :
    (CudaPrimitiveCompiler.stageAStep g f).aInv rest := by
  unfold Graph.aInv Graph.gcInv at hinv
  obtain ⟨⟨hb, hnd, hval, hsingle, horient⟩, hrest, hcf, hct, hretr⟩ := hinv
  have hf : g.payload f = some OpKind.function :=
    hrest f (List.mem_cons_self _ _)
  have hfS : (g.payload f).isSome := by rw [hf]; rfl
  have hfc : f ≠ g.nextId := by
    intro hEq
    have := payload_lt_nextId g f hb hfS
    rw [hEq] at this
    exact absurd this (lt_irrefl _)
  have hpres4 : ∀ x, (g.payload x).isSome →
      (CudaPrimitiveCompiler.stageAPre g f).payload x = g.payload x := by
    intro x hx
    refine stageAPre_payload_ne g f x ?_
    intro hEq
    have := payload_lt_nextId g x hb hx
    rw [hEq] at this
    exact absurd this (lt_irrefl _)
  have P4 := stageAPre_copy_payload g f hb
  have hg4 : (CudaPrimitiveCompiler.stageAPre g f).aInv rest := by
    unfold Graph.aInv Graph.gcInv
    refine ⟨⟨stageAPre_keysBounded g f hb, ?_, ?_, ?_, ?_⟩, ?_, ?_, ?_, ?_⟩
    · unfold Graph.keysNodup
      rw [(stageAPre_parts g f).2.2.2]
      exact addNode_keysNodup g .cudaCopyTo hb hnd
    · -- edgesValid
      intro ed hed
      rcases stageAPre_mem_edges g f hb hval ed hed with ⟨hm, _⟩ | hm
        | ⟨e0, he0, he0s, hm⟩
      · have hv := hval ed hm
        rw [hpres4 ed.src hv.1, hpres4 ed.dst hv.2]
        exact hv
      · subst hm
        constructor
        · show ((CudaPrimitiveCompiler.stageAPre g f).payload f).isSome
          rw [hpres4 f hfS, hf]
          rfl
        · show ((CudaPrimitiveCompiler.stageAPre g f).payload
            g.nextId).isSome
          rw [P4]
          rfl
      · subst hm
        constructor
        · show ((CudaPrimitiveCompiler.stageAPre g f).payload
            g.nextId).isSome
          rw [P4]
          rfl
        · show ((CudaPrimitiveCompiler.stageAPre g f).payload
            e0.dst).isSome
          rw [hpres4 e0.dst (hval e0 he0).2]
          exact (hval e0 he0).2
    · -- copySingleInput
      intro d hd
      by_cases hdc : d = g.nextId
      · subst hdc
        rw [stageAPre_incoming_new g f hb hval]
        refine ⟨rfl, ?_⟩
        intro e1 he1
        simp only [List.mem_singleton] at he1
        subst he1
        rfl
      · have hpd := stageAPre_payload_ne g f d hdc
        have hdh : g.isCopyNode d = true := by
          rw [← isCopyNode_congr g (CudaPrimitiveCompiler.stageAPre g f)
            d d hpd]
          exact hd
        constructor
        · rw [stageAPre_incoming_len g f d hb hval hdc]
          exact (hsingle d hdh).1
        · intro e1 he1
          obtain ⟨he1m, he1d⟩ := List.mem_filter.mp he1
          have he1d2 : e1.dst = d := of_decide_eq_true he1d
          rcases stageAPre_mem_edges g f hb hval e1 he1m with ⟨hm, _⟩ | hm
            | ⟨e0, he0, he0s, hm⟩
          · exact (hsingle d hdh).2 e1 (List.mem_filter.mpr ⟨hm, he1d⟩)
          · exfalso
            apply hdc
            rw [← he1d2, hm]
          · have he0d : e0.dst = d := by
              rw [← he1d2, hm]
            have : e1.w = e0.w := by rw [hm]
            rw [this]
            exact (hsingle d hdh).2 e0 (List.mem_filter.mpr
              ⟨he0, decide_eq_true he0d⟩)
    · -- copyEdgesOriented
      intro ed hed hsc hdc
      rcases stageAPre_mem_edges g f hb hval ed hed with ⟨hm, _⟩ | hm
        | ⟨e0, he0, he0s, hm⟩
      · have hv := hval ed hm
        have hps := hpres4 ed.src hv.1
        have hpd := hpres4 ed.dst hv.2
        rw [isCopyNode_congr g _ ed.src ed.src hps] at hsc
        rw [isCopyNode_congr g _ ed.dst ed.dst hpd] at hdc
        rw [hps, hpd]
        exact horient ed hm hsc hdc
      · exfalso
        have hpf : (CudaPrimitiveCompiler.stageAPre g f).payload ed.src
            = some OpKind.function := by
          rw [hm]
          show (CudaPrimitiveCompiler.stageAPre g f).payload f = _
          rw [hpres4 f hfS]
          exact hf
        have hsc2 := hsc
        rw [isCopyNode_iff, hpf] at hsc2
        rcases hsc2 with hh | hh <;> exact absurd (Option.some.inj hh)
          (by simp)
      · constructor
        · show (CudaPrimitiveCompiler.stageAPre g f).payload ed.src
            = some OpKind.cudaCopyTo
          rw [hm]
          exact P4
        · have hd0 : ed.dst = e0.dst := by rw [hm]
          have hne : e0.dst ≠ g.nextId := by
            intro hEq
            have := payload_lt_nextId g e0.dst hb (hval e0 he0).2
            rw [hEq] at this
            exact absurd this (lt_irrefl _)
          have hpd : (CudaPrimitiveCompiler.stageAPre g f).payload ed.dst
              = g.payload e0.dst := by
            rw [hd0]
            exact stageAPre_payload_ne g f e0.dst hne
          have hdc2 := hdc
          rw [isCopyNode_iff, hpd] at hdc2
          rcases hdc2 with hh | hh
          · exfalso
            have := hct e0 he0 hh
            exact this (by rw [he0s]; exact List.mem_cons_self _ _)
          · rw [hpd]
            exact hh
    · -- pending functions stay live
      intro x hx
      rw [hpres4 x (by rw [hrest x (List.mem_cons_of_mem _ hx)]; rfl)]
      exact hrest x (List.mem_cons_of_mem _ hx)
    · -- CopyFrom nodes feed only processed functions
      intro ed hed hCF
      rcases stageAPre_mem_edges g f hb hval ed hed with ⟨hm, _⟩ | hm
        | ⟨e0, he0, he0s, hm⟩
      · have hv := hval ed hm
        rw [hpres4 ed.src hv.1] at hCF
        obtain ⟨hh1, hh2⟩ := hcf ed hm hCF
        refine ⟨by rw [hpres4 ed.dst hv.2]; exact hh1, ?_⟩
        intro hmem
        exact hh2 (List.mem_cons_of_mem _ hmem)
      · exfalso
        have : (CudaPrimitiveCompiler.stageAPre g f).payload ed.src
            = some OpKind.function := by
          rw [hm]
          show (CudaPrimitiveCompiler.stageAPre g f).payload f = _
          rw [hpres4 f hfS]
          exact hf
        rw [this] at hCF
        exact absurd (Option.some.inj hCF) (by simp)
      · exfalso
        have : (CudaPrimitiveCompiler.stageAPre g f).payload ed.src
            = some OpKind.cudaCopyTo := by
          rw [hm]
          exact P4
        rw [this] at hCF
        exact absurd (Option.some.inj hCF) (by simp)
    · -- edges into CopyTo come from processed nodes
      intro ed hed hCT
      rcases stageAPre_mem_edges g f hb hval ed hed with ⟨hm, _⟩ | hm
        | ⟨e0, he0, he0s, hm⟩
      · have hv := hval ed hm
        rw [hpres4 ed.dst hv.2] at hCT
        intro hmem
        exact hct ed hm hCT (List.mem_cons_of_mem _ hmem)
      · have hs : ed.src = f := by rw [hm]
        rw [hs]
        exact hfr
      · exfalso
        have hne : e0.dst ≠ g.nextId := by
          intro hEq
          have := payload_lt_nextId g e0.dst hb (hval e0 he0).2
          rw [hEq] at this
          exact absurd this (lt_irrefl _)
        have hpd : (CudaPrimitiveCompiler.stageAPre g f).payload ed.dst
            = g.payload e0.dst := by
          rw [show ed.dst = e0.dst by rw [hm]]
          exact stageAPre_payload_ne g f e0.dst hne
        rw [hpd] at hCT
        have := hct e0 he0 hCT
        exact this (by rw [he0s]; exact List.mem_cons_self _ _)
    · -- retrieval set facts
      intro x hx
      rw [(stageAPre_parts g f).1] at hx
      by_cases hm : f ∈ g.toRetrieve
      · rw [if_pos hm] at hx
        rcases mem_setInsert_cases _ _ _ hx with hold | hnew
        · obtain ⟨k, hk, hkne⟩ := hretr x hold
          exact ⟨k, by rw [hpres4 x (by rw [hk]; rfl)]; exact hk, hkne⟩
        · subst hnew
          exact ⟨OpKind.cudaCopyTo, P4, by simp⟩
      · rw [if_neg hm] at hx
        obtain ⟨k, hk, hkne⟩ := hretr x hx
        exact ⟨k, by rw [hpres4 x (by rw [hk]; rfl)]; exact hk, hkne⟩
  have hLfacts : ∀ e ∈ (CudaPrimitiveCompiler.stageAPre g f).incoming f,
      (∃ k, (CudaPrimitiveCompiler.stageAPre g f).payload e.src = some k
        ∧ k ≠ OpKind.cudaCopyFrom) ∧ e.dst = f := by
    intro e he
    obtain ⟨hem, hed⟩ := List.mem_filter.mp he
    have hed2 : e.dst = f := of_decide_eq_true hed
    refine ⟨?_, hed2⟩
    rcases stageAPre_mem_edges g f hb hval e hem with ⟨hm, _⟩ | hm
      | ⟨e0, he0, he0s, hm⟩
    · have hv := hval e hm
      rcases Option.isSome_iff_exists.mp hv.1 with ⟨k, hk⟩
      refine ⟨k, by rw [hpres4 e.src hv.1]; exact hk, ?_⟩
      intro hkCF
      subst hkCF
      have := (hcf e hm hk).2
      exact this (by rw [hed2]; exact List.mem_cons_self _ _)
    · exfalso
      apply hfc
      rw [← hed2, hm]
    · refine ⟨OpKind.cudaCopyTo, ?_, by simp⟩
      rw [show e.src = g.nextId by rw [hm]]
      exact P4
  have hf4 : (CudaPrimitiveCompiler.stageAPre g f).payload f
      = some OpKind.function := by
    rw [hpres4 f hfS]
    exact hf
  show ((CudaPrimitiveCompiler.stageAPre g f).incoming f).foldl
    (CudaPrimitiveCompiler.stageACopyFromStep f)
    (CudaPrimitiveCompiler.stageAPre g f) |>.aInv rest
  exact stageACopyFrom_fold_inv f rest _ _ hg4 hf4 hfr hLfacts

/-- The Stage A fold carries the invariant down to the empty pending list. -/
theorem stageA_fold_aInv (l : List Nat) (g : Graph) (hinv : g.aInv l)
    (hnd : l.Nodup) :
    (l.foldl CudaPrimitiveCompiler.stageAStep g).aInv [] := by
  induction l generalizing g with
  | nil => exact hinv
  | cons f t ih =>
      simp only [List.foldl_cons]
      have hnd2 := List.nodup_cons.mp hnd
      exact ih (CudaPrimitiveCompiler.stageAStep g f)
        (stageAStep_aInv g f t hinv hnd2.1) hnd2.2

/-- Stage A establishes the invariant from a well-formed copy-free graph
with live retrieval ids. -/
theorem stageA_aInv (g : Graph) (hb : g.keysBounded) (hnd : g.keysNodup)
    (hval : g.edgesValid) (hcf : g.copyFree)
    (htr : ∀ n ∈ g.toRetrieve, (g.payload n).isSome) :
    (CudaPrimitiveCompiler.stageA g).aInv [] := by
  have hnocopy : ∀ x, g.isCopyNode x = false := by
    intro x
    cases hx : g.isCopyNode x with
    | false => rfl
    | true =>
        exfalso
        rw [isCopyNode_iff] at hx
        rcases hx with hh | hh <;>
        · have hm := lookup_mem g.nodes x _ hh
          have h2 := hcf _ hm
          exact absurd h2 (by simp [OpKind.isCopy, OpKind.isCopyTo,
            OpKind.isCopyFrom])
  have hmemf : ∀ x ∈ ((g.nodes.filter (fun p => p.2 = OpKind.function
      ∧ (g.outgoing p.1).length ≠ 0)).map (fun p => p.1)),
      g.payload x = some OpKind.function := by
    intro x hx
    rcases List.mem_map.mp hx with ⟨p, hp, hpe⟩
    have hp2 := List.mem_filter.mp hp
    have hcond := of_decide_eq_true hp2.2
    have hpl : g.payload p.1 = some p.2 :=
      lookup_of_mem_of_nodup g.nodes p.1 p.2 hnd hp2.1
    rw [← hpe, hpl, hcond.1]
  have hndf : ((g.nodes.filter (fun p => p.2 = OpKind.function
      ∧ (g.outgoing p.1).length ≠ 0)).map (fun p => p.1)).Nodup := by
    have hsub := (List.filter_sublist (l := g.nodes)
      (p := fun p => p.2 = OpKind.function
        ∧ (g.outgoing p.1).length ≠ 0)).map (fun p => p.1)
    exact List.Nodup.sublist hsub hnd
  have hainv : g.aInv ((g.nodes.filter (fun p => p.2 = OpKind.function
      ∧ (g.outgoing p.1).length ≠ 0)).map (fun p => p.1)) := by
    unfold Graph.aInv Graph.gcInv
    refine ⟨⟨hb, hnd, hval, ?_, ?_⟩, hmemf, ?_, ?_, ?_⟩
    · intro d hd
      rw [hnocopy d] at hd
      exact absurd hd (by simp)
    · intro ed hed hsc _
      rw [hnocopy ed.src] at hsc
      exact absurd hsc (by simp)
    · intro ed hed hCF
      exfalso
      have : g.isCopyNode ed.src = true :=
        (isCopyNode_iff g ed.src).mpr (Or.inr hCF)
      rw [hnocopy ed.src] at this
      exact absurd this (by simp)
    · intro ed hed hCT
      exfalso
      have : g.isCopyNode ed.dst = true :=
        (isCopyNode_iff g ed.dst).mpr (Or.inl hCT)
      rw [hnocopy ed.dst] at this
      exact absurd this (by simp)
    · intro n hn
      rcases Option.isSome_iff_exists.mp (htr n hn) with ⟨k, hk⟩
      refine ⟨k, hk, ?_⟩
      intro hkCF
      subst hkCF
      have : g.isCopyNode n = true :=
        (isCopyNode_iff g n).mpr (Or.inr hk)
      rw [hnocopy n] at this
      exact absurd this (by simp)
  show (((g.nodes.filter (fun p => p.2 = OpKind.function
      ∧ (g.outgoing p.1).length ≠ 0)).map (fun p => p.1)).foldl
    CudaPrimitiveCompiler.stageAStep g).aInv []
  exact stageA_fold_aInv _ g hainv hndf

/-- Stage B step on a `CudaCopyToDevice` retrieval node: remap the
bookkeeping to the copy's source. -/
theorem stageBStep_of_CT (g : Graph) (n : Nat) (s : ShapeTracker) (e : Edge)
    (hCT : g.payload n = some OpKind.cudaCopyTo)
    (hhd : (g.incoming n).head? = some e) :
    CudaPrimitiveCompiler.stageBStep g (n, s)
      = some { g with
          noDelete := setInsert (setRemove g.noDelete n) e.src,
          toRetrieve := setInsert (setRemove g.toRetrieve n) e.src } := by
  simp only [CudaPrimitiveCompiler.stageBStep]
  rw [if_pos hCT, hhd]

/-- Stage B step on any other retrieval node: append a fresh
`CudaCopyFromDevice` and transfer the bookkeeping onto it. -/
theorem stageBStep_not_CT (g : Graph) (n : Nat) (s : ShapeTracker)
    (hCT : ¬ g.payload n = some OpKind.cudaCopyTo) :
    CudaPrimitiveCompiler.stageBStep g (n, s)
      = some { g with
          nextId := g.nextId + 1,
          nodes := g.nodes ++ [(g.nextId, .cudaCopyFrom)],
          edges := g.edges ++ [Edge.mk n g.nextId (.data 0 0 s)],
          noDelete := if n ∈ g.noDelete
            then setInsert (setRemove g.noDelete n) g.nextId
            else g.noDelete,
          toRetrieve := if n ∈ g.toRetrieve
            then setInsert (setRemove g.toRetrieve n) g.nextId
            else g.toRetrieve } := by
  simp only [CudaPrimitiveCompiler.stageBStep, moveReferences,
    Graph.addNode, Graph.addEdge]
  rw [if_neg hCT]

/-- No edge of a valid bounded graph reaches the fresh id. -/
theorem edges_dst_nextId_nil (g : Graph) (hb : g.keysBounded)
    (hval : g.edgesValid) :
    g.edges.filter (fun e => e.dst = g.nextId) = [] := by
  rw [List.filter_eq_nil_iff]
  intro e he hEq
  have hEq2 := of_decide_eq_true hEq
  have := payload_lt_nextId g e.dst hb (hval e he).2
  rw [hEq2] at this
  exact absurd this (lt_irrefl _)

/-- A Stage B step preserves the between-stages invariant. -/
theorem stageBStep_inv (g g1 : Graph) (n : Nat) (s : ShapeTracker)
    (hinv : g.bcInv)
    (hn : ∃ k, g.payload n = some k ∧ k ≠ OpKind.cudaCopyFrom)
    (hstep : CudaPrimitiveCompiler.stageBStep g (n, s) = some g1) :
    g1.bcInv ∧ ∀ x, (g.payload x).isSome → g1.payload x = g.payload x := by
  unfold Graph.bcInv Graph.gcInv at hinv ⊢
  obtain ⟨⟨hb, hnd, hval, hsingle, horient⟩, hcf⟩ := hinv
  by_cases hCT : g.payload n = some OpKind.cudaCopyTo
  · rcases hhd : (g.incoming n).head? with _ | e
    · simp only [CudaPrimitiveCompiler.stageBStep] at hstep
      rw [if_pos hCT, hhd] at hstep
      exact absurd hstep (by simp)
    · rw [stageBStep_of_CT g n s e hCT hhd] at hstep
      obtain rfl := Option.some.inj hstep
      exact ⟨⟨⟨hb, hnd, hval, hsingle, horient⟩, hcf⟩, fun x _ => rfl⟩
  · rw [stageBStep_not_CT g n s hCT] at hstep
    obtain rfl := Option.some.inj hstep
    obtain ⟨kn, hkn, hknCF⟩ := hn
    have hknS : (g.payload n).isSome := by rw [hkn]; rfl
    have hpres : ∀ x, (g.payload x).isSome →
        (g.nodes ++ [(g.nextId, OpKind.cudaCopyFrom)]).lookup x
          = g.payload x := by
      intro x hx
      refine addNode_payload_ne g .cudaCopyFrom x ?_
      intro hEq
      have := payload_lt_nextId g x hb hx
      rw [hEq] at this
      exact absurd this (lt_irrefl _)
    have hnew : (g.nodes ++ [(g.nextId, OpKind.cudaCopyFrom)]).lookup
        g.nextId = some OpKind.cudaCopyFrom :=
      addNode_payload_new g .cudaCopyFrom hb
    have hncopyn : OpKind.isCopy kn = false := by
      cases hx : OpKind.isCopy kn with
      | false => rfl
      | true =>
          exfalso
          have : g.isCopyNode n = true := by
            unfold Graph.isCopyNode
            rw [hkn]
            exact hx
          rw [isCopyNode_iff] at this
          rcases this with hh | hh
          · exact hCT hh
          · rw [hkn] at hh
            exact hknCF (Option.some.inj hh)
    refine ⟨⟨⟨addNode_keysBounded g .cudaCopyFrom hb,
      addNode_keysNodup g .cudaCopyFrom hb hnd, ?_, ?_, ?_⟩, ?_⟩,
      fun x hx => hpres x hx⟩
    · -- edgesValid
      intro ed hed
      rcases List.mem_append.mp hed with hm | hm
      · have hv := hval ed hm
        constructor
        · show ((g.nodes ++ _).lookup ed.src).isSome
          rw [hpres ed.src hv.1]
          exact hv.1
        · show ((g.nodes ++ _).lookup ed.dst).isSome
          rw [hpres ed.dst hv.2]
          exact hv.2
      · simp only [List.mem_singleton] at hm
        subst hm
        constructor
        · show ((g.nodes ++ _).lookup n).isSome
          rw [hpres n hknS]
          exact hknS
        · show ((g.nodes ++ _).lookup g.nextId).isSome
          rw [hnew]
          rfl
    · -- copySingleInput
      intro d hd
      by_cases hdc : d = g.nextId
      · subst hdc
        have hinc : (g.edges
            ++ [Edge.mk n g.nextId (.data 0 0 s)]).filter
              (fun ed => ed.dst = g.nextId)
            = [Edge.mk n g.nextId (.data 0 0 s)] := by
          rw [List.filter_append, edges_dst_nextId_nil g hb hval]
          simp
        constructor
        · show ((g.edges ++ _).filter (fun ed => ed.dst = g.nextId)).length
            = 1
          rw [hinc]
          rfl
        · intro e1 he1
          have he1b : e1 ∈ (g.edges
              ++ [Edge.mk n g.nextId (.data 0 0 s)]).filter
                (fun ed => ed.dst = g.nextId) := he1
          rw [hinc] at he1b
          simp only [List.mem_singleton] at he1b
          subst he1b
          rfl
      · have hpd : (g.nodes ++ [(g.nextId, OpKind.cudaCopyFrom)]).lookup d
            = g.payload d := by
          unfold Graph.payload
          cases hl : g.nodes.lookup d with
          | some kk =>
              exact lookup_append_left_of_some g.nodes _ d kk hl
          | none =>
              rw [lookup_append_of_none _ _ _ hl,
                lookup_singleton_ne d _ _ hdc]
        have hd2 : (match List.lookup d (g.nodes
            ++ [(g.nextId, OpKind.cudaCopyFrom)]) with
          | some k => OpKind.isCopy k
          | none => false) = true := hd
        rw [hpd] at hd2
        have hdg : g.isCopyNode d = true := hd2
        have hinc : (g.edges
            ++ [Edge.mk n g.nextId (.data 0 0 s)]).filter
              (fun ed => ed.dst = d)
            = g.edges.filter (fun ed => ed.dst = d) := by
          rw [List.filter_append]
          have : ([Edge.mk n g.nextId (.data 0 0 s)] : List Edge).filter
              (fun ed => ed.dst = d) = [] := by
            simp [Ne.symm hdc]
          rw [this, List.append_nil]
        constructor
        · show ((g.edges ++ _).filter (fun ed => ed.dst = d)).length = 1
          rw [hinc]
          exact (hsingle d hdg).1
        · intro e1 he1
          have he1b : e1 ∈ (g.edges
              ++ [Edge.mk n g.nextId (.data 0 0 s)]).filter
                (fun ed => ed.dst = d) := he1
          rw [hinc] at he1b
          exact (hsingle d hdg).2 e1 he1b
    · -- copyEdgesOriented
      intro ed hed hsc hdc
      rcases List.mem_append.mp hed with hm | hm
      · have hv := hval ed hm
        have hps : (g.nodes ++ [(g.nextId, OpKind.cudaCopyFrom)]).lookup
            ed.src = g.payload ed.src := hpres ed.src hv.1
        have hpd : (g.nodes ++ [(g.nextId, OpKind.cudaCopyFrom)]).lookup
            ed.dst = g.payload ed.dst := hpres ed.dst hv.2
        have hsc0 : (match List.lookup ed.src (g.nodes
            ++ [(g.nextId, OpKind.cudaCopyFrom)]) with
          | some k => OpKind.isCopy k
          | none => false) = true := hsc
        rw [hps] at hsc0
        have hsc2 : g.isCopyNode ed.src = true := hsc0
        have hdc0 : (match List.lookup ed.dst (g.nodes
            ++ [(g.nextId, OpKind.cudaCopyFrom)]) with
          | some k => OpKind.isCopy k
          | none => false) = true := hdc
        rw [hpd] at hdc0
        have hdc2 : g.isCopyNode ed.dst = true := hdc0
        have := horient ed hm hsc2 hdc2
        constructor
        · show (g.nodes ++ _).lookup ed.src = some OpKind.cudaCopyTo
          rw [hps]
          exact this.1
        · show (g.nodes ++ _).lookup ed.dst = some OpKind.cudaCopyFrom
          rw [hpd]
          exact this.2
      · exfalso
        simp only [List.mem_singleton] at hm
        subst hm
        have hsc2 : OpKind.isCopy kn = true := by
          have hsc0 : (match List.lookup n (g.nodes
              ++ [(g.nextId, OpKind.cudaCopyFrom)]) with
            | some k => OpKind.isCopy k
            | none => false) = true := hsc
          have hln : List.lookup n (g.nodes
              ++ [(g.nextId, OpKind.cudaCopyFrom)]) = some kn := by
            rw [hpres n hknS]
            exact hkn
          rw [hln] at hsc0
          exact hsc0
        rw [hncopyn] at hsc2
        exact absurd hsc2 (by simp)
    · -- CopyFrom nodes feed only functions
      intro ed hed hCF
      rcases List.mem_append.mp hed with hm | hm
      · have hv := hval ed hm
        have hps := hpres ed.src hv.1
        have hpd := hpres ed.dst hv.2
        have hCF2 : List.lookup ed.src (g.nodes
            ++ [(g.nextId, OpKind.cudaCopyFrom)])
            = some OpKind.cudaCopyFrom := hCF
        rw [hps] at hCF2
        have := hcf ed hm hCF2
        show (g.nodes ++ _).lookup ed.dst = some OpKind.function
        rw [hpd]
        exact this
      · exfalso
        simp only [List.mem_singleton] at hm
        subst hm
        have hCF2 : List.lookup n (g.nodes
            ++ [(g.nextId, OpKind.cudaCopyFrom)])
            = some OpKind.cudaCopyFrom := hCF
        have hln : List.lookup n (g.nodes
            ++ [(g.nextId, OpKind.cudaCopyFrom)]) = some kn := by
          rw [hpres n hknS]
          exact hkn
        rw [hln] at hCF2
        exact hknCF (Option.some.inj hCF2)

/-- The Stage B fold preserves the between-stages invariant. -/
theorem stageB_fold_inv (l : List (Nat × ShapeTracker)) (g h : Graph)
    (hinv : g.bcInv)
    (hl : ∀ p ∈ l, ∃ k, g.payload p.1 = some k ∧ k ≠ OpKind.cudaCopyFrom)
    (hfold : l.foldlM CudaPrimitiveCompiler.stageBStep g = some h) :
    h.bcInv := by
  induction l generalizing g with
  | nil =>
      simp only [List.foldlM_nil, pure, Option.some.injEq] at hfold
      rw [← hfold]
      exact hinv
  | cons p t ih =>
      rw [List.foldlM_cons] at hfold
      cases hs : CudaPrimitiveCompiler.stageBStep g p with
      | none => rw [hs] at hfold; simp at hfold
      | some g2 =>
          rw [hs] at hfold
          simp only [Option.bind_eq_bind, Option.some_bind] at hfold
          obtain ⟨k0, hk0, hk0ne⟩ := hl p (List.mem_cons_self _ _)
          obtain ⟨hinv2, hpres⟩ := stageBStep_inv g g2 p.1 p.2 hinv
            ⟨k0, hk0, hk0ne⟩ hs
          refine ih g2 hinv2 ?_ hfold
          intro q hq
          obtain ⟨k, hk, hkne⟩ := hl q (List.mem_cons_of_mem _ hq)
          exact ⟨k, by rw [hpres q.1 (by rw [hk]; rfl)]; exact hk, hkne⟩

/-- Stage B preserves the structural invariant and the CopyFrom-feeds-only-
functions fact, given the Stage A output invariant. -/
theorem stageB_bcInv (g h : Graph) (hinv : g.aInv [])
    (hB : CudaPrimitiveCompiler.stageB g = some h) : h.bcInv := by
  unfold Graph.aInv Graph.gcInv at hinv
  obtain ⟨⟨hb, hnd, hval, hsingle, horient⟩, _, hcf, hct, hretr⟩ := hinv
  have hbc : g.bcInv := by
    unfold Graph.bcInv Graph.gcInv
    exact ⟨⟨hb, hnd, hval, hsingle, horient⟩,
      fun e he hCF => (hcf e he hCF).1⟩
  unfold CudaPrimitiveCompiler.stageB at hB
  rw [Option.bind_eq_bind, Option.bind_eq_some] at hB
  obtain ⟨collected, hm, hfold⟩ := hB
  refine stageB_fold_inv collected g h hbc ?_ hfold
  intro p hp
  obtain ⟨n, hn, hfn⟩ := mapM_mem_option _ _ collected hm p hp
  cases hmax : maxByKeyLast ShapeTracker.nPhysicalElements
      (((g.incoming n).filterMap (fun e => e.w.asData)).map
        (fun t => t.2.2)) with
  | none => rw [hmax] at hfn; simp at hfn
  | some s0 =>
      rw [hmax] at hfn
      simp only [Option.bind_eq_bind, Option.some_bind, pure,
        Option.some.injEq] at hfn
      have hn2 : n ∈ g.toRetrieve := List.mem_of_mem_filter hn
      obtain ⟨k, hk, hkne⟩ := hretr n hn2
      refine ⟨k, ?_, hkne⟩
      rw [← hfn]
      exact hk

/-- The Stage C fold body on a data edge: interpose a fresh
`CudaCopyFromDevice` between the edge's source and the print node. -/
theorem stageCStep_eq (g : Graph) (pn : Nat) (e : Edge) (i o : Nat)
    (sh : ShapeTracker) (hda : e.w = .data i o sh) :
    ((fun h pe => do
        let (printNode, e) := pe
        let (_, _, shape) ← e.w.asData
        let (copyNode, h1) := h.addNode .cudaCopyFrom
        let h2 := h1.addEdge ⟨e.src, copyNode, .data 0 0 shape⟩
        let h3 := h2.addEdge ⟨copyNode, printNode, .data 0 0 shape⟩
        pure (h3.removeEdge e)) : Graph → Nat × Edge → Option Graph) g
        (pn, e)
      = some { g with
          nextId := g.nextId + 1,
          nodes := g.nodes ++ [(g.nextId, .cudaCopyFrom)],
          edges := ((g.edges
            ++ [Edge.mk e.src g.nextId (.data 0 0 sh)])
            ++ [Edge.mk g.nextId pn (.data 0 0 sh)]).erase e } := by
  obtain ⟨s, d, w⟩ := e
  simp only at hda
  subst hda
  rfl

/-- The Stage C fold body on a schedule edge: the `as_data` unwrap fails. -/
theorem stageCStep_none (g : Graph) (pn : Nat) (e : Edge)
    (hda : e.w = .schedule) :
    ((fun h pe => do
        let (printNode, e) := pe
        let (_, _, shape) ← e.w.asData
        let (copyNode, h1) := h.addNode .cudaCopyFrom
        let h2 := h1.addEdge ⟨e.src, copyNode, .data 0 0 shape⟩
        let h3 := h2.addEdge ⟨copyNode, printNode, .data 0 0 shape⟩
        pure (h3.removeEdge e)) : Graph → Nat × Edge → Option Graph) g
        (pn, e)
      = none := by
  obtain ⟨s, d, w⟩ := e
  simp only at hda
  subst hda
  rfl

/-- Interposing a fresh copy node before a live non-copy target preserves
the structural invariant. -/
theorem stageC_interpose_inv (g : Graph) (pn : Nat) (e : Edge)
    (sh : ShapeTracker) (hinv : g.gcInv)
    (hsrc : ∃ k, g.payload e.src = some k ∧ k ≠ OpKind.cudaCopyFrom)
    (hpn : ∃ k, g.payload pn = some k ∧ k.isCopy = false)
    (hde : e.dst = pn) :
    ({ g with
        nextId := g.nextId + 1,
        nodes := g.nodes ++ [(g.nextId, .cudaCopyFrom)],
        edges := ((g.edges
          ++ [Edge.mk e.src g.nextId (.data 0 0 sh)])
          ++ [Edge.mk g.nextId pn (.data 0 0 sh)]).erase e } : Graph).gcInv
      ∧ ∀ x, (g.payload x).isSome →
        ({ g with
            nextId := g.nextId + 1,
            nodes := g.nodes ++ [(g.nextId, .cudaCopyFrom)],
            edges := ((g.edges
              ++ [Edge.mk e.src g.nextId (.data 0 0 sh)])
              ++ [Edge.mk g.nextId pn (.data 0 0 sh)]).erase e }
          : Graph).payload x = g.payload x := by
  unfold Graph.gcInv at hinv ⊢
  obtain ⟨hb, hnd, hval, hsingle, horient⟩ := hinv
  obtain ⟨ks, hks, hksCF⟩ := hsrc
  obtain ⟨kp, hkp, hkpNC⟩ := hpn
  have hksS : (g.payload e.src).isSome := by rw [hks]; rfl
  have hkpS : (g.payload pn).isSome := by rw [hkp]; rfl
  have hpnc : pn ≠ g.nextId := by
    intro hEq
    have := payload_lt_nextId g pn hb hkpS
    rw [hEq] at this
    exact absurd this (lt_irrefl _)
  have hpres : ∀ x, (g.payload x).isSome →
      (g.nodes ++ [(g.nextId, OpKind.cudaCopyFrom)]).lookup x
        = g.payload x := by
    intro x hx
    refine addNode_payload_ne g .cudaCopyFrom x ?_
    intro hEq
    have := payload_lt_nextId g x hb hx
    rw [hEq] at this
    exact absurd this (lt_irrefl _)
  have hnew : (g.nodes ++ [(g.nextId, OpKind.cudaCopyFrom)]).lookup
      g.nextId = some OpKind.cudaCopyFrom :=
    addNode_payload_new g .cudaCopyFrom hb
  have hmem : ∀ ed, ed ∈ (((g.edges
      ++ [Edge.mk e.src g.nextId (.data 0 0 sh)])
      ++ [Edge.mk g.nextId pn (.data 0 0 sh)]).erase e) →
      ed ∈ g.edges ∨ ed = Edge.mk e.src g.nextId (.data 0 0 sh)
        ∨ ed = Edge.mk g.nextId pn (.data 0 0 sh) := by
    intro ed hed
    have hm := List.mem_of_mem_erase hed
    rcases List.mem_append.mp hm with h1 | h2
    · rcases List.mem_append.mp h1 with h11 | h12
      · exact Or.inl h11
      · simp only [List.mem_singleton] at h12
        exact Or.inr (Or.inl h12)
    · simp only [List.mem_singleton] at h2
      exact Or.inr (Or.inr h2)
  have hinc_new : (((g.edges
      ++ [Edge.mk e.src g.nextId (.data 0 0 sh)])
      ++ [Edge.mk g.nextId pn (.data 0 0 sh)]).erase e).filter
        (fun ed => ed.dst = g.nextId)
      = [Edge.mk e.src g.nextId (.data 0 0 sh)] := by
    rw [filter_erase_of_not _ e _ (by rw [hde]; simp [hpnc])]
    rw [List.filter_append, List.filter_append,
      edges_dst_nextId_nil g hb hval]
    simp [hpnc]
  have hinc_eq : ∀ d, d ≠ g.nextId → d ≠ pn →
      (((g.edges
        ++ [Edge.mk e.src g.nextId (.data 0 0 sh)])
        ++ [Edge.mk g.nextId pn (.data 0 0 sh)]).erase e).filter
          (fun ed => ed.dst = d)
        = g.edges.filter (fun ed => ed.dst = d) := by
    intro d hd1 hd2
    rw [filter_erase_of_not _ e _ (by rw [hde]; simp [Ne.symm hd2])]
    rw [List.filter_append, List.filter_append]
    have h1 : ([Edge.mk e.src g.nextId (.data 0 0 sh)] : List Edge).filter
        (fun ed => ed.dst = d) = [] := by
      simp [Ne.symm hd1]
    have h2 : ([Edge.mk g.nextId pn (.data 0 0 sh)] : List Edge).filter
        (fun ed => ed.dst = d) = [] := by
      simp [Ne.symm hd2]
    rw [h1, h2]
    simp
  refine ⟨⟨addNode_keysBounded g .cudaCopyFrom hb,
    addNode_keysNodup g .cudaCopyFrom hb hnd, ?_, ?_, ?_⟩,
    fun x hx => hpres x hx⟩
  · -- edgesValid
    intro ed hed
    rcases hmem ed hed with hm | hm | hm
    · have hv := hval ed hm
      constructor
      · show ((g.nodes ++ _).lookup ed.src).isSome
        rw [hpres ed.src hv.1]
        exact hv.1
      · show ((g.nodes ++ _).lookup ed.dst).isSome
        rw [hpres ed.dst hv.2]
        exact hv.2
    · subst hm
      constructor
      · show ((g.nodes ++ _).lookup e.src).isSome
        rw [hpres e.src hksS]
        exact hksS
      · show ((g.nodes ++ _).lookup g.nextId).isSome
        rw [hnew]
        rfl
    · subst hm
      constructor
      · show ((g.nodes ++ _).lookup g.nextId).isSome
        rw [hnew]
        rfl
      · show ((g.nodes ++ _).lookup pn).isSome
        rw [hpres pn hkpS]
        exact hkpS
  · -- copySingleInput
    intro d hd
    by_cases hdc : d = g.nextId
    · subst hdc
      constructor
      · show ((((g.edges ++ _) ++ _).erase e).filter
          (fun ed => ed.dst = g.nextId)).length = 1
        rw [hinc_new]
        rfl
      · intro e1 he1
        have he1b : e1 ∈ (((g.edges
            ++ [Edge.mk e.src g.nextId (.data 0 0 sh)])
            ++ [Edge.mk g.nextId pn (.data 0 0 sh)]).erase e).filter
              (fun ed => ed.dst = g.nextId) := he1
        rw [hinc_new] at he1b
        simp only [List.mem_singleton] at he1b
        subst he1b
        rfl
    · have hpd : (g.nodes ++ [(g.nextId, OpKind.cudaCopyFrom)]).lookup d
          = g.payload d := by
        unfold Graph.payload
        cases hl : g.nodes.lookup d with
        | some kk =>
            exact lookup_append_left_of_some g.nodes _ d kk hl
        | none =>
            rw [lookup_append_of_none _ _ _ hl,
              lookup_singleton_ne d _ _ hdc]
      have hd2 : (match List.lookup d (g.nodes
          ++ [(g.nextId, OpKind.cudaCopyFrom)]) with
        | some k => OpKind.isCopy k
        | none => false) = true := hd
      rw [hpd] at hd2
      have hdg : g.isCopyNode d = true := hd2
      have hdpn : d ≠ pn := by
        intro hEq
        have hdg2 : OpKind.isCopy kp = true := by
          unfold Graph.isCopyNode at hdg
          rw [hEq, hkp] at hdg
          exact hdg
        rw [hkpNC] at hdg2
        exact absurd hdg2 (by simp)
      constructor
      · show ((((g.edges ++ _) ++ _).erase e).filter
          (fun ed => ed.dst = d)).length = 1
        rw [hinc_eq d hdc hdpn]
        exact (hsingle d hdg).1
      · intro e1 he1
        have he1b : e1 ∈ (((g.edges
            ++ [Edge.mk e.src g.nextId (.data 0 0 sh)])
            ++ [Edge.mk g.nextId pn (.data 0 0 sh)]).erase e).filter
              (fun ed => ed.dst = d) := he1
        rw [hinc_eq d hdc hdpn] at he1b
        exact (hsingle d hdg).2 e1 he1b
  · -- copyEdgesOriented
    intro ed hed hsc hdc
    rcases hmem ed hed with hm | hm | hm
    · have hv := hval ed hm
      have hps := hpres ed.src hv.1
      have hpd := hpres ed.dst hv.2
      have hsc0 : (match List.lookup ed.src (g.nodes
          ++ [(g.nextId, OpKind.cudaCopyFrom)]) with
        | some k => OpKind.isCopy k
        | none => false) = true := hsc
      rw [hps] at hsc0
      have hsc2 : g.isCopyNode ed.src = true := hsc0
      have hdc0 : (match List.lookup ed.dst (g.nodes
          ++ [(g.nextId, OpKind.cudaCopyFrom)]) with
        | some k => OpKind.isCopy k
        | none => false) = true := hdc
      rw [hpd] at hdc0
      have hdc2 : g.isCopyNode ed.dst = true := hdc0
      have := horient ed hm hsc2 hdc2
      constructor
      · show (g.nodes ++ _).lookup ed.src = some OpKind.cudaCopyTo
        rw [hps]
        exact this.1
      · show (g.nodes ++ _).lookup ed.dst = some OpKind.cudaCopyFrom
        rw [hpd]
        exact this.2
    · subst hm
      constructor
      · show (g.nodes ++ _).lookup e.src = some OpKind.cudaCopyTo
        have hsc0 : (match List.lookup e.src (g.nodes
            ++ [(g.nextId, OpKind.cudaCopyFrom)]) with
          | some k => OpKind.isCopy k
          | none => false) = true := hsc
        have hls : List.lookup e.src (g.nodes
            ++ [(g.nextId, OpKind.cudaCopyFrom)]) = some ks := by
          rw [hpres e.src hksS]
          exact hks
        rw [hls] at hsc0
        have hksC : OpKind.isCopy ks = true := hsc0
        have : g.isCopyNode e.src = true := by
          unfold Graph.isCopyNode
          rw [hks]
          exact hksC
        rw [isCopyNode_iff] at this
        rcases this with hh | hh
        · rw [hls, ← hks]
          exact hh
        · rw [hks] at hh
          exact absurd (Option.some.inj hh) hksCF
      · show (g.nodes ++ _).lookup g.nextId = some OpKind.cudaCopyFrom
        exact hnew
    · subst hm
      exfalso
      have hdc0 : (match List.lookup pn (g.nodes
          ++ [(g.nextId, OpKind.cudaCopyFrom)]) with
        | some k => OpKind.isCopy k
        | none => false) = true := hdc
      have hlp : List.lookup pn (g.nodes
          ++ [(g.nextId, OpKind.cudaCopyFrom)]) = some kp := by
        rw [hpres pn hkpS]
        exact hkp
      rw [hlp] at hdc0
      have : OpKind.isCopy kp = true := hdc0
      rw [hkpNC] at this
      exact absurd this (by simp)

/-- The Stage C fold preserves the structural invariant. -/
theorem stageC_fold_inv (pairs : List (Nat × Edge)) (g h : Graph)
    (hinv : g.gcInv)
    (hl : ∀ pe ∈ pairs,
      (∃ k, g.payload pe.2.src = some k ∧ k ≠ OpKind.cudaCopyFrom)
        ∧ (∃ k, g.payload pe.1 = some k ∧ k.isCopy = false)
        ∧ pe.2.dst = pe.1)
    (hfold : pairs.foldlM
      (fun h pe => do
        let (printNode, e) := pe
        let (_, _, shape) ← e.w.asData
        let (copyNode, h1) := h.addNode .cudaCopyFrom
        let h2 := h1.addEdge ⟨e.src, copyNode, .data 0 0 shape⟩
        let h3 := h2.addEdge ⟨copyNode, printNode, .data 0 0 shape⟩
        pure (h3.removeEdge e))
      g = some h) :
    h.gcInv := by
  induction pairs generalizing g with
  | nil =>
      simp only [List.foldlM_nil, pure, Option.some.injEq] at hfold
      rw [← hfold]
      exact hinv
  | cons pe t ih =>
      rw [List.foldlM_cons] at hfold
      obtain ⟨pn, e⟩ := pe
      obtain ⟨es, edd, ew⟩ := e
      cases ew with
      | schedule =>
          exfalso
          have hfold2 : (none : Option Graph) = some h := hfold
          exact absurd hfold2 (by simp)
      | data i o sh =>
          have hfold2 : t.foldlM
              (fun h pe => do
                let (printNode, e) := pe
                let (_, _, shape) ← e.w.asData
                let (copyNode, h1) := h.addNode .cudaCopyFrom
                let h2 := h1.addEdge ⟨e.src, copyNode, .data 0 0 shape⟩
                let h3 := h2.addEdge ⟨copyNode, printNode,
                  .data 0 0 shape⟩
                pure (h3.removeEdge e))
              { g with
                nextId := g.nextId + 1,
                nodes := g.nodes ++ [(g.nextId, .cudaCopyFrom)],
                edges := ((g.edges
                  ++ [Edge.mk es g.nextId (.data 0 0 sh)])
                  ++ [Edge.mk g.nextId pn (.data 0 0 sh)]).erase
                    (Edge.mk es edd (.data i o sh)) } = some h := hfold
          obtain ⟨hf1, hf2, hf3⟩ := hl (pn, Edge.mk es edd (.data i o sh))
            (List.mem_cons_self _ _)
          obtain ⟨hinv2, hpres⟩ := stageC_interpose_inv g pn
            (Edge.mk es edd (.data i o sh)) sh hinv hf1 hf2 hf3
          refine ih _ hinv2 ?_ hfold2
          intro pe2 hpe2
          obtain ⟨⟨k1, hk1, hk1ne⟩, ⟨k2, hk2, hk2nc⟩, hd2⟩ :=
            hl pe2 (List.mem_cons_of_mem _ hpe2)
          exact ⟨⟨k1, by rw [hpres pe2.2.src (by rw [hk1]; rfl)]; exact hk1,
              hk1ne⟩,
            ⟨k2, by rw [hpres pe2.1 (by rw [hk2]; rfl)]; exact hk2, hk2nc⟩,
            hd2⟩

/-- Stage C preserves the structural invariant. -/
theorem stageC_gcInv (g h : Graph) (hinv : g.bcInv)
    (hC : CudaPrimitiveCompiler.stageC g = some h) : h.gcInv := by
  unfold Graph.bcInv at hinv
  obtain ⟨hgc, hcffun⟩ := hinv
  have hgc2 := hgc
  unfold Graph.gcInv at hgc2
  obtain ⟨hb, hnd, hval, hsingle, horient⟩ := hgc2
  unfold CudaPrimitiveCompiler.stageC at hC
  rw [Option.bind_eq_bind, Option.bind_eq_some] at hC
  obtain ⟨pairs, hm, hfold⟩ := hC
  refine stageC_fold_inv pairs g h hgc ?_ hfold
  intro pe hpe
  obtain ⟨p, hp, hfp⟩ := mapM_mem_option _ _ pairs hm pe hpe
  cases hfind : (g.incoming p.1).find? (fun e => ¬ e.w.isSchedule) with
  | none => rw [hfind] at hfp; simp at hfp
  | some e =>
      rw [hfind] at hfp
      simp only [Option.bind_eq_bind, Option.some_bind, pure,
        Option.some.injEq] at hfp
      have hp2 := List.mem_filter.mp hp
      have hprint : p.2 = OpKind.print := of_decide_eq_true hp2.2
      have hppl : g.payload p.1 = some p.2 :=
        lookup_of_mem_of_nodup g.nodes p.1 p.2 hnd hp2.1
      have hefacts : e ∈ g.incoming p.1 :=
        List.mem_of_find?_eq_some hfind
      have hem : e ∈ g.edges := (List.mem_filter.mp hefacts).1
      have hedst : e.dst = p.1 := incoming_dst g p.1 e hefacts
      rw [← hfp]
      refine ⟨?_, ?_, ?_⟩
      · rcases Option.isSome_iff_exists.mp (hval e hem).1 with ⟨k, hk⟩
        refine ⟨k, hk, ?_⟩
        intro hkCF
        subst hkCF
        have := hcffun e hem hk
        rw [hedst, hppl] at this
        have h2 := Option.some.inj this
        rw [hprint] at h2
        exact absurd h2 (by simp)
      · refine ⟨p.2, hppl, ?_⟩
        rw [hprint]
        rfl
      · exact hedst

/-- A classified primitive is not a copy operator, and neither is its
replacement. -/
theorem classify_not_copy (k : OpKind) (shapes : List ShapeTracker)
    (k1 : OpKind)
    (h : CudaPrimitiveCompiler.classify k shapes = some (some k1)) :
    k.isCopy = false ∧ k1.isCopy = false := by
  cases k <;>
    rcases shapes with _ | ⟨s0, _ | ⟨s1, rest⟩⟩ <;>
      simp_all [CudaPrimitiveCompiler.classify] <;>
      (subst h; simp [OpKind.isCopy, OpKind.isCopyTo, OpKind.isCopyFrom])

/-- A successful Stage D step preserves the skeleton, every node's
copy-status, payload liveness, and the payloads of copy nodes. -/
theorem stageDStep_copy_pres (g h : Graph) (id : Nat)
    (hs : CudaPrimitiveCompiler.stageDStep g id = some h) :
    h.edges = g.edges ∧ h.nextId = g.nextId
      ∧ h.nodes.map (fun p => p.1) = g.nodes.map (fun p => p.1)
      ∧ (∀ x, h.isCopyNode x = g.isCopyNode x)
      ∧ (∀ x, (h.payload x).isSome ↔ (g.payload x).isSome)
      ∧ (∀ x, g.isCopyNode x = true → h.payload x = g.payload x) := by
  unfold CudaPrimitiveCompiler.stageDStep at hs
  rcases hp : g.payload id with _ | k
  · rw [hp] at hs
    obtain rfl : g = h := by simpa using hs
    exact ⟨rfl, rfl, rfl, fun x => rfl, fun x => Iff.rfl, fun x _ => rfl⟩
  · rw [hp] at hs
    rcases hc : CudaPrimitiveCompiler.classify k
        ((sortByKey (fun t => t.1)
          ((g.incoming id).filterMap (fun e => e.w.asData))).map
          (fun t => t.2.2)) with _ | k2
    · simp only [hc] at hs
      obtain rfl : g = h := by simpa using hs
      exact ⟨rfl, rfl, rfl, fun x => rfl, fun x => Iff.rfl, fun x _ => rfl⟩
    · rcases k2 with _ | k1
      · simp only [hc] at hs
        exact absurd hs (by simp)
      · simp only [hc] at hs
        obtain rfl : g.setPayload id k1 = h := by simpa using hs
        have hsk := setPayload_skeleton g id k1
        have hkc := classify_not_copy k _ k1 hc
        have hself : (g.setPayload id k1).payload id = some k1 :=
          setPayload_payload_self g id k1 (by simp [hp])
        have hidnc : g.isCopyNode id = false := by
          unfold Graph.isCopyNode
          rw [hp]
          exact hkc.1
        refine ⟨hsk.2.1, hsk.2.2.2.2, hsk.1, ?_, ?_, ?_⟩
        · intro x
          by_cases hx : x = id
          · subst hx
            unfold Graph.isCopyNode
            rw [hself, hp]
            show k1.isCopy = k.isCopy
            rw [hkc.1, hkc.2]
          · unfold Graph.isCopyNode
            rw [setPayload_payload_ne g id k1 x hx]
        · intro x
          by_cases hx : x = id
          · subst hx
            rw [hself, hp]
            exact ⟨fun _ => rfl, fun _ => rfl⟩
          · rw [setPayload_payload_ne g id k1 x hx]
        · intro x hxc
          have hx : x ≠ id := by
            intro hEq
            rw [hEq, hidnc] at hxc
            exact absurd hxc (by simp)
          exact setPayload_payload_ne g id k1 x hx

/-- A Stage D step preserves the structural invariant. -/
theorem stageDStep_gcInv (g h : Graph) (id : Nat) (hinv : g.gcInv)
    (hs : CudaPrimitiveCompiler.stageDStep g id = some h) : h.gcInv := by
  obtain ⟨hedges, hnext, hkeys, hcopy, hsome, hcpay⟩ :=
    stageDStep_copy_pres g h id hs
  unfold Graph.gcInv at hinv ⊢
  obtain ⟨hb, hnd, hval, hsingle, horient⟩ := hinv
  have hincoming : ∀ d, h.incoming d = g.incoming d := by
    intro d
    unfold Graph.incoming
    rw [hedges]
  refine ⟨?_, ?_, ?_, ?_, ?_⟩
  · intro p hp
    have hp1 : p.1 ∈ g.nodes.map (fun q => q.1) := by
      rw [← hkeys]
      exact List.mem_map_of_mem _ hp
    rcases List.mem_map.mp hp1 with ⟨q, hq, hqe⟩
    rw [hnext, ← hqe]
    exact hb q hq
  · unfold Graph.keysNodup
    rw [hkeys]
    exact hnd
  · intro e he
    rw [hedges] at he
    have hv := hval e he
    exact ⟨(hsome e.src).mpr hv.1, (hsome e.dst).mpr hv.2⟩
  · intro c hc
    rw [hcopy c] at hc
    rw [hincoming c]
    exact hsingle c hc
  · intro e he hsc hdc
    rw [hedges] at he
    rw [hcopy e.src] at hsc
    rw [hcopy e.dst] at hdc
    have := horient e he hsc hdc
    rw [hcpay e.src hsc, hcpay e.dst hdc]
    exact this

/-- The Stage D fold preserves the structural invariant. -/
theorem stageD_fold_gcInv (l : List Nat) (g h : Graph) (hinv : g.gcInv)
    (hfold : l.foldlM CudaPrimitiveCompiler.stageDStep g = some h) :
    h.gcInv := by
  induction l generalizing g with
  | nil =>
      simp only [List.foldlM_nil, pure, Option.some.injEq] at hfold
      rw [← hfold]
      exact hinv
  | cons a t ih =>
      rw [List.foldlM_cons] at hfold
      cases hs : CudaPrimitiveCompiler.stageDStep g a with
      | none => rw [hs] at hfold; simp at hfold
      | some g2 =>
          rw [hs] at hfold
          simp only [Option.bind_eq_bind, Option.some_bind] at hfold
          exact ih g2 (stageDStep_gcInv g g2 a hinv hs) hfold

/-- Stage D yields the `goodCopies` facts needed by the copy-fusion pass. -/
theorem stageD_goodCopies (g h : Graph) (hinv : g.gcInv)
    (hD : CudaPrimitiveCompiler.stageD g = some h) : h.goodCopies := by
  unfold CudaPrimitiveCompiler.stageD at hD
  have hg := stageD_fold_gcInv _ g h hinv hD
  unfold Graph.gcInv at hg
  exact ⟨hg.2.2.1, hg.2.2.2⟩

/-- The primitive pass output satisfies the `goodCopies` facts, for any
well-formed copy-free input whose retrieval ids are live. -/
theorem primCompile_goodCopies (g g1 : Graph)
    (hb : g.keysBounded) (hnd : g.keysNodup) (hval : g.edgesValid)
    (hcf : g.copyFree)
    (htr : ∀ n ∈ g.toRetrieve, (g.payload n).isSome)
    (hc : CudaPrimitiveCompiler.compile g = some g1) : g1.goodCopies := by
  unfold CudaPrimitiveCompiler.compile at hc
  rw [Option.bind_eq_bind, Option.bind_eq_some] at hc
  obtain ⟨gB, hB, hc2⟩ := hc
  rw [Option.bind_eq_some] at hc2
  obtain ⟨gC, hC, hD⟩ := hc2
  have hA := stageA_aInv g hb hnd hval hcf htr
  have hBinv := stageB_bcInv (CudaPrimitiveCompiler.stageA g) gB hA hB
  have hCinv := stageC_gcInv gB gC hBinv hC
  exact stageD_goodCopies gC g1 hCinv hD

/-- The copy-fusion sweep fold preserves the sweep invariant to the end. -/
theorem sweep_fold_inv (l : List (Nat × Nat)) (g h : Graph)
    (hinv : g.sweepInv l)
    (hfold : l.foldlM CopyCompiler.processPair g = some h) :
    h.sweepInv [] := by
  induction l generalizing g with
  | nil =>
      simp only [List.foldlM_nil, pure, Option.some.injEq] at hfold
      rw [← hfold]
      exact hinv
  | cons p t ih =>
      rw [List.foldlM_cons] at hfold
      cases hs : CopyCompiler.processPair g p with
      | none => rw [hs] at hfold; simp at hfold
      | some g2 =>
          rw [hs] at hfold
          simp only [Option.bind_eq_bind, Option.some_bind] at hfold
          exact ih g2 (processPair_inv g g2 p.1 p.2 t hinv hs) hfold

/-- `unique_by` keeps a sublist. -/
theorem uniqueByAux_sublist {α : Type} (key : α → Nat) (l : List α) :
    ∀ seen, (uniqueByAux key seen l).Sublist l := by
  induction l with
  | nil => intro seen; exact List.Sublist.refl []
  | cons a t ih =>
      intro seen
      unfold uniqueByAux
      by_cases h : key a ∈ seen
      · rw [if_pos h]
        exact List.Sublist.cons a (ih seen)
      · rw [if_neg h]
        exact List.Sublist.cons₂ a (ih _)

/-- `unique_by` keeps a representative of every unseen key. -/
theorem uniqueByAux_coverage {α : Type} (key : α → Nat) (l : List α) :
    ∀ seen a, a ∈ l → key a ∉ seen →
      ∃ b ∈ uniqueByAux key seen l, key b = key a := by
  induction l with
  | nil => intro seen a ha _; cases ha
  | cons x t ih =>
      intro seen a ha hs
      unfold uniqueByAux
      by_cases h : key x ∈ seen
      · rw [if_pos h]
        rcases List.mem_cons.mp ha with rfl | hat
        · exact absurd h hs
        · exact ih seen a hat hs
      · rw [if_neg h]
        by_cases hk : key a = key x
        · exact ⟨x, List.mem_cons_self _ _, hk.symm⟩
        · rcases List.mem_cons.mp ha with rfl | hat
          · exact absurd rfl hk
          · obtain ⟨b, hb, hbk⟩ := ih (key x :: seen) a hat (by
              intro hmem
              rcases List.mem_cons.mp hmem with h1 | h2
              · exact hk h1
              · exact hs h2)
            exact ⟨b, List.mem_cons_of_mem _ hb, hbk⟩

/-- The keys of a `unique_by` output are distinct and unseen. -/
theorem uniqueByAux_keys_nodup {α : Type} (key : α → Nat) (l : List α) :
    ∀ seen, ((uniqueByAux key seen l).map key).Nodup
      ∧ ∀ b ∈ uniqueByAux key seen l, key b ∉ seen := by
  induction l with
  | nil =>
      intro seen
      exact ⟨by simp [uniqueByAux], by intro b hb; simp [uniqueByAux] at hb⟩
  | cons x t ih =>
      intro seen
      unfold uniqueByAux
      by_cases h : key x ∈ seen
      · rw [if_pos h]
        exact ih seen
      · rw [if_neg h]
        obtain ⟨hnd, hnin⟩ := ih (key x :: seen)
        constructor
        · rw [List.map_cons, List.nodup_cons]
          refine ⟨?_, hnd⟩
          intro hmem
          rcases List.mem_map.mp hmem with ⟨b, hb, hbk⟩
          exact (hnin b hb) (by rw [hbk]; exact List.mem_cons_self _ _)
        · intro b hb
          rcases List.mem_cons.mp hb with rfl | hbt
          · exact h
          · intro hmem
            exact (hnin b hbt) (List.mem_cons_of_mem _ hmem)

/-- `unique_by` with distinct unseen keys is the identity. -/
theorem uniqueByAux_eq_self {α : Type} (key : α → Nat) (l : List α) :
    ∀ seen, (l.map key).Nodup → (∀ a ∈ l, key a ∉ seen) →
      uniqueByAux key seen l = l := by
  induction l with
  | nil => intro seen _ _; rfl
  | cons x t ih =>
      intro seen hnd hdisj
      unfold uniqueByAux
      rw [if_neg (hdisj x (List.mem_cons_self _ _))]
      congr 1
      rw [List.map_cons, List.nodup_cons] at hnd
      refine ih (key x :: seen) hnd.2 ?_
      intro a ha hmem
      rcases List.mem_cons.mp hmem with h1 | h2
      · exact hnd.1 (h1 ▸ List.mem_map_of_mem key ha)
      · exact hdisj a (List.mem_cons_of_mem _ ha) h2

/-- The candidate list of the copy-fusion sweep establishes the sweep
invariant on any `goodCopies` graph. -/
theorem sweepInv_candidates (g : Graph) (hg : g.goodCopies) :
    g.sweepInv (CopyCompiler.candidates g) := by
  obtain ⟨hval, hsingle, horient⟩ := hg
  have hL0mem : ∀ p ∈ ((g.edges.map (fun e => (e.src, e.dst))).filter
      (fun p => g.fusiblePair p.1 p.2)),
      g.payload p.1 = some OpKind.cudaCopyTo
        ∧ g.payload p.2 = some OpKind.cudaCopyFrom := by
    intro p hp
    obtain ⟨hp1, hp2⟩ := List.mem_filter.mp hp
    rcases List.mem_map.mp hp1 with ⟨e, he, hpe⟩
    subst hpe
    exact fusible_edge_oriented g horient e he hp2
  have hu1sub : ∀ p ∈ uniqueBy (fun p : Nat × Nat => p.1)
      ((g.edges.map (fun e => (e.src, e.dst))).filter
        (fun p => g.fusiblePair p.1 p.2)),
      p ∈ ((g.edges.map (fun e => (e.src, e.dst))).filter
        (fun p => g.fusiblePair p.1 p.2)) := by
    intro p hp
    exact (uniqueByAux_sublist (fun p : Nat × Nat => p.1) _ []).subset hp
  have hu1nd : ((uniqueBy (fun p : Nat × Nat => p.1)
      ((g.edges.map (fun e => (e.src, e.dst))).filter
        (fun p => g.fusiblePair p.1 p.2))).map
      (fun p : Nat × Nat => p.1)).Nodup :=
    (uniqueByAux_keys_nodup (fun p : Nat × Nat => p.1) _ []).1
  have hsndinj : ∀ x ∈ ((g.edges.map (fun e => (e.src, e.dst))).filter
      (fun p => g.fusiblePair p.1 p.2)),
      ∀ y ∈ ((g.edges.map (fun e => (e.src, e.dst))).filter
        (fun p => g.fusiblePair p.1 p.2)), x.2 = y.2 → x.1 = y.1 := by
    intro x hx y hy hxy
    have hxCF := (hL0mem x hx).2
    obtain ⟨hx1, _⟩ := List.mem_filter.mp hx
    rcases List.mem_map.mp hx1 with ⟨ex, hex, hxe⟩
    obtain ⟨hy1, _⟩ := List.mem_filter.mp hy
    rcases List.mem_map.mp hy1 with ⟨ey, hey, hye⟩
    subst hxe
    subst hye
    have hbcopy : g.isCopyNode ex.dst = true := by
      rw [isCopyNode_iff]
      exact Or.inr hxCF
    have hlen := (hsingle ex.dst hbcopy).1
    have hmx : ex ∈ g.incoming ex.dst :=
      List.mem_filter.mpr ⟨hex, decide_eq_true rfl⟩
    have hmy : ey ∈ g.incoming ex.dst := by
      refine List.mem_filter.mpr ⟨hey, decide_eq_true ?_⟩
      exact hxy.symm
    rcases List.length_eq_one.mp hlen with ⟨a, ha⟩
    rw [ha] at hmx hmy
    simp only [List.mem_singleton] at hmx hmy
    show ex.src = ey.src
    rw [hmx, hmy]
  have hu1snd : ((uniqueBy (fun p : Nat × Nat => p.1)
      ((g.edges.map (fun e => (e.src, e.dst))).filter
        (fun p => g.fusiblePair p.1 p.2))).map
      (fun p : Nat × Nat => p.2)).Nodup := by
    have h1 : (uniqueBy (fun p : Nat × Nat => p.1)
        ((g.edges.map (fun e => (e.src, e.dst))).filter
          (fun p => g.fusiblePair p.1 p.2))).Pairwise
        (fun a b => a.1 ≠ b.1) := by
      have h0 := hu1nd
      rw [List.Nodup, List.pairwise_map] at h0
      exact h0
    have h2 : (uniqueBy (fun p : Nat × Nat => p.1)
        ((g.edges.map (fun e => (e.src, e.dst))).filter
          (fun p => g.fusiblePair p.1 p.2))).Pairwise
        (fun a b => a.2 ≠ b.2) := by
      refine h1.imp_of_mem ?_
      intro a b ha hb hab h2eq
      exact hab (hsndinj a (hu1sub a ha) b (hu1sub b hb) h2eq)
    rw [List.Nodup, List.pairwise_map]
    exact h2
  have hcand : CopyCompiler.candidates g
      = uniqueBy (fun p : Nat × Nat => p.1)
        ((g.edges.map (fun e => (e.src, e.dst))).filter
          (fun p => g.fusiblePair p.1 p.2)) := by
    show uniqueBy (fun p : Nat × Nat => p.2) _ = _
    unfold uniqueBy
    refine uniqueByAux_eq_self _ _ [] hu1snd ?_
    intro a _ hmem
    cases hmem
  unfold Graph.sweepInv
  refine ⟨hval, hsingle, horient, ?_, ?_, ?_, ?_⟩
  · intro q hq
    rw [hcand] at hq
    exact (hL0mem q (hu1sub q hq)).1
  · intro q hq
    rw [hcand] at hq
    exact Or.inl (hL0mem q (hu1sub q hq)).2
  · rw [hcand]
    exact hu1nd
  · intro e he hfus
    have hp : (e.src, e.dst) ∈ ((g.edges.map
        (fun e => (e.src, e.dst))).filter
        (fun p => g.fusiblePair p.1 p.2)) := by
      refine List.mem_filter.mpr ⟨List.mem_map_of_mem _ he, ?_⟩
      exact hfus
    obtain ⟨b, hb, hbk⟩ := uniqueByAux_coverage
      (fun p : Nat × Nat => p.1) _ [] (e.src, e.dst) hp (by
        intro hmem
        cases hmem)
    refine Or.inl ⟨b, ?_, hbk⟩
    rw [hcand]
    exact hb

/-- One run of the copy-fusion sweep pins every leftover fusible pair, on
any `goodCopies` input. -/
theorem copyCompile_noLeftovers (g h : Graph) (hg : g.goodCopies)
    (hc : CopyCompiler.compile g = some h) : h.noFusibleLeftovers := by
  unfold CopyCompiler.compile at hc
  have hsw := sweep_fold_inv (CopyCompiler.candidates g) g h
    (sweepInv_candidates g hg) hc
  unfold Graph.sweepInv at hsw
  obtain ⟨_, _, _, _, _, _, hacct⟩ := hsw
  intro e he hfus
  rcases hacct e he hfus with ⟨q, hq, _⟩ | hpin
  · exact absurd hq (List.not_mem_nil q)
  · exact hpin

/-- C1: after the primitive substitution pass (`CudaPrimitiveCompiler.compile`)
followed by one run of the copy-fusion pass (`CopyCompiler.compile`), no edge
of the resulting graph joins a `CudaCopyToDevice` and a `CudaCopyFromDevice`
in either direction unless its head is pinned — in `no_delete` or feeding a
non-copy consumer; the copy-fusion pass reaches its fixed point in a single
sweep.  The input is any well-formed copy-free graph whose retrieval ids are
live, i.e. any graph the abstract IR hands to the backend. -/
theorem copy_fusion_single_sweep (g g1 g2 : Graph)
    (hb : g.keysBounded) (hnd : g.keysNodup) (hval : g.edgesValid)
    (hcf : g.copyFree)
    (htr : ∀ n ∈ g.toRetrieve, (g.payload n).isSome)
    (h1 : CudaPrimitiveCompiler.compile g = some g1)
    (h2 : CopyCompiler.compile g1 = some g2) :
    g2.noFusibleLeftovers :=
  copyCompile_noLeftovers g1 g2
    (primCompile_goodCopies g g1 hb hnd hval hcf htr h1) h2

/-- C1 witness: a two-function pipeline feeding a `Log2`, run through both
passes end to end. -/
theorem copy_fusion_single_sweep_witness :
    Graph.noFusibleLeftovers
      ⟨7, [(0, OpKind.function), (1, OpKind.function), (2, OpKind.cudaLog2),
           (4, OpKind.cudaCopyTo), (6, OpKind.cudaCopyFrom)],
        [⟨1, 4, .data 0 0 ShapeTracker.empty⟩,
         ⟨4, 2, .data 0 0 ShapeTracker.empty⟩,
         ⟨2, 6, .data 0 0 ShapeTracker.empty⟩,
         ⟨0, 1, .data 0 0 ShapeTracker.empty⟩],
        [6], [6]⟩ :=
  copy_fusion_single_sweep
    ⟨3, [(0, OpKind.function), (1, OpKind.function), (2, OpKind.log2)],
      [⟨0, 1, .data 0 0 ShapeTracker.empty⟩,
       ⟨1, 2, .data 0 0 ShapeTracker.empty⟩],
      [2], [2]⟩
    ⟨7, [(0, OpKind.function), (1, OpKind.function), (2, OpKind.cudaLog2),
         (3, OpKind.cudaCopyTo), (4, OpKind.cudaCopyTo),
         (5, OpKind.cudaCopyFrom), (6, OpKind.cudaCopyFrom)],
      [⟨0, 3, .data 0 0 ShapeTracker.empty⟩,
       ⟨1, 4, .data 0 0 ShapeTracker.empty⟩,
       ⟨4, 2, .data 0 0 ShapeTracker.empty⟩,
       ⟨3, 5, .data 0 0 ShapeTracker.empty⟩,
       ⟨5, 1, .data 0 0 ShapeTracker.empty⟩,
       ⟨2, 6, .data 0 0 ShapeTracker.empty⟩],
      [6], [6]⟩
    ⟨7, [(0, OpKind.function), (1, OpKind.function), (2, OpKind.cudaLog2),
         (4, OpKind.cudaCopyTo), (6, OpKind.cudaCopyFrom)],
      [⟨1, 4, .data 0 0 ShapeTracker.empty⟩,
       ⟨4, 2, .data 0 0 ShapeTracker.empty⟩,
       ⟨2, 6, .data 0 0 ShapeTracker.empty⟩,
       ⟨0, 1, .data 0 0 ShapeTracker.empty⟩],
      [6], [6]⟩
    (by unfold Graph.keysBounded; decide)
    (by unfold Graph.keysNodup; decide)
    (by unfold Graph.edgesValid; decide)
    (by unfold Graph.copyFree; decide)
    (by decide)
    (by decide)
    (by decide)
